import Mathlib

/-!
# poutine: fixture loader, merge and placeholder patterns

A shallow embedding of `testine/loader.go` and `exp/pattern.go`.

* Go slices are lists together with the `nil` slice (`Option (List _)`, `none` being `nil`).
* Go maps with string keys are total functions into `Option`.
* A Go `error` is `Option String`: `none` is the `nil` error.
* Calls into the operating system, the JSON decoder, `reflect` and the comparator are
  fields of environment structures passed as arguments.
-/

namespace Poutine

/-! ## Data model (`jwalk.Document`) -/

/-- A Go `error` value: `none` is `nil`, `some msg` an error with that message. -/
abbrev GoError := Option String

/-- One `jwalk.Entry`: a key with its value. -/
structure Entry (V : Type) where
  Key : String
  Value : V
deriving DecidableEq, Repr

/-- The type `jwalk.Document`, a Go slice of entries; `none` is the `nil` slice. -/
abbrev Document (V : Type) := Option (List (Entry V))

/-- The entries a `range` over the document visits (none for the `nil` slice). -/
def Document.entries {V : Type} : Document V → List (Entry V)
  | none => []
  | some es => es

/-- Go `len(doc)`. -/
def Document.len {V : Type} (d : Document V) : Nat := d.entries.length

/-- Go `append(doc, e)`: the result is never the `nil` slice. -/
def Document.append {V : Type} (d : Document V) (e : Entry V) : Document V :=
  some (d.entries ++ [e])

/-- Replace the value of the element at `pos`, keeping its key. -/
def setValueAt {V : Type} : List (Entry V) → Nat → V → List (Entry V)
  | [], _, _ => []
  | x :: xs, 0, v => { x with Value := v } :: xs
  | x :: xs, pos + 1, v => x :: setValueAt xs pos v

/-- Go `doc[pos].Value = v`. An index out of range panics in Go; `mergeDocs` never
produces one (`MergeInv`), and the model leaves the slice unchanged there. -/
def Document.setValue {V : Type} (d : Document V) (pos : Nat) (v : V) : Document V :=
  d.map (fun es => setValueAt es pos v)

/-- A Go `map[string]α`. -/
abbrev GoMap (α : Type) := String → Option α

/-- The empty map of `make(map[string]α)`. -/
def GoMap.empty {α : Type} : GoMap α := fun _ => none

/-- Go `m[k] = v`. -/
def GoMap.set {α : Type} (m : GoMap α) (k : String) (v : α) : GoMap α :=
  fun k' => if k' = k then some v else m k'

/-! ## `mergeDocs` -/

/-- The two local variables of `mergeDocs`: the accumulated slice and the key index. -/
structure MergeState (V : Type) where
  merged : Document V
  index : GoMap Nat

/-- Body of the inner `for _, e := range doc` loop of `mergeDocs`. -/
def mergeEntry {V : Type} (st : MergeState V) (e : Entry V) : MergeState V :=
  match st.index e.Key with
  | some pos => { st with merged := st.merged.setValue pos e.Value }
  | none =>
    { merged := st.merged.append e
      index := st.index.set e.Key st.merged.len }

/-- The callback `mergeDocs` hands to its iterator: one yielded document. -/
def mergeYield {V : Type} (st : MergeState V) (doc : Document V) : MergeState V :=
  doc.entries.foldl mergeEntry st

/-- The function `mergeDocs`, applied to the documents its iterator yields, in order. -/
def mergeDocs {V : Type} (docs : List (Document V)) : Document V :=
  (docs.foldl mergeYield { merged := none, index := GoMap.empty }).merged

/-! ### Specification vocabulary for the merge -/

/-- Every source entry, sources left to right and entries top to bottom. -/
def allEntries {V : Type} (docs : List (Document V)) : List (Entry V) :=
  docs.flatMap Document.entries

/-- The distinct elements of a list in order of first appearance. -/
def firstAppearance : List String → List String
  | [] => []
  | k :: ks => k :: (firstAppearance ks).filter (fun k' => k' ≠ k)

/-- The value of the last entry of `all` that carries key `k`. -/
def lastValue {V : Type} (all : List (Entry V)) (k : String) : Option V :=
  (all.reverse.find? (fun e => e.Key = k)).map Entry.Value

/-- Insert-or-replace on a plain list: what one merge step does to the entries. -/
def upsert {V : Type} (es : List (Entry V)) (e : Entry V) : List (Entry V) :=
  if e.Key ∈ es.map Entry.Key then
    es.map (fun x => if x.Key = e.Key then { x with Value := e.Value } else x)
  else es ++ [e]

/-- Loop invariant of `mergeDocs`: the index holds exactly the positions of the keys. -/
def MergeInv {V : Type} (st : MergeState V) : Prop :=
  ∀ k pos, st.index k = some pos ↔ (st.merged.entries[pos]?).map Entry.Key = some k

/-! ## Strings (`strings`, `sort`) -/

/-- Go `unicode.ToLower` on one rune. The ASCII capitals, U+0130 and U+212A are the only
runes whose lower-case form is an ASCII character; the remaining case pairs of the Unicode
tables map non-ASCII runes to non-ASCII runes and are left unchanged here. -/
def toLowerRune (c : Char) : Char :=
  if 65 ≤ c.toNat ∧ c.toNat ≤ 90 then Char.ofNat (c.toNat + 32)
  else if c.toNat = 0x130 then 'i'
  else if c.toNat = 0x212A then 'k'
  else c

/-- Go `strings.ToLower`. -/
def ToLower (s : String) : String := ⟨s.data.map toLowerRune⟩

/-- Go `strings.HasSuffix`. -/
def HasSuffix (s suffix : String) : Bool := suffix.data.isSuffixOf s.data

/-- Go `strings.ContainsAny`. -/
def ContainsAny (s chars : String) : Bool := s.data.any (fun c => chars.data.contains c)

/-- Go `sort.Strings`: ascending order of the strings, compared rune by rune (the order of
their UTF-8 bytes). -/
def sortStrings (xs : List String) : List String :=
  xs.insertionSort (fun a b => a.data ≤ b.data)

/-! ## File system and decoder (external) -/

/-- The file type bits of `fs.FileMode`. -/
inductive FileType where
  | Regular | Dir | Symlink | NamedPipe | Socket | Device | CharDevice | Irregular
deriving DecidableEq, Repr

/-- An `fs.FileInfo` as far as the loader reads it. -/
structure FileInfo where
  Mode : FileType
deriving DecidableEq, Repr

/-- Go `info.IsDir()`. -/
def FileInfo.IsDir (i : FileInfo) : Bool := i.Mode = FileType.Dir

/-- An `fs.DirEntry` as far as the loader reads it. -/
structure DirEntry where
  Name : String
  Mode : FileType
deriving DecidableEq, Repr

/-- Go `e.IsDir()`. -/
def DirEntry.IsDir (e : DirEntry) : Bool := e.Mode = FileType.Dir

/-- The operating system and decoder calls of the loader, for one fixed state of the file
system. `Reg` is the type of `*jwalk.Registry`, `V` the type of decoded values. -/
structure Env (Reg V : Type) where
  /-- Go `os.Stat`. -/
  Stat : String → Except String FileInfo
  /-- Go `os.ReadDir`. -/
  ReadDir : String → Except String (List DirEntry)
  /-- Go `filepath.Glob`. -/
  Glob : String → Except String (List String)
  /-- Go `filepath.Join` of two elements. -/
  Join : String → String → String
  /-- Go `os.Open`, giving the content of the file. -/
  Open : String → Except String String
  /-- Go `json.UnmarshalRead` into a `jwalk.Document` with the unmarshalers of a registry. -/
  UnmarshalRead : Reg → String → Except String (Document V)

/-! ## `documentLoader` -/

/-- The struct `documentLoader`. The mutex and the single-flight group have no part in a
sequential run. `opened` is not a field of the Go struct: it logs, in order, the files
handed to `os.Open`. -/
structure documentLoader (Reg V : Type) where
  reg : Reg
  cache : Bool
  fileCache : GoMap (Document V)
  pathCache : GoMap (Document V)
  opened : List String

/-- The constructor `newDocumentLoader`. Without caching the Go maps stay `nil`, which reads
like the empty map and is never written. -/
def newDocumentLoader {Reg V : Type} (reg : Reg) (cache : Bool) : documentLoader Reg V :=
  { reg := reg, cache := cache, fileCache := GoMap.empty, pathCache := GoMap.empty,
    opened := [] }

/-- The helper `copyDoc`: a fresh slice with the same entries, never `nil`. -/
def copyDoc {V : Type} (doc : Document V) : Document V := some doc.entries

/-- The helper `isJSONFile`. -/
def isJSONFile (name : String) : Bool := HasSuffix (ToLower name) ".json"

/-- Method `getPathCache`: a missing key reads as the `nil` document. -/
def documentLoader.getPathCache {Reg V : Type} (l : documentLoader Reg V) (path : String) :
    Document V :=
  (l.pathCache path).join

/-- Method `setPathCache`. -/
def documentLoader.setPathCache {Reg V : Type} (l : documentLoader Reg V) (path : String)
    (doc : Document V) : documentLoader Reg V :=
  { l with pathCache := l.pathCache.set path doc }

/-- Method `getFileCache`. -/
def documentLoader.getFileCache {Reg V : Type} (l : documentLoader Reg V) (f : String) :
    Document V :=
  (l.fileCache f).join

/-- Method `setFileCache`. -/
def documentLoader.setFileCache {Reg V : Type} (l : documentLoader Reg V) (f : String)
    (d : Document V) : documentLoader Reg V :=
  { l with fileCache := l.fileCache.set f d }

/-- The pure part of `readFile`: open the file, then decode its content. -/
def decodeFile {Reg V : Type} (env : Env Reg V) (reg : Reg) (file : String) :
    Except String (Document V) :=
  match env.Open file with
  | .error err => .error err
  | .ok f => env.UnmarshalRead reg f

/-- Method `readFile`: returns `(doc, nil)` or `(nil, err)`. -/
def documentLoader.readFile {Reg V : Type} (env : Env Reg V) (l : documentLoader Reg V)
    (file : String) : (Document V × GoError) × documentLoader Reg V :=
  let l' := { l with opened := l.opened ++ [file] }
  match decodeFile env l.reg file with
  | .error err => ((none, some err), l')
  | .ok doc => ((doc, none), l')

/-- The function `getFile` runs in its single flight. -/
def documentLoader.getFileFlight {Reg V : Type} (env : Env Reg V) (l : documentLoader Reg V)
    (file : String) : (Document V × GoError) × documentLoader Reg V :=
  match l.getFileCache file with
  | some d => ((copyDoc (some d), none), l)
  | none =>
    match l.readFile env file with
    | ((_, some err), l') => ((none, some err), l')
    | ((doc, none), l') => ((copyDoc doc, none), l'.setFileCache file doc)

/-- Method `getFile`. In a sequential run `group.Do` calls its function once and returns
what it returns. -/
def documentLoader.getFile {Reg V : Type} (env : Env Reg V) (l : documentLoader Reg V)
    (file : String) : (Document V × GoError) × documentLoader Reg V :=
  if !l.cache then l.readFile env file
  else
    match l.getFileCache file with
    | some d => ((copyDoc (some d), none), l)
    | none =>
      match l.getFileFlight env file with
      | ((_, some err), l') => ((none, some err), l')
      | ((v, none), l') => ((v, none), l')

/-- The condition under which the glob loop of `resolve` keeps a match. -/
def keepMatch {Reg V : Type} (env : Env Reg V) (m : String) : Bool :=
  match env.Stat m with
  | .ok info => !info.IsDir && isJSONFile m
  | .error _ => false

/-- Method `resolve`. The returned slice is a list: its callers only take its length, sort
it and range over it, which does not tell `nil` from empty. -/
def resolve {Reg V : Type} (env : Env Reg V) (path : String) : List String × GoError :=
  match env.Stat path with
  | .ok info =>
    if !info.IsDir then
      if !isJSONFile path then ([], some "not a json file")
      else ([path], none)
    else
      match env.ReadDir path with
      | .error err => ([], some err)
      | .ok ents =>
        ((ents.filter (fun e => !e.IsDir && isJSONFile e.Name)).map
          (fun e => env.Join path e.Name), none)
  | .error _ =>
    if !ContainsAny path "*?[" then ([], some "path not found")
    else
      match env.Glob path with
      | .error gerr => ([], some gerr)
      | .ok found => (found.filter (keepMatch env), none)

/-- The iterator `loadPath` passes to `mergeDocs`: the documents it yields, the value of
`readErr` when it returns, and the loader afterwards. -/
def documentLoader.readFiles {Reg V : Type} (env : Env Reg V) :
    documentLoader Reg V → List String →
      List (Document V) × GoError × documentLoader Reg V
  | l, [] => ([], none, l)
  | l, f :: fs =>
    match l.getFile env f with
    | ((_, some err), l') => ([], some err, l')
    | ((d, none), l') =>
      match documentLoader.readFiles env l' fs with
      | (ds, readErr, l'') => (d :: ds, readErr, l'')

/-- Method `loadPath`. -/
def documentLoader.loadPath {Reg V : Type} (env : Env Reg V) (l : documentLoader Reg V)
    (path : String) : (Document V × GoError) × documentLoader Reg V :=
  match resolve env path with
  | (_, some err) => ((none, some err), l)
  | (files, none) =>
    match files with
    | [] => ((none, some "no json files resolved"), l)
    | [file] => l.getFile env file
    | _ =>
      match l.readFiles env (sortStrings files) with
      | (docs, readErr, l') =>
        let doc := mergeDocs docs
        match readErr with
        | some err => ((none, some err), l')
        | none => ((doc, none), l')

/-- The function `load` runs in its single flight. -/
def documentLoader.loadFlight {Reg V : Type} (env : Env Reg V) (l : documentLoader Reg V)
    (path : String) : (Document V × GoError) × documentLoader Reg V :=
  match l.getPathCache path with
  | some d => ((copyDoc (some d), none), l)
  | none =>
    match l.loadPath env path with
    | ((_, some err), l') => ((none, some err), l')
    | ((doc, none), l') => ((copyDoc doc, none), l'.setPathCache path doc)

/-- Method `load`. -/
def documentLoader.load {Reg V : Type} (env : Env Reg V) (l : documentLoader Reg V)
    (path : String) : (Document V × GoError) × documentLoader Reg V :=
  if !l.cache then l.loadPath env path
  else
    match l.getPathCache path with
    | some d => ((copyDoc (some d), none), l)
    | none =>
      match l.loadFlight env path with
      | ((_, some err), l') => ((none, some err), l')
      | ((v, none), l') => ((v, none), l')

/-! ### Specification vocabulary for the loader -/

/-- The path ends with `.json` in any mix of upper and lower case. -/
def EndsWithJSONFold (path : String) : Prop :=
  ∃ (pre : List Char) (j s o n : Char),
    path.data = pre ++ ['.', j, s, o, n] ∧ (j = 'j' ∨ j = 'J') ∧ (s = 's' ∨ s = 'S') ∧
      (o = 'o' ∨ o = 'O') ∧ (n = 'n' ∨ n = 'N')

/-- The four ways a path specification names nothing usable: a path that does not exist
and is no glob pattern, a directory without a usable entry, a glob pattern without a usable
match, and an existing file whose extension is not recognized. -/
inductive Unusable {Reg V : Type} (env : Env Reg V) (path : String) : Prop where
  | missing (e : String) (hstat : env.Stat path = .error e)
      (hglob : ContainsAny path "*?[" = false) : Unusable env path
  | emptyDir (info : FileInfo) (ents : List DirEntry) (hstat : env.Stat path = .ok info)
      (hdir : info.IsDir = true) (hread : env.ReadDir path = .ok ents)
      (hnone : ∀ e ∈ ents, e.IsDir = true ∨ isJSONFile e.Name = false) : Unusable env path
  | globNoMatch (e : String) (found : List String) (hstat : env.Stat path = .error e)
      (hglob : ContainsAny path "*?[" = true) (hfound : env.Glob path = .ok found)
      (hnone : ∀ m ∈ found, keepMatch env m = false) : Unusable env path
  | wrongExtension (info : FileInfo) (hstat : env.Stat path = .ok info)
      (hfile : info.IsDir = false) (hext : isJSONFile path = false) : Unusable env path

/-- A small file system: directory `/d` holds `b.json`, `a.JSON`, `notes.txt` and the
sub-directory `sub`; directory `/e` holds `a.json`, the undecodable `bad.json` and
`ok.json`; directory `/empty` is empty. -/
def demoEnv : Env Unit Nat where
  Stat p :=
    if p = "/d" ∨ p = "/d/sub" ∨ p = "/e" ∨ p = "/empty" then .ok ⟨FileType.Dir⟩
    else if p = "/d/a.JSON" ∨ p = "/d/b.json" ∨ p = "/d/notes.txt" ∨ p = "/e/a.json" ∨
        p = "/e/bad.json" ∨ p = "/e/ok.json" then .ok ⟨FileType.Regular⟩
    else .error "stat: no such file or directory"
  ReadDir p :=
    if p = "/d" then
      .ok [⟨"a.JSON", FileType.Regular⟩, ⟨"b.json", FileType.Regular⟩,
        ⟨"notes.txt", FileType.Regular⟩, ⟨"sub", FileType.Dir⟩]
    else if p = "/e" then
      .ok [⟨"a.json", FileType.Regular⟩, ⟨"bad.json", FileType.Regular⟩,
        ⟨"ok.json", FileType.Regular⟩]
    else if p = "/empty" then .ok []
    else .error "readdir: not a directory"
  Glob p :=
    if p = "/d/*" then .ok ["/d/a.JSON", "/d/b.json", "/d/notes.txt", "/d/sub"]
    else if p = "/d/[" then .error "syntax error in pattern"
    else .ok []
  Join a b := a ++ "/" ++ b
  Open p :=
    if p = "/d/a.JSON" then .ok "[x:1,y:2]"
    else if p = "/d/b.json" then .ok "[y:9,z:3]"
    else if p = "/e/a.json" then .ok "[x:1,y:2]"
    else if p = "/e/ok.json" then .ok "[ok:1]"
    else if p = "/e/bad.json" then .ok "not valid json"
    else if p = "/d/notes.txt" then .ok "notes"
    else .error "open: no such file or directory"
  UnmarshalRead _ content :=
    if content = "[x:1,y:2]" then .ok (some [⟨"x", 1⟩, ⟨"y", 2⟩])
    else if content = "[y:9,z:3]" then .ok (some [⟨"y", 9⟩, ⟨"z", 3⟩])
    else if content = "[ok:1]" then .ok (some [⟨"ok", 1⟩])
    else .error "jsontext: invalid character"

/-- The same file system after `/d/b.json` has been removed. -/
def demoEnvRemoved : Env Unit Nat :=
  { demoEnv with
    Stat := fun p => if p = "/d/b.json" then .error "stat: no such file or directory"
      else demoEnv.Stat p
    Open := fun p => if p = "/d/b.json" then .error "open: no such file or directory"
      else demoEnv.Open p }

/-! ## Go types and interface values (`reflect`, external) -/

/-- The values of `reflect.Kind`. -/
inductive GoKind where
  | Invalid | Bool | Int | Int8 | Int16 | Int32 | Int64
  | Uint | Uint8 | Uint16 | Uint32 | Uint64 | Uintptr
  | Float32 | Float64 | Complex64 | Complex128
  | Array | Chan | Func | Interface | Map | Pointer | Slice | String | Struct | UnsafePointer
deriving DecidableEq, Repr

/-- The part of package `reflect` and of the Go type system that `Pattern.Test` consults,
over a universe `Ty` of Go types. The two laws are the Go specification's: identical types
are assignable, and a type implementing an interface type is assignable to it. -/
structure Reflect (Ty : Type) where
  /-- Method `Type.Kind`. -/
  Kind : Ty → GoKind
  /-- Method `Type.AssignableTo`. -/
  AssignableTo : Ty → Ty → Bool
  /-- Method `Type.ConvertibleTo`. -/
  ConvertibleTo : Ty → Ty → Bool
  /-- Whether a type implements an interface type. -/
  Implements : Ty → Ty → Bool
  /-- How `%v` prints a type. -/
  typeName : Ty → String
  assignable_refl : ∀ t, AssignableTo t t = true
  implements_assignable :
    ∀ a t, Kind t = GoKind.Interface → Implements a t = true → AssignableTo a t = true

/-- A non-nil Go interface value: its dynamic type and the value it holds. -/
structure Boxed (Ty Val : Type) where
  ty : Ty
  val : Val
deriving DecidableEq, Repr

/-- A Go value of type `any`; `none` is the `nil` interface. -/
abbrev GoAny (Ty Val : Type) := Option (Boxed Ty Val)

/-- The type assertion `actual.(T)`, its `ok` result: for an interface type `T` the dynamic
type must implement `T`, for any other `T` it must be identical to `T`; `nil` never passes. -/
def typeAssert {Ty Val : Type} [DecidableEq Ty] (R : Reflect Ty) (actual : GoAny Ty Val)
    (tv : Ty) : Bool :=
  match actual with
  | none => false
  | some b => if R.Kind tv = GoKind.Interface then R.Implements b.ty tv else decide (b.ty = tv)

/-- What a type argument `T` supplies at run time. -/
structure TypeArg (Ty Val T : Type) where
  /-- The type `reflect.TypeOf((*T)(nil)).Elem()`. -/
  tv : Ty
  /-- The zero value of `T`. -/
  zero : T
  /-- The conversion of a `T` passed where `any` is expected. -/
  toAny : T → GoAny Ty Val

/-! ## The comparator (`testequals.RuleContext`, external) -/

/-- The comparator handed to `Pattern.Test`: `verdict` is what its `Test` answers, `calls`
logs the invocations made through this context, in order. -/
structure RuleContext (Ty Val : Type) where
  verdict : GoAny Ty Val → GoAny Ty Val → GoError
  calls : List (GoAny Ty Val × GoAny Ty Val)

/-- Method `rc.Test(expected, actual)`. -/
def RuleContext.Test {Ty Val : Type} (rc : RuleContext Ty Val) (expected actual : GoAny Ty Val) :
    GoError × RuleContext Ty Val :=
  (rc.verdict expected actual, { rc with calls := rc.calls ++ [(expected, actual)] })

/-! ## `Pattern` -/

/-- The struct `Pattern[T]`. -/
structure Pattern (T : Type) where
  value : T
  present : Bool
  explicit : Bool
deriving DecidableEq, Repr

/-- The constructor `Absent[T]()`: the zero value of `Pattern[T]`. -/
def Absent {Ty Val T : Type} (ta : TypeArg Ty Val T) : Pattern T :=
  { value := ta.zero, present := false, explicit := false }

/-- The constructor `Any[T](placeholder)`. -/
def Any {T : Type} (placeholder : T) : Pattern T :=
  { value := placeholder, present := true, explicit := false }

/-- The constructor `Value[T](v)`. -/
def Value {T : Type} (v : T) : Pattern T :=
  { value := v, present := true, explicit := true }

/-- Method `IsPresent`. -/
def Pattern.IsPresent {T : Type} (p : Pattern T) : Bool := p.present

/-- Method `IsExplicit`. -/
def Pattern.IsExplicit {T : Type} (p : Pattern T) : Bool := p.explicit

/-- Method `IsWildcard`. -/
def Pattern.IsWildcard {T : Type} (p : Pattern T) : Bool := p.present && !p.explicit

/-- Method `UnwrapValue`. -/
def Pattern.UnwrapValue {Ty Val T : Type} (ta : TypeArg Ty Val T) (p : Pattern T) :
    GoAny Ty Val :=
  if p.IsPresent then ta.toAny p.value else ta.toAny ta.zero

/-- Method `Value`, the typed accessor. -/
def Pattern.Value {T : Type} (p : Pattern T) : T := p.value

/-- The kinds for which the wildcard branch of `Pattern.Test` accepts `nil`. -/
def nilAccepted (k : GoKind) : Bool :=
  match k with
  | GoKind.Interface | GoKind.Pointer | GoKind.Map | GoKind.Slice | GoKind.Func
  | GoKind.Chan => true
  | _ => false

/-- Method `Pattern.Test`: the returned error and the comparator afterwards. -/
def Pattern.Test {Ty Val T : Type} [DecidableEq Ty] (R : Reflect Ty) (ta : TypeArg Ty Val T)
    (p : Pattern T) (rc : RuleContext Ty Val) (actual : GoAny Ty Val) :
    GoError × RuleContext Ty Val :=
  if !p.IsPresent then rc.Test none actual
  else if p.IsExplicit then rc.Test (ta.toAny p.value) actual
  else if !typeAssert R actual ta.tv then
    match actual with
    | none =>
      if nilAccepted (R.Kind ta.tv) then (none, rc)
      else (some ("expected non-nil value of type " ++ R.typeName ta.tv ++ ", got <nil>"), rc)
    | some b =>
      if !R.AssignableTo b.ty ta.tv && !R.ConvertibleTo b.ty ta.tv then
        (some ("expected type assignable/convertible to " ++ R.typeName ta.tv ++ ", got " ++
          R.typeName b.ty), rc)
      else (none, rc)
  else (none, rc)

/-- A pattern obtained from one of the three constructors. -/
inductive Constructed {Ty Val T : Type} (ta : TypeArg Ty Val T) : Pattern T → Prop where
  | absent : Constructed ta (Absent ta)
  | any (v : T) : Constructed ta (Any v)
  | value (v : T) : Constructed ta (Value v)

/-- A few Go types: `int`, `int64`, `string`, `bool`, `[]int`, `*int` and `any`. -/
inductive DemoTy where
  | int | int64 | string | bool | sliceInt | ptrInt | any
deriving DecidableEq, Repr

/-- Kinds of the demo types. -/
def DemoTy.kind : DemoTy → GoKind
  | .int => GoKind.Int
  | .int64 => GoKind.Int64
  | .string => GoKind.String
  | .bool => GoKind.Bool
  | .sliceInt => GoKind.Slice
  | .ptrInt => GoKind.Pointer
  | .any => GoKind.Interface

/-- Assignability among the demo types: identical types, and everything to `any`. -/
def DemoTy.assignable (a t : DemoTy) : Bool := decide (a = t) || decide (t = DemoTy.any)

/-- Convertibility among the demo types: assignable types, the two integer types to each
other, and an integer type to `string`. -/
def DemoTy.convertible (a t : DemoTy) : Bool :=
  DemoTy.assignable a t ||
    ((decide (a = DemoTy.int) || decide (a = DemoTy.int64)) &&
      (decide (t = DemoTy.int) || decide (t = DemoTy.int64) || decide (t = DemoTy.string)))

/-- Package `reflect` on the demo types. -/
def demoReflect : Reflect DemoTy where
  Kind := DemoTy.kind
  AssignableTo := DemoTy.assignable
  ConvertibleTo := DemoTy.convertible
  Implements := fun _ t => decide (t = DemoTy.any)
  typeName := fun t =>
    match t with
    | .int => "int"
    | .int64 => "int64"
    | .string => "string"
    | .bool => "bool"
    | .sliceInt => "[]int"
    | .ptrInt => "*int"
    | .any => "interface {}"
  assignable_refl := by intro t; cases t <;> rfl
  implements_assignable := by intro a t _ h; cases a <;> cases t <;> first | rfl | exact h

/-- The type argument `int` over the demo types, values being natural numbers. -/
def demoInt : TypeArg DemoTy Nat Nat :=
  { tv := DemoTy.int, zero := 0, toAny := fun n => some ⟨DemoTy.int, n⟩ }

/-- The type argument `[]int` over the demo types; the `nil` slice is its zero value. -/
def demoSlice : TypeArg DemoTy Nat (Option Nat) :=
  { tv := DemoTy.sliceInt, zero := none, toAny := fun s => some ⟨DemoTy.sliceInt, s.getD 0⟩ }

/-- A comparator that accepts equal values only and has not been called yet. -/
def demoRC : RuleContext DemoTy Nat :=
  { verdict := fun e a => if e = a then none else some "values differ", calls := [] }

/-- The document decoded from a file, `nil` where opening or decoding fails. -/
def docOf {Reg V : Type} (env : Env Reg V) (reg : Reg) (file : String) : Document V :=
  match decodeFile env reg file with
  | .ok d => d
  | .error _ => none

/-- The document of a file as `getFile` sees it: without caching the decoded document, with
caching the document held in the file cache and, where there is none, the decoded one. -/
def documentLoader.fileDoc {Reg V : Type} (env : Env Reg V) (l : documentLoader Reg V)
    (file : String) : Document V :=
  if l.cache then
    match l.getFileCache file with
    | some es => some es
    | none => docOf env l.reg file
  else docOf env l.reg file

/-- Method `getFile` can hand out a document for the file: the file cache holds one, or the
file decodes. -/
def documentLoader.Yields {Reg V : Type} (env : Env Reg V) (l : documentLoader Reg V)
    (file : String) : Prop :=
  (l.cache = true ∧ l.getFileCache file ≠ none) ∨ ∃ d, decodeFile env l.reg file = .ok d

/-- A file system with directory `/s` holding a symbolic link `link.json`, a named pipe
`pipe.JSON`, the regular files `real.json` and `notes.txt`, and a directory `sub.json`. -/
def demoEnvLinks : Env Unit Nat :=
  { demoEnv with
    Stat := fun p => if p = "/s" then .ok ⟨FileType.Dir⟩ else demoEnv.Stat p
    ReadDir := fun p =>
      if p = "/s" then
        .ok [⟨"link.json", FileType.Symlink⟩, ⟨"notes.txt", FileType.Regular⟩,
          ⟨"pipe.JSON", FileType.NamedPipe⟩, ⟨"real.json", FileType.Regular⟩,
          ⟨"sub.json", FileType.Dir⟩]
      else demoEnv.ReadDir p }

/-- A caching loader whose path cache holds the `nil` document under `/d/b.json`. -/
def demoNilSlot : documentLoader Unit Nat :=
  (newDocumentLoader () true).setPathCache "/d/b.json" none

/-- The file system of `demoEnv` after `/e/bad.json` has been repaired. -/
def demoEnvRepaired : Env Unit Nat :=
  { demoEnv with
    Open := fun p => if p = "/e/bad.json" then .ok "[y:9,z:3]" else demoEnv.Open p }

/-! ## Values of a `jwalk` or `bson` tree (`any`) -/

/-- A Go value of type `any` as it occurs in a document tree. The four container types are
slices, `none` being the `nil` slice; `null` is the `nil` interface. -/
inductive GoVal where
  /-- A `jwalk.Document`. -/
  | jdoc : Option (List (Entry GoVal)) → GoVal
  /-- A `jwalk.Array`. -/
  | jarr : Option (List GoVal) → GoVal
  /-- A `bson.D`. -/
  | bdoc : Option (List (Entry GoVal)) → GoVal
  /-- A `bson.A`. -/
  | barr : Option (List GoVal) → GoVal
  /-- A value of the named type with a method `UnwrapValue`, and what that method returns. -/
  | unwrappable : String → GoVal → GoVal
  /-- Any other value: the name of its type and its printed form. -/
  | leaf : String → String → GoVal
  /-- The `nil` interface. -/
  | null : GoVal

/-- The elements a `range` over a slice visits. -/
def elems {α : Type} : Option (List α) → List α
  | none => []
  | some xs => xs

/-- How the verb `%T` prints the type of a value. -/
def GoVal.typeName : GoVal → String
  | .jdoc _ => "jwalk.Document"
  | .jarr _ => "jwalk.Array"
  | .bdoc _ => "bson.D"
  | .barr _ => "bson.A"
  | .unwrappable ty _ => ty
  | .leaf ty _ => ty
  | .null => "<nil>"

/-- The verbs of package `fmt` whose output depends on escaping rules: `q` is `%q` on a
string. The verb `%d` on an index is `Nat.repr`, `%v` on an error its message. -/
structure Fmt where
  q : String → String

mutual
/-- The function `toBSONValue`. -/
def toBSONValue : GoVal → GoVal
  | .jdoc doc => .bdoc (toBSONDocument doc)
  | .jarr arr => .barr (toBSONArray arr)
  | .unwrappable _ inner => inner
  | v => v
/-- The function `toBSONDocument`: the result of `make` is never `nil`. -/
def toBSONDocument : Option (List (Entry GoVal)) → Option (List (Entry GoVal))
  | none => some []
  | some fs => some (toBSONFields fs)
/-- The loop of `toBSONDocument`. -/
def toBSONFields : List (Entry GoVal) → List (Entry GoVal)
  | [] => []
  | f :: fs => { Key := f.Key, Value := toBSONValue f.Value } :: toBSONFields fs
/-- The function `toBSONArray`: the result of `make` is never `nil`. -/
def toBSONArray : Option (List GoVal) → Option (List GoVal)
  | none => some []
  | some vs => some (toBSONElems vs)
/-- The loop of `toBSONArray`. -/
def toBSONElems : List GoVal → List GoVal
  | [] => []
  | v :: vs => toBSONValue v :: toBSONElems vs
end

mutual
/-- The function `toValue` of `assert.go`. -/
def toValue : GoVal → GoVal
  | .bdoc d => .jdoc (toDocument d)
  | .barr a => .jarr (toArray a)
  | v => v
/-- The function `toDocument`. -/
def toDocument : Option (List (Entry GoVal)) → Option (List (Entry GoVal))
  | none => some []
  | some es => some (toDocumentFields es)
/-- The loop of `toDocument`. -/
def toDocumentFields : List (Entry GoVal) → List (Entry GoVal)
  | [] => []
  | e :: es => { Key := e.Key, Value := toValue e.Value } :: toDocumentFields es
/-- The function `toArray`. -/
def toArray : Option (List GoVal) → Option (List GoVal)
  | none => some []
  | some vs => some (toArrayElems vs)
/-- The loop of `toArray`. -/
def toArrayElems : List GoVal → List GoVal
  | [] => []
  | v :: vs => toValue v :: toArrayElems vs
end

/-! ## `toBSONCollections` and `Driver` (`database/mongodb`) -/

/-- A Go `map[string]bson.A` with its keys: the pairs in order of first insertion. The
order in which `range` visits them is chosen by the runtime. -/
abbrev Collections := List (String × Option (List GoVal))

/-- Go `m[k] = v` on a map with keys. -/
def mapSet {α : Type} (m : List (String × α)) (k : String) (v : α) : List (String × α) :=
  if m.any (fun p => p.1 = k) then m.map (fun p => if p.1 = k then (k, v) else p)
  else m ++ [(k, v)]

/-- Go `m[k]`, with `none` for a missing key. -/
def mapGet {α : Type} (m : List (String × α)) (k : String) : Option α :=
  (m.find? (fun p => p.1 = k)).map Prod.snd

/-- The error of `toBSONCollections` for a top-level value that is no `jwalk.Array`. -/
def notArrayError (fmt : Fmt) (key : String) (v : GoVal) : String :=
  "toBSON: collection " ++ fmt.q key ++ " expects jwalk.Array, got " ++ v.typeName

/-- The error of `toBSONCollections` for an array element that is no `jwalk.Document`. -/
def notDocumentError (fmt : Fmt) (key : String) (i : Nat) (v : GoVal) : String :=
  "toBSON: collection " ++ fmt.q key ++ " index " ++ Nat.repr i ++
    " expects jwalk.Document, got " ++ v.typeName

/-- The inner loop of `toBSONCollections` from index `i` on: the converted documents, or
the error of the first element that is no document. -/
def convertElements (fmt : Fmt) (key : String) : Nat → List GoVal → Except String (List GoVal)
  | _, [] => .ok []
  | i, element :: rest =>
    match element with
    | .jdoc doc =>
      match convertElements fmt key (i + 1) rest with
      | .ok bsonDocs => .ok (.bdoc (toBSONDocument doc) :: bsonDocs)
      | .error err => .error err
    | v => .error (notDocumentError fmt key i v)

/-- The outer loop of `toBSONCollections` over the remaining top-level fields. -/
def convertFields (fmt : Fmt) : List (Entry GoVal) → Collections →
    Option Collections × GoError
  | [], collections => (some collections, none)
  | topField :: rest, collections =>
    match topField.Value with
    | .jarr array =>
      match convertElements fmt topField.Key 0 (elems array) with
      | .error err => (none, some err)
      | .ok bsonDocs => convertFields fmt rest (mapSet collections topField.Key (some bsonDocs))
    | v => (none, some (notArrayError fmt topField.Key v))

/-- The function `toBSONCollections`; the map is `none` (`nil`) exactly with an error. -/
def toBSONCollections (fmt : Fmt) (rootDoc : Document GoVal) : Option Collections × GoError :=
  convertFields fmt rootDoc.entries []

/-- A cursor of the store: what its method `All` decodes. -/
structure Cursor where
  All : Except String (Option (List GoVal))

/-- The calls `Driver` makes on `*mongo.Database` and their outcomes. -/
structure MongoDB where
  /-- The error of starting the session of `UseSession`, if any. -/
  sessionErr : GoError
  /-- Method `BulkWrite` on a collection, with one insert model per document. -/
  BulkWrite : String → List GoVal → GoError
  /-- Method `ListCollectionNames`. -/
  ListCollectionNames : Except String (List String)
  /-- Method `Find` on a collection. -/
  Find : String → Except String Cursor

/-- The loop of `Driver.Seed` over the collections in the order `range` visits them: the
error returned in the session and the bulk writes issued, in order. -/
def seedLoop (db : MongoDB) (fmt : Fmt) :
    Collections → List (String × List GoVal) → GoError × List (String × List GoVal)
  | [], issued => (none, issued)
  | (name, docs) :: rest, issued =>
    if (elems docs).length = 0 then seedLoop db fmt rest issued
    else
      match db.BulkWrite name (elems docs) with
      | some err =>
        (some ("bulk write to collection " ++ fmt.q name ++ ": " ++ err),
          issued ++ [(name, elems docs)])
      | none => seedLoop db fmt rest (issued ++ [(name, elems docs)])

/-- Method `Driver.Seed`: the result and the bulk writes issued. `visit` is the order in
which `range` visits the map. -/
def Driver.Seed (db : MongoDB) (fmt : Fmt) (visit : Collections → Collections)
    (root : Document GoVal) : (Document GoVal × GoError) × List (String × List GoVal) :=
  match toBSONCollections fmt root with
  | (_, some err) => ((none, some ("convert jwalk to bson: " ++ err)), [])
  | (cols, none) =>
    match db.sessionErr with
    | some err => ((none, some ("bulk write error: " ++ err)), [])
    | none =>
      match seedLoop db fmt (visit (elems cols)) [] with
      | (some err, issued) => ((none, some ("bulk write error: " ++ err)), issued)
      | (none, issued) => ((root, none), issued)

/-- The loop of `Driver.Snapshot` over the collection names: the entries appended to
`actual`, or the error of the first collection that cannot be read. -/
def snapshotLoop (db : MongoDB) (fmt : Fmt) :
    List String → List (Entry GoVal) → Except String (List (Entry GoVal))
  | [], actual => .ok actual
  | colName :: rest, actual =>
    match db.Find colName with
    | .error err => .error ("find in collection " ++ fmt.q colName ++ ": " ++ err)
    | .ok cur =>
      match cur.All with
      | .error err =>
        .error ("decode documents in collection " ++ fmt.q colName ++ ": " ++ err)
      | .ok docs =>
        snapshotLoop db fmt rest (actual ++ [{ Key := colName, Value := .jarr (toArray docs) }])

/-- Go `sort.Slice` with the comparison of `Driver.Snapshot`: ascending by key. The order
among entries with equal keys is not fixed by Go; the model keeps their order. -/
def sortByKey {V : Type} (es : List (Entry V)) : List (Entry V) :=
  es.insertionSort (fun a b => a.Key.data ≤ b.Key.data)

/-- Method `Driver.Snapshot`. -/
def Driver.Snapshot (db : MongoDB) (fmt : Fmt) : Document GoVal × GoError :=
  match db.ListCollectionNames with
  | .error err => (none, some ("list collection names: " ++ err))
  | .ok colNames =>
    match snapshotLoop db fmt colNames [] with
    | .error err => (none, some err)
    | .ok actual => (some (sortByKey actual), none)

/-! ### Specification vocabulary for the store adapter -/

/-- The value is a `jwalk.Document`. -/
def GoVal.IsDocument (v : GoVal) : Prop := ∃ doc, v = .jdoc doc

/-- The entry holds a `jwalk.Array` all of whose elements are `jwalk.Document`s. -/
def ShapedEntry (e : Entry GoVal) : Prop :=
  ∃ arr, e.Value = .jarr arr ∧ ∀ el ∈ elems arr, el.IsDocument

/-- Every top-level entry holds an array of documents. -/
def WellShaped (root : Document GoVal) : Prop := ∀ e ∈ root.entries, ShapedEntry e

/-- The collection can be read: `Find` gives a cursor and `All` decodes its documents. -/
def Readable (db : MongoDB) (colName : String) : Prop :=
  ∃ cur docs, db.Find colName = .ok cur ∧ cur.All = .ok docs

/-- A `%q` that puts the string between double quotes (no escaping). -/
def demoFmt : Fmt := { q := fun s => "\"" ++ s ++ "\"" }

/-- A seed tree with the collections `users` (two records) and `posts` (one record). -/
def demoRoot : Document GoVal :=
  some [⟨"users", .jarr (some [.jdoc (some [⟨"name", .leaf "string" "Alice"⟩]),
      .jdoc (some [⟨"name", .leaf "string" "Bob"⟩])])⟩,
    ⟨"posts", .jarr (some [.jdoc (some [⟨"title", .leaf "string" "Hello"⟩])])⟩]

/-- A seed tree whose collection `posts` holds a string at index 1. -/
def demoBadRoot : Document GoVal :=
  some [⟨"users", .jarr (some [.jdoc (some [⟨"name", .leaf "string" "Alice"⟩])])⟩,
    ⟨"posts", .jarr (some [.jdoc none, .leaf "string" "not a document", .null])⟩,
    ⟨"tags", .leaf "string" "not an array"⟩]

/-- A store with the collections `users`, `posts` and `logs`, reported in that order; the
cursor of `logs` fails to decode, and every bulk write is refused. -/
def demoDB : MongoDB where
  sessionErr := none
  BulkWrite := fun _ _ => some "write refused"
  ListCollectionNames := .ok ["users", "posts", "logs"]
  Find := fun c =>
    if c = "users" then
      .ok ⟨.ok (some [.bdoc (some [⟨"name", .leaf "string" "Alice"⟩]),
        .bdoc (some [⟨"name", .leaf "string" "Bob"⟩])])⟩
    else if c = "posts" then .ok ⟨.ok (some [.bdoc (some [⟨"title", .leaf "string" "Hello"⟩])])⟩
    else if c = "logs" then .ok ⟨.error "cursor closed"⟩
    else .error "no such collection"

/-- The store `demoDB` without the collection `logs`. -/
def demoDBReadable : MongoDB :=
  { demoDB with ListCollectionNames := .ok ["users", "posts"] }

/-! ## The harness (`testine.T`) -/

/-- How a call of `Fatalf` ends: it returns to its caller, or it ends the calling goroutine
as `testing.T` does. -/
inductive Control where
  | returns
  | stops
deriving DecidableEq, Repr

/-- An implementation of the interface `TestingT`, as far as the operations below depend
on it: how its `Fatalf` ends for a given message, and how many times its `Cleanup(f)` runs
`f` before it returns (`testing.T` keeps `f` for the end of the test and runs it 0 times;
a double may run it at once). `Helper` and `Context` return. -/
structure TestingT where
  Fatalf : String → Control
  Cleanup : Nat

/-- An implementation of the interface `Poutine` of `testine.go` over store states `S`. -/
structure PoutineImpl (S V : Type) where
  Seed : S → Document V → (Document V × GoError) × S
  Snapshot : S → (Document V × GoError) × S
  Teardown : S → GoError × S

/-- The struct `T`; `tester` is the method `Test` of its `Tester`. -/
structure T (S Reg V : Type) where
  poutine : PoutineImpl S V
  tester : Document V → Document V → GoError
  registry : Reg
  loader : documentLoader Reg V

/-- The calls a harness operation makes on its collaborators, in order. -/
inductive Event (V : Type) where
  /-- The call `poutine.Seed(ctx, root)`. -/
  | seed : Document V → Event V
  /-- The call `poutine.Snapshot(ctx)`. -/
  | snapshot : Event V
  /-- The call `tester.Test(expected, actual)`. -/
  | test : Document V → Document V → Event V
  /-- The call `loader.load(path)`. -/
  | load : String → Event V
  /-- The call `t.Fatalf` with the formatted message. -/
  | fatal : String → Event V
deriving DecidableEq, Repr

/-- The second half of `T.Assert`, reached when the snapshot check is passed or when
`Fatalf` has returned: the comparison. -/
def T.assertCompare {S Reg V : Type} (pt : T S Reg V) (t : TestingT)
    (expected actual : Document V) (events : List (Event V)) :
    Option Unit × List (Event V) :=
  match pt.tester expected actual with
  | some err =>
    match t.Fatalf ("assert: " ++ err) with
    | .stops => (none, events ++ [.test expected actual, .fatal ("assert: " ++ err)])
    | .returns => (some (), events ++ [.test expected actual, .fatal ("assert: " ++ err)])
  | none => (some (), events ++ [.test expected actual])

/-- Method `T.Assert`: whether it returns (`none` when `Fatalf` ended the goroutine), the
store afterwards, and the calls made. -/
def T.Assert {S Reg V : Type} (pt : T S Reg V) (t : TestingT) (s : S)
    (expected : Document V) : (Option Unit × List (Event V)) × S :=
  match pt.poutine.Snapshot s with
  | ((actual, some err), s') =>
    match t.Fatalf ("snapshot: " ++ err) with
    | .stops => ((none, [.snapshot, .fatal ("snapshot: " ++ err)]), s')
    | .returns =>
      (pt.assertCompare t expected actual [.snapshot, .fatal ("snapshot: " ++ err)], s')
  | ((actual, none), s') => (pt.assertCompare t expected actual [.snapshot], s')

/-- Method `T.Seed`: the `expected` document of the `Snapshot` handle it returns (`none`
when `Fatalf` ended the goroutine), the store afterwards, and the calls made. -/
def T.Seed {S Reg V : Type} (pt : T S Reg V) (t : TestingT) (s : S) (root : Document V) :
    (Option (Document V) × List (Event V)) × S :=
  match pt.poutine.Seed s root with
  | ((actual, some err), s') =>
    match t.Fatalf ("seed: " ++ err) with
    | .stops => ((none, [.seed root, .fatal ("seed: " ++ err)]), s')
    | .returns => ((some actual, [.seed root, .fatal ("seed: " ++ err)]), s')
  | ((actual, none), s') => ((some actual, [.seed root]), s')

/-- Method `T.LoadJSON`: the document it returns (`none` when `Fatalf` ended the
goroutine), the loader afterwards, and the calls made. -/
def T.LoadJSON {S Reg V : Type} (env : Env Reg V) (pt : T S Reg V) (t : TestingT)
    (path : String) : (Option (Document V) × List (Event V)) × documentLoader Reg V :=
  match pt.loader.load env path with
  | ((doc, some err), l') =>
    match t.Fatalf ("load json " ++ path ++ ": " ++ err) with
    | .stops => ((none, [.load path, .fatal ("load json " ++ path ++ ": " ++ err)]), l')
    | .returns =>
      ((some doc, [.load path, .fatal ("load json " ++ path ++ ": " ++ err)]), l')
  | ((doc, none), l') => ((some doc, [.load path]), l')

/-- The test double `mockTestingT` of `testine_test.go`: its `Fatalf` does nothing and
returns, and its `Cleanup(f)` runs `f` once, at once. -/
def mockTestingT : TestingT := { Fatalf := fun _ => .returns, Cleanup := 1 }

/-- A `TestingT` like `testing.T`: its `Fatalf` ends the goroutine, and its `Cleanup(f)`
keeps `f` for the end of the test. -/
def stoppingT : TestingT := { Fatalf := fun _ => .stops, Cleanup := 0 }

/-- A harness over a store whose `Snapshot` and `Seed` fail, with a comparator that
accepts everything. -/
def demoHarness : T Unit Unit Nat where
  poutine :=
    { Seed := fun s _ => ((none, some "seed refused"), s)
      Snapshot := fun s => ((none, some "store down"), s)
      Teardown := fun s => (none, s) }
  tester := fun _ _ => none
  registry := ()
  loader := newDocumentLoader () false

/-! ## The caching loader with documents by reference

The same methods of `documentLoader`, with every `jwalk.Document` a slice that points into
a backing array of a heap, so that two slices can be told apart from two views of one
array. -/

/-- A non-nil slice of entries: the address of its backing array and its length. -/
structure SliceRef where
  arr : Nat
  len : Nat
deriving DecidableEq, Repr

/-- A `jwalk.Document` by reference; `none` is the `nil` slice. -/
abbrev DocRef := Option SliceRef

/-- The backing arrays allocated so far, by address. -/
abbrev Heap (V : Type) := List (List (Entry V))

/-- The entries seen through a slice. -/
def Heap.read {V : Type} (h : Heap V) : DocRef → Document V
  | none => none
  | some s => some ((h.getD s.arr []).take s.len)

/-- Go `doc[i] = e` through a slice (out of range Go panics; the heap is left as it is). -/
def Heap.store {V : Type} (h : Heap V) (s : SliceRef) (i : Nat) (e : Entry V) : Heap V :=
  if i < s.len then h.set s.arr ((h.getD s.arr []).set i e) else h

/-- Go `append(doc, e)` through a slice: in place when the backing array has room beyond
the length of the slice, in a newly allocated array otherwise. -/
def Heap.append {V : Type} (h : Heap V) (s : SliceRef) (e : Entry V) : SliceRef × Heap V :=
  if s.len < (h.getD s.arr []).length then
    ({ arr := s.arr, len := s.len + 1 }, h.set s.arr ((h.getD s.arr []).set s.len e))
  else
    ({ arr := h.length, len := s.len + 1 }, h ++ [(h.getD s.arr []).take s.len ++ [e]])

/-- The struct `documentLoader` with its two caches holding slices, and the heap. -/
structure refLoader (Reg V : Type) where
  reg : Reg
  cache : Bool
  fileCache : GoMap DocRef
  pathCache : GoMap DocRef
  opened : List String
  heap : Heap V

/-- A slice over a newly allocated array with the given entries. -/
def refLoader.alloc {Reg V : Type} (l : refLoader Reg V) (es : List (Entry V)) :
    DocRef × refLoader Reg V :=
  (some { arr := l.heap.length, len := es.length }, { l with heap := l.heap ++ [es] })

/-- The helper `copyDoc`: `make` allocates an array, `copy` fills it. -/
def refLoader.copyDoc {Reg V : Type} (l : refLoader Reg V) (doc : DocRef) :
    DocRef × refLoader Reg V :=
  l.alloc (l.heap.read doc).entries

/-- Method `getPathCache`. -/
def refLoader.getPathCache {Reg V : Type} (l : refLoader Reg V) (path : String) : DocRef :=
  (l.pathCache path).join

/-- Method `setPathCache`. -/
def refLoader.setPathCache {Reg V : Type} (l : refLoader Reg V) (path : String)
    (doc : DocRef) : refLoader Reg V :=
  { l with pathCache := l.pathCache.set path doc }

/-- Method `getFileCache`. -/
def refLoader.getFileCache {Reg V : Type} (l : refLoader Reg V) (f : String) : DocRef :=
  (l.fileCache f).join

/-- Method `setFileCache`. -/
def refLoader.setFileCache {Reg V : Type} (l : refLoader Reg V) (f : String) (d : DocRef) :
    refLoader Reg V :=
  { l with fileCache := l.fileCache.set f d }

/-- Method `readFile`: the decoder fills a slice of its own. -/
def refLoader.readFile {Reg V : Type} (env : Env Reg V) (l : refLoader Reg V)
    (file : String) : (DocRef × GoError) × refLoader Reg V :=
  match decodeFile env l.reg file with
  | .error err => ((none, some err), { l with opened := l.opened ++ [file] })
  | .ok none => ((none, none), { l with opened := l.opened ++ [file] })
  | .ok (some es) =>
    match refLoader.alloc { l with opened := l.opened ++ [file] } es with
    | (doc, l') => ((doc, none), l')

/-- The function `getFile` runs in its single flight. -/
def refLoader.getFileFlight {Reg V : Type} (env : Env Reg V) (l : refLoader Reg V)
    (file : String) : (DocRef × GoError) × refLoader Reg V :=
  match l.getFileCache file with
  | some d =>
    match l.copyDoc (some d) with
    | (cp, l') => ((cp, none), l')
  | none =>
    match l.readFile env file with
    | ((_, some err), l') => ((none, some err), l')
    | ((doc, none), l') =>
      match (l'.setFileCache file doc).copyDoc doc with
      | (cp, l'') => ((cp, none), l'')

/-- Method `getFile`. -/
def refLoader.getFile {Reg V : Type} (env : Env Reg V) (l : refLoader Reg V)
    (file : String) : (DocRef × GoError) × refLoader Reg V :=
  if !l.cache then l.readFile env file
  else
    match l.getFileCache file with
    | some d =>
      match l.copyDoc (some d) with
      | (cp, l') => ((cp, none), l')
    | none =>
      match l.getFileFlight env file with
      | ((_, some err), l') => ((none, some err), l')
      | ((v, none), l') => ((v, none), l')

/-- The iterator `loadPath` passes to `mergeDocs`. -/
def refLoader.readFiles {Reg V : Type} (env : Env Reg V) :
    refLoader Reg V → List String → List DocRef × GoError × refLoader Reg V
  | l, [] => ([], none, l)
  | l, f :: fs =>
    match l.getFile env f with
    | ((_, some err), l') => ([], some err, l')
    | ((d, none), l') =>
      match refLoader.readFiles env l' fs with
      | (ds, readErr, l'') => (d :: ds, readErr, l'')

/-- The function `mergeDocs`: `merged` grows by `append` from `nil`, in arrays of its own;
the slice returned is over a newly allocated array. -/
def refLoader.mergeDocs {Reg V : Type} (l : refLoader Reg V) (docs : List DocRef) :
    DocRef × refLoader Reg V :=
  match Poutine.mergeDocs (docs.map l.heap.read) with
  | none => (none, l)
  | some es => l.alloc es

/-- Method `loadPath`. -/
def refLoader.loadPath {Reg V : Type} (env : Env Reg V) (l : refLoader Reg V)
    (path : String) : (DocRef × GoError) × refLoader Reg V :=
  match resolve env path with
  | (_, some err) => ((none, some err), l)
  | (files, none) =>
    match files with
    | [] => ((none, some "no json files resolved"), l)
    | [file] => l.getFile env file
    | _ =>
      match l.readFiles env (sortStrings files) with
      | (docs, readErr, l') =>
        match l'.mergeDocs docs with
        | (doc, l'') =>
          match readErr with
          | some err => ((none, some err), l'')
          | none => ((doc, none), l'')

/-- The function `load` runs in its single flight. -/
def refLoader.loadFlight {Reg V : Type} (env : Env Reg V) (l : refLoader Reg V)
    (path : String) : (DocRef × GoError) × refLoader Reg V :=
  match l.getPathCache path with
  | some d =>
    match l.copyDoc (some d) with
    | (cp, l') => ((cp, none), l')
  | none =>
    match l.loadPath env path with
    | ((_, some err), l') => ((none, some err), l')
    | ((doc, none), l') =>
      match (l'.setPathCache path doc).copyDoc doc with
      | (cp, l'') => ((cp, none), l'')

/-- Method `load`. -/
def refLoader.load {Reg V : Type} (env : Env Reg V) (l : refLoader Reg V) (path : String) :
    (DocRef × GoError) × refLoader Reg V :=
  if !l.cache then l.loadPath env path
  else
    match l.getPathCache path with
    | some d =>
      match l.copyDoc (some d) with
      | (cp, l') => ((cp, none), l')
    | none =>
      match l.loadFlight env path with
      | ((_, some err), l') => ((none, some err), l')
      | ((v, none), l') => ((v, none), l')

/-- The constructor `newDocumentLoader`, with an empty heap. -/
def newRefLoader {Reg V : Type} (reg : Reg) (cache : Bool) : refLoader Reg V :=
  { reg := reg, cache := cache, fileCache := GoMap.empty, pathCache := GoMap.empty,
    opened := [], heap := [] }

/-- The loader with every cached slice replaced by the document seen through it. -/
def refLoader.view {Reg V : Type} (l : refLoader Reg V) : documentLoader Reg V :=
  { reg := l.reg, cache := l.cache
    fileCache := fun k => (l.fileCache k).map l.heap.read
    pathCache := fun k => (l.pathCache k).map l.heap.read
    opened := l.opened }

/-- The slice is held by one of the two caches. -/
def refLoader.Cached {Reg V : Type} (l : refLoader Reg V) (s : SliceRef) : Prop :=
  ∃ k, l.pathCache k = some (some s) ∨ l.fileCache k = some (some s)

/-- Every cached slice points into an allocated array. -/
def refLoader.WF {Reg V : Type} (l : refLoader Reg V) : Prop :=
  ∀ s, l.Cached s → s.arr < l.heap.length

/-- The second loader has the heap of the first, possibly with further arrays, and caches,
besides slices the first one caches, only slices into those further arrays. -/
def refLoader.Ext {Reg V : Type} (l l' : refLoader Reg V) : Prop :=
  (∃ t, l'.heap = l.heap ++ t) ∧ ∀ s, l'.Cached s → l.Cached s ∨ l.heap.length ≤ s.arr

/-- The document handed out is over an array allocated since `l` that no cache of `l'`
points into. -/
def refLoader.Fresh {Reg V : Type} (l l' : refLoader Reg V) (r : DocRef) : Prop :=
  ∀ s, r = some s →
    l.heap.length ≤ s.arr ∧ s.arr < l'.heap.length ∧ ∀ c, l'.Cached c → c.arr ≠ s.arr

/-- A result of the loader by reference matches a result of `documentLoader`: seen through
the heap it is the same document, error and loader; the caches stay well formed, and the
document handed out is fresh. -/
def refLoader.Sim {Reg V : Type} (l : refLoader Reg V)
    (res : (DocRef × GoError) × refLoader Reg V)
    (vres : (Document V × GoError) × documentLoader Reg V) : Prop :=
  vres = ((res.2.heap.read res.1.1, res.1.2), res.2.view) ∧ res.2.WF ∧ l.Ext res.2 ∧
    l.Fresh res.2 res.1.1 ∧ res.2.cache = l.cache ∧ res.2.reg = l.reg

/-- The heap after one write at the top level of the document behind the slice: an entry
replaced, or an entry appended. -/
def Heap.Mutated {V : Type} (h : Heap V) (s : SliceRef) (h' : Heap V) : Prop :=
  (∃ i e, h' = h.store s i e) ∨ ∃ e, h' = (h.append s e).2

/-! ### More file systems for the loader -/

/-- The file system of `demoEnv` with the fault in another file of `/e`: `bad.json` decodes
and `ok.json` does not. -/
def demoEnvOtherBad : Env Unit Nat :=
  { demoEnv with
    Open := fun p =>
      if p = "/e/bad.json" then .ok "[y:9,z:3]"
      else if p = "/e/ok.json" then .ok "not valid json"
      else demoEnv.Open p }

/-- A file system with the one file `/r/dup.json`, which holds the key `k` twice. -/
def demoEnvDup : Env Unit Nat :=
  { demoEnv with
    Stat := fun p =>
      if p = "/r" then .ok ⟨FileType.Dir⟩
      else if p = "/r/dup.json" then .ok ⟨FileType.Regular⟩
      else demoEnv.Stat p
    ReadDir := fun p =>
      if p = "/r" then .ok [⟨"dup.json", FileType.Regular⟩] else demoEnv.ReadDir p
    Open := fun p => if p = "/r/dup.json" then .ok "[k:1,a:2,k:3]" else demoEnv.Open p
    UnmarshalRead := fun reg content =>
      if content = "[k:1,a:2,k:3]" then .ok (some [⟨"k", 1⟩, ⟨"a", 2⟩, ⟨"k", 3⟩])
      else demoEnv.UnmarshalRead reg content }

/-! ## Construction and cleanup of the harness -/

/-- The struct `Options`; `Registry` is a pointer, `none` being `nil`. -/
structure Options (Reg V : Type) where
  Tester : Document V → Document V → GoError
  Registry : Option Reg
  cacheDocuments : Bool

/-- The option `WithTester`. -/
def WithTester {Reg V : Type} (t : Document V → Document V → GoError) :
    Options Reg V → Options Reg V :=
  fun o => { o with Tester := t }

/-- The option `WithRegistry`. -/
def WithRegistry {Reg V : Type} (r : Option Reg) : Options Reg V → Options Reg V :=
  fun o => { o with Registry := r }

/-- The option `WithDocumentCache`. -/
def WithDocumentCache {Reg V : Type} : Options Reg V → Options Reg V :=
  fun o => { o with cacheDocuments := true }

/-- A store handed to `New`: its methods of the interface `Poutine` and, when its type
implements `poutine.Registrar`, its method `RegisterTypes`. -/
structure Store (S Reg V : Type) where
  impl : PoutineImpl S V
  RegisterTypes : Option (Reg → GoError)

/-- What `New` calls in other packages: `testequals.New()` and `jwalk.NewRegistry()`, the
latter with its two results. -/
structure Deps (Reg V : Type) where
  defaultTester : Document V → Document V → GoError
  NewRegistry : Except String Reg

/-- The calls `New` makes, in order. -/
inductive NewCall (Reg : Type) where
  /-- The call `jwalk.NewRegistry()`. -/
  | newRegistry : NewCall Reg
  /-- The call `regDriver.RegisterTypes(reg)`. -/
  | registerTypes : Reg → NewCall Reg
deriving DecidableEq, Repr

/-- The options of `New` after the loop over `opts`. -/
def applyOptions {Reg V : Type} (deps : Deps Reg V)
    (opts : List (Options Reg V → Options Reg V)) : Options Reg V :=
  opts.foldl (fun op o => o op)
    { Tester := deps.defaultTester, Registry := none, cacheDocuments := false }

/-- The harness `New` builds once the registry is fixed. -/
def buildT {S Reg V : Type} (p : Store S Reg V) (op : Options Reg V) (reg : Reg) :
    T S Reg V :=
  { poutine := p.impl, tester := op.Tester, registry := reg,
    loader := newDocumentLoader reg op.cacheDocuments }

/-- The function `New` from the type assertion `p.(poutine.Registrar)` on: the harness
(`none` is `nil`), the error, and the calls made so far. -/
def registerAndBuild {S Reg V : Type} (p : Store S Reg V) (op : Options Reg V) (reg : Reg)
    (calls : List (NewCall Reg)) : Option (T S Reg V) × GoError × List (NewCall Reg) :=
  match p.RegisterTypes with
  | some registerTypes =>
    match registerTypes reg with
    | some err => (none, some err, calls ++ [.registerTypes reg])
    | none => (some (buildT p op reg), none, calls ++ [.registerTypes reg])
  | none => (some (buildT p op reg), none, calls)

/-- The function `New`. -/
def New {S Reg V : Type} (deps : Deps Reg V) (p : Store S Reg V)
    (opts : List (Options Reg V → Options Reg V)) :
    Option (T S Reg V) × GoError × List (NewCall Reg) :=
  match (applyOptions deps opts).Registry with
  | some reg => registerAndBuild p (applyOptions deps opts) reg []
  | none =>
    match deps.NewRegistry with
    | .error err => (none, some err, [.newRegistry])
    | .ok r => registerAndBuild p (applyOptions deps opts) r [.newRegistry]

/-- A `context.Context`, as far as the harness tells contexts apart: the one of the test
(`t.Context()`) and `context.Background()`. -/
inductive Context where
  | ofTest
  | background
deriving DecidableEq, Repr

/-- The calls a run of the function registered by `T.Cleanup` makes, in order. -/
inductive CleanupCall where
  /-- The call `poutine.Teardown(ctx)`. -/
  | teardown : Context → CleanupCall
  /-- The call `t.Fatalf` with the formatted message. -/
  | fatal : String → CleanupCall
deriving DecidableEq, Repr

/-- The function literal `T.Cleanup` hands to `t.Cleanup`: whether a run of it returns
(`none` when `Fatalf` ended the goroutine), the calls it makes, and the store afterwards. -/
def T.cleanupFunc {S Reg V : Type} (pt : T S Reg V) (t : TestingT) (s : S) :
    (Option Unit × List CleanupCall) × S :=
  match pt.poutine.Teardown s with
  | (some err, s') =>
    match t.Fatalf ("teardown: " ++ err) with
    | .stops => ((none, [.teardown .background, .fatal ("teardown: " ++ err)]), s')
    | .returns => ((some (), [.teardown .background, .fatal ("teardown: " ++ err)]), s')
  | (none, s') => ((some (), [.teardown .background]), s')

/-- The hook `t.Cleanup(f)` of a `TestingT` that runs `f` the given number of times before
it returns, one run after the other: whether the hook returns, the calls made in the runs,
and the store afterwards. A run in which `Fatalf` ends the goroutine ends the hook too. -/
def runCleanupHook {S : Type} (f : S → (Option Unit × List CleanupCall) × S) :
    Nat → S → (Option Unit × List CleanupCall) × S
  | 0, s => ((some (), []), s)
  | n + 1, s =>
    match f s with
    | ((none, calls), s') => ((none, calls), s')
    | ((some _, calls), s') =>
      match runCleanupHook f n s' with
      | ((r, later), s'') => ((r, calls ++ later), s'')

/-- Method `T.Cleanup`, whose one statement after `t.Helper()` is the call of the hook
`t.Cleanup` with the function literal: the functions handed to the hook, in order, then
what the hook does with them: whether `Cleanup` returns, the calls made until then, and
the store when it returns. -/
def T.Cleanup {S Reg V : Type} (pt : T S Reg V) (t : TestingT) (s : S) :
    (List (S → (Option Unit × List CleanupCall) × S) × Option Unit × List CleanupCall) × S :=
  match runCleanupHook (pt.cleanupFunc t) t.Cleanup s with
  | ((r, calls), s') => (([pt.cleanupFunc t], r, calls), s')

/-- A store that counts the calls of `Teardown` in its state; the call fails when the
flag is set. -/
def countingStore (fails : Bool) : PoutineImpl Nat Nat where
  Seed := fun s root => ((root, none), s)
  Snapshot := fun s => ((none, none), s)
  Teardown := fun s => (if fails then some "drop database: refused" else none, s + 1)

/-- A harness over `countingStore`. -/
def countingHarness (fails : Bool) : T Nat Unit Nat :=
  buildT { impl := countingStore fails, RegisterTypes := none }
    { Tester := fun _ _ => none, Registry := none, cacheDocuments := false } ()

/-- A store that implements `poutine.Registrar`; registering fails when the flag is set. -/
def registrarStore (fails : Bool) : Store Nat Nat Nat :=
  { impl := countingStore false
    RegisterTypes := some (fun _ => if fails then some "directive already registered" else none) }

/-- Other packages as `New` finds them: a comparator that accepts everything, and a
`NewRegistry` that hands out registry 7. -/
def demoDeps : Deps Nat Nat :=
  { defaultTester := fun _ _ => none, NewRegistry := .ok 7 }

/-- The registries `RegisterTypes` was called with, in order. -/
def registered {Reg : Type} : List (NewCall Reg) → List Reg
  | [] => []
  | .registerTypes reg :: rest => reg :: registered rest
  | .newRegistry :: rest => registered rest

/-- The contexts `Teardown` was called with, in order. -/
def teardowns : List CleanupCall → List Context
  | [] => []
  | .teardown ctx :: rest => ctx :: teardowns rest
  | .fatal _ :: rest => teardowns rest

/-- The messages `Fatalf` was called with, in order. -/
def fatals : List CleanupCall → List String
  | [] => []
  | .teardown _ :: rest => fatals rest
  | .fatal msg :: rest => msg :: fatals rest

/-! ## The directive `$oid` (`database/mongodb/type_wrappers.go`) -/

/-- What `json.UnmarshalDecode` leaves in a variable of type `any`: a `bool`, a `string`,
a `float64` (given by its printed form), the `nil` interface, a `map[string]any` or a
`[]any`. -/
inductive Payload where
  | bool : Bool → Payload
  | string : String → Payload
  | number : String → Payload
  | null : Payload
  | object : List (String × Payload) → Payload
  | array : List Payload → Payload

/-- How the verb `%T` prints the type of a decoded payload. -/
def Payload.typeName : Payload → String
  | .bool _ => "bool"
  | .string _ => "string"
  | .number _ => "float64"
  | .null => "<nil>"
  | .object _ => "map[string]interface {}"
  | .array _ => "[]interface {}"

/-- The part of package `bson` the decoder of `$oid` uses, over a type `OID` of object
ids: `ObjectIDFromHex`, the id `NewObjectID()` returns, and the zero value of `ObjectID`. -/
structure BSON (OID : Type) where
  ObjectIDFromHex : String → Except String OID
  NewObjectID : OID
  zero : OID

/-- The function `unmarshalOIDPattern`, given the outcome of `json.UnmarshalDecode`. -/
def unmarshalOIDPattern {OID : Type} (b : BSON OID) (decoded : Except String Payload) :
    Pattern OID × GoError :=
  match decoded with
  | .error err => ({ value := b.zero, present := false, explicit := false }, some err)
  | .ok raw =>
    match raw with
    | .bool v =>
      if !v then
        ({ value := b.zero, present := false, explicit := false },
          some "$oid bool must be true to indicate wildcard")
      else (Any b.NewObjectID, none)
    | .string v =>
      match b.ObjectIDFromHex v with
      | .error err => ({ value := b.zero, present := false, explicit := false }, some err)
      | .ok oid => (Value oid, none)
    | v =>
      ({ value := b.zero, present := false, explicit := false },
        some ("invalid $oid payload type " ++ v.typeName))

/-- The text occurs in the message. -/
def Mentions (msg text : String) : Prop := text.data <:+: msg.data

instance decidableMentions (msg text : String) : Decidable (Mentions msg text) :=
  inferInstanceAs (Decidable (text.data <:+: msg.data))

/-- A hexadecimal digit. -/
def isHexDigit (c : Char) : Bool :=
  ('0' ≤ c && c ≤ '9') || ('a' ≤ c && c ≤ 'f') || ('A' ≤ c && c ≤ 'F')

/-- Package `bson` with object ids kept in their hexadecimal form: `ObjectIDFromHex`
accepts the strings of 24 hexadecimal digits and answers every other string with the
message of `bson.ErrInvalidHex`. -/
def demoBSON : BSON String where
  ObjectIDFromHex := fun s =>
    if s.length = 24 ∧ s.data.all isHexDigit = true then .ok s
    else .error "the provided hex string is not a valid ObjectID"
  NewObjectID := "65f1a2b3c4d5e6f708192a3b"
  zero := "000000000000000000000000"

/-- The type argument `bson.ObjectID` over the object ids of `demoBSON`, in a universe
with that one type. -/
def demoOID : TypeArg Unit String String :=
  { tv := (), zero := demoBSON.zero, toAny := fun s => some ⟨(), s⟩ }

/-! ### Specification vocabulary for the conversions between `jwalk` and `bson` trees -/

/-- The value at index `i` of a `jwalk` container: of a `jwalk.Document` the value of its
entry `i`, of a `jwalk.Array` its element `i`. -/
def jchild : GoVal → Nat → Option GoVal
  | .jdoc d, i => ((elems d)[i]?).map Entry.Value
  | .jarr a, i => (elems a)[i]?
  | _, _ => none

/-- The value at index `i` of a `bson` container. -/
def bchild : GoVal → Nat → Option GoVal
  | .bdoc d, i => ((elems d)[i]?).map Entry.Value
  | .barr a, i => (elems a)[i]?
  | _, _ => none

/-- The value reached from `v` by taking the children at the indices of the path, one
after the other. -/
def descend (child : GoVal → Nat → Option GoVal) : GoVal → List Nat → Option GoVal
  | v, [] => some v
  | v, i :: path =>
    match child v i with
    | some u => descend child u path
    | none => none

mutual
/-- The tree is built from `jwalk.Document`s, `jwalk.Array`s and leaves that are neither
containers nor values with a method `UnwrapValue`. -/
def GoVal.plain : GoVal → Bool
  | .jdoc d => plainDocument d
  | .jarr a => plainArray a
  | .leaf _ _ => true
  | .null => true
  | _ => false
/-- The entries of a document hold plain trees. -/
def plainDocument : Option (List (Entry GoVal)) → Bool
  | none => true
  | some fs => plainFields fs
/-- The entries hold plain trees. -/
def plainFields : List (Entry GoVal) → Bool
  | [] => true
  | f :: fs => f.Value.plain && plainFields fs
/-- The elements of an array are plain trees. -/
def plainArray : Option (List GoVal) → Bool
  | none => true
  | some vs => plainElems vs
/-- The elements are plain trees. -/
def plainElems : List GoVal → Bool
  | [] => true
  | v :: vs => v.plain && plainElems vs
end

mutual
/-- No container of the tree is a `nil` slice. -/
def GoVal.nilFree : GoVal → Bool
  | .jdoc d => nilFreeDocument d
  | .jarr a => nilFreeArray a
  | .bdoc d => nilFreeDocument d
  | .barr a => nilFreeArray a
  | .unwrappable _ inner => inner.nilFree
  | .leaf _ _ => true
  | .null => true
/-- The document is not `nil` and its entries hold trees without `nil` containers. -/
def nilFreeDocument : Option (List (Entry GoVal)) → Bool
  | none => false
  | some fs => nilFreeFields fs
/-- The entries hold trees without `nil` containers. -/
def nilFreeFields : List (Entry GoVal) → Bool
  | [] => true
  | f :: fs => f.Value.nilFree && nilFreeFields fs
/-- The array is not `nil` and its elements are trees without `nil` containers. -/
def nilFreeArray : Option (List GoVal) → Bool
  | none => false
  | some vs => nilFreeElems vs
/-- The elements are trees without `nil` containers. -/
def nilFreeElems : List GoVal → Bool
  | [] => true
  | v :: vs => v.nilFree && nilFreeElems vs
end

mutual
/-- The tree with every `nil` `jwalk` container replaced by an empty one. -/
def fillNil : GoVal → GoVal
  | .jdoc d => .jdoc (fillNilDocument d)
  | .jarr a => .jarr (fillNilArray a)
  | v => v
/-- The document with every `nil` container replaced by an empty one. -/
def fillNilDocument : Option (List (Entry GoVal)) → Option (List (Entry GoVal))
  | none => some []
  | some fs => some (fillNilFields fs)
/-- The entries with every `nil` container replaced by an empty one. -/
def fillNilFields : List (Entry GoVal) → List (Entry GoVal)
  | [] => []
  | f :: fs => { Key := f.Key, Value := fillNil f.Value } :: fillNilFields fs
/-- The array with every `nil` container replaced by an empty one. -/
def fillNilArray : Option (List GoVal) → Option (List GoVal)
  | none => some []
  | some vs => some (fillNilElems vs)
/-- The elements with every `nil` container replaced by an empty one. -/
def fillNilElems : List GoVal → List GoVal
  | [] => []
  | v :: vs => fillNil v :: fillNilElems vs
end

/-- A tree of documents and arrays three levels deep, with leaves of several types. -/
def demoTree : GoVal :=
  .jdoc (some [⟨"name", .leaf "string" "Alice"⟩,
    ⟨"tags", .jarr (some [.leaf "string" "go", .jdoc (some [⟨"deep", .leaf "int" "9"⟩]),
      .jarr (some [])])⟩,
    ⟨"none", .null⟩,
    ⟨"name", .jdoc (some [])⟩])

/-- A document whose entry `spare` holds a `nil` `jwalk.Document`. -/
def demoNilTree : GoVal :=
  .jdoc (some [⟨"id", .leaf "int" "1"⟩, ⟨"spare", .jdoc none⟩])

/-- A document with a value that has a method `UnwrapValue` at depth two, next to a raw
`bson.D` and a `jwalk.Array`. -/
def demoWrappedTree : Option (List (Entry GoVal)) :=
  some [⟨"_id", .unwrappable "exp.Pattern[bson.ObjectID]" (.leaf "bson.ObjectID" "65f1")⟩,
    ⟨"meta", .jdoc (some [⟨"owner", .unwrappable "exp.Pattern[string]" (.jdoc none)⟩,
      ⟨"raw", .bdoc none⟩])⟩,
    ⟨"tags", .jarr (some [.leaf "string" "go", .jarr none])⟩]

/-- The records of a top-level value of a seed tree: the elements of the array, converted. -/
def recordsOf : GoVal → List GoVal
  | .jarr arr => (elems arr).map toBSONValue
  | _ => []

/-- A seed tree in which the key `users` stands twice, with `posts` in between. -/
def demoDupRoot : Document GoVal :=
  some [⟨"users", .jarr (some [.jdoc (some [⟨"name", .leaf "string" "Alice"⟩]),
      .jdoc (some [⟨"name", .leaf "string" "Bob"⟩])])⟩,
    ⟨"posts", .jarr (some [.jdoc (some [⟨"title", .leaf "string" "Hello"⟩])])⟩,
    ⟨"users", .jarr (some [.jdoc (some [⟨"name", .leaf "string" "Carol"⟩])])⟩]

/-- A store that accepts every write. -/
def demoDBWritable : MongoDB :=
  { demoDB with BulkWrite := fun _ _ => none }

/-! ### Specification vocabulary for the refinement of the uncached loader -/

/-- What a loader without caches returns for the path: `load` on such a loader just made. -/
def plainLoad {Reg V : Type} (env : Env Reg V) (reg : Reg) (path : String) :
    Document V × GoError :=
  ((newDocumentLoader reg false).load env path).1

/-- The loader caches, and every document of its file cache has the entries the file
decodes to. -/
def documentLoader.FileCoherent {Reg V : Type} (env : Env Reg V) (l : documentLoader Reg V) :
    Prop :=
  l.cache = true ∧
    ∀ f es, l.getFileCache f = some es →
      ∃ d, decodeFile env l.reg f = .ok d ∧ d.entries = es

/-- The caches agree with the file system: the file cache as above, and every document of
the path cache has the entries of what a loader without caches returns for the path. -/
def documentLoader.Coherent {Reg V : Type} (env : Env Reg V) (l : documentLoader Reg V) :
    Prop :=
  l.FileCoherent env ∧
    ∀ p es, l.getPathCache p = some es →
      ∃ d, plainLoad env l.reg p = (d, none) ∧ d.entries = es

/-- The loader after loading the paths one after the other. -/
def documentLoader.loads {Reg V : Type} (env : Env Reg V) :
    documentLoader Reg V → List String → documentLoader Reg V
  | l, [] => l
  | l, p :: ps => documentLoader.loads env (l.load env p).2 ps

/-! ## Lemmas on the merge -/

theorem mem_firstAppearance (ks : List String) (k : String) :
    k ∈ firstAppearance ks ↔ k ∈ ks := by
  induction ks with
  | nil => simp [firstAppearance]
  | cons a as ih =>
    simp only [firstAppearance, List.mem_cons, List.mem_filter, ih]
    by_cases h : k = a
    · simp [h]
    · simp [h]

theorem nodup_firstAppearance (ks : List String) : (firstAppearance ks).Nodup := by
  induction ks with
  | nil => simp [firstAppearance]
  | cons a as ih =>
    simp only [firstAppearance, List.nodup_cons, List.mem_filter]
    refine ⟨by simp, ih.filter _⟩

theorem firstAppearance_snoc (ks : List String) (k : String) :
    firstAppearance (ks ++ [k]) =
      if k ∈ ks then firstAppearance ks else firstAppearance ks ++ [k] := by
  induction ks with
  | nil => simp [firstAppearance]
  | cons a as ih =>
    rw [List.cons_append]
    simp only [firstAppearance, List.mem_cons]
    rw [ih]
    by_cases hka : k = a
    · subst hka
      by_cases hk : k ∈ as
      · simp [hk]
      · simp [hk, List.filter_append]
    · by_cases hk : k ∈ as
      · simp [hk, hka]
      · simp [hk, hka, List.filter_append]

theorem lastValue_snoc {V : Type} (all : List (Entry V)) (e : Entry V) (k : String) :
    lastValue (all ++ [e]) k = if e.Key = k then some e.Value else lastValue all k := by
  unfold lastValue
  by_cases h : e.Key = k
  · simp [h]
  · simp [h]

theorem upsert_def {V : Type} (es : List (Entry V)) (e : Entry V) :
    upsert es e = if e.Key ∈ es.map Entry.Key then
      es.map (fun x => if x.Key = e.Key then { x with Value := e.Value } else x)
    else es ++ [e] := rfl

theorem keys_upsert {V : Type} (es : List (Entry V)) (e : Entry V) :
    (upsert es e).map Entry.Key =
      if e.Key ∈ es.map Entry.Key then es.map Entry.Key else es.map Entry.Key ++ [e.Key] := by
  unfold upsert
  by_cases h : e.Key ∈ es.map Entry.Key
  · rw [if_pos h, if_pos h, List.map_map]
    apply List.map_congr_left
    intro x _
    by_cases hx : x.Key = e.Key <;> simp [hx]
  · rw [if_neg h, if_neg h]; simp

/-- The keys of the pure merge are the distinct keys in order of first appearance. -/
theorem keys_foldl_upsert {V : Type} (all : List (Entry V)) :
    (all.foldl upsert []).map Entry.Key = firstAppearance (all.map Entry.Key) := by
  induction all using List.reverseRecOn with
  | nil => simp [firstAppearance]
  | append_singleton l e ih =>
    rw [List.foldl_append, List.foldl_cons, List.foldl_nil, keys_upsert, ih, List.map_append,
      List.map_cons, List.map_nil, firstAppearance_snoc]
    simp only [mem_firstAppearance]

/-- Every entry of the pure merge carries the value of the last source entry with its key. -/
theorem values_foldl_upsert {V : Type} (all : List (Entry V)) :
    ∀ x ∈ all.foldl upsert [], lastValue all x.Key = some x.Value := by
  induction all using List.reverseRecOn with
  | nil => simp
  | append_singleton l e ih =>
    intro x hx
    rw [List.foldl_append, List.foldl_cons, List.foldl_nil] at hx
    rw [lastValue_snoc]
    rw [upsert_def] at hx
    by_cases h : e.Key ∈ (l.foldl upsert []).map Entry.Key
    · rw [if_pos h, List.mem_map] at hx
      obtain ⟨y, hy, rfl⟩ := hx
      by_cases hyk : y.Key = e.Key
      · simp [hyk]
      · have hne : ¬ e.Key = y.Key := fun h' => hyk h'.symm
        simp only [hyk, if_false, hne]
        exact ih y hy
    · rw [if_neg h, List.mem_append, List.mem_singleton] at hx
      rcases hx with hx | rfl
      · have hne : ¬ e.Key = x.Key := by
          intro h'
          exact h (h' ▸ List.mem_map_of_mem Entry.Key hx)
        simp only [hne, if_false]
        exact ih x hx
      · simp

theorem getElem?_setValueAt {V : Type} (es : List (Entry V)) (pos : Nat) (v : V) (i : Nat) :
    (setValueAt es pos v)[i]? =
      if i = pos then (es[i]?).map (fun x => { x with Value := v }) else es[i]? := by
  induction es generalizing pos i with
  | nil => simp [setValueAt]
  | cons x xs ih =>
    cases pos with
    | zero =>
      cases i with
      | zero => simp [setValueAt]
      | succ j => simp [setValueAt]
    | succ p =>
      cases i with
      | zero => simp [setValueAt]
      | succ j => simp [setValueAt, ih]

theorem mergeInv_init {V : Type} :
    MergeInv ({ merged := none, index := GoMap.empty } : MergeState V) := by
  intro k pos
  simp [GoMap.empty, Document.entries]

/-- One loop iteration keeps the invariant and acts on the entries as `upsert`. -/
theorem mergeEntry_spec {V : Type} (st : MergeState V) (e : Entry V) (h : MergeInv st) :
    MergeInv (mergeEntry st e) ∧
      (mergeEntry st e).merged.entries = upsert st.merged.entries e := by
  unfold mergeEntry
  cases hidx : st.index e.Key with
  | some pos =>
    have hpos := (h e.Key pos).1 hidx
    have hmem : e.Key ∈ st.merged.entries.map Entry.Key := by
      cases hget : st.merged.entries[pos]? with
      | none => simp [hget] at hpos
      | some y =>
        simp only [hget, Option.map_some', Option.some.injEq] at hpos
        rw [← hpos]
        exact List.mem_map_of_mem Entry.Key (List.mem_iff_getElem?.2 ⟨pos, hget⟩)
    have hent : (st.merged.setValue pos e.Value).entries =
        setValueAt st.merged.entries pos e.Value := by
      cases hm : st.merged with
      | none => simp [Document.setValue, Document.entries, setValueAt]
      | some es => simp [Document.setValue, Document.entries]
    have hup : setValueAt st.merged.entries pos e.Value = upsert st.merged.entries e := by
      unfold upsert
      rw [if_pos hmem]
      apply List.ext_getElem?
      intro i
      rw [getElem?_setValueAt, List.getElem?_map]
      by_cases hi : i = pos
      · subst hi
        rw [if_pos rfl]
        cases hget : st.merged.entries[i]? with
        | none => rfl
        | some y =>
          simp only [hget, Option.map_some', Option.some.injEq] at hpos
          simp [hpos]
      · rw [if_neg hi]
        cases hget : st.merged.entries[i]? with
        | none => rfl
        | some y =>
          have hyk : ¬ y.Key = e.Key := by
            intro hk
            have h1 : st.index e.Key = some i := (h e.Key i).2 (by simp [hget, hk])
            rw [hidx] at h1
            exact hi (Option.some.inj h1).symm
          simp [hyk]
    refine ⟨?_, by simpa [hent] using hup⟩
    intro k i
    show st.index k = some i ↔ _
    rw [h k i, hent, getElem?_setValueAt]
    by_cases hi : i = pos
    · rw [if_pos hi]
      cases st.merged.entries[i]? <;> simp
    · rw [if_neg hi]
  | none =>
    have hnot : e.Key ∉ st.merged.entries.map Entry.Key := by
      intro hmem
      obtain ⟨y, hy, hk⟩ := List.mem_map.1 hmem
      obtain ⟨i, hi⟩ := List.getElem?_of_mem hy
      have h1 : st.index e.Key = some i := (h e.Key i).2 (by simp [hi, hk])
      rw [hidx] at h1
      exact Option.noConfusion h1
    refine ⟨?_, ?_⟩
    swap
    · show st.merged.entries ++ [e] = upsert st.merged.entries e
      rw [upsert_def, if_neg hnot]
    intro k i
    show GoMap.set st.index e.Key st.merged.len k = some i ↔
      ((Document.entries (st.merged.append e))[i]?).map Entry.Key = some k
    have hent : Document.entries (st.merged.append e) = st.merged.entries ++ [e] := rfl
    rw [hent]
    unfold GoMap.set Document.len
    by_cases hk : k = e.Key
    · subst hk
      rw [if_pos rfl]
      constructor
      · intro hh
        have : st.merged.entries.length = i := Option.some.inj hh
        subst this
        simp
      · intro hh
        rcases Nat.lt_trichotomy i st.merged.entries.length with hlt | heq | hgt
        · rw [List.getElem?_append_left hlt] at hh
          have := (h e.Key i).2 hh
          rw [hidx] at this
          exact Option.noConfusion this
        · rw [heq]
        · rw [List.getElem?_append_right (Nat.le_of_lt hgt)] at hh
          have : i - st.merged.entries.length ≠ 0 := by omega
          obtain ⟨j, hj⟩ := Nat.exists_eq_succ_of_ne_zero this
          simp [hj] at hh
    · rw [if_neg hk, h k i]
      rcases Nat.lt_or_ge i st.merged.entries.length with hlt | hge
      · rw [List.getElem?_append_left hlt]
      · rw [List.getElem?_append_right hge, List.getElem?_eq_none hge]
        cases hj : i - st.merged.entries.length with
        | zero =>
          simp only [List.getElem?_cons_zero, Option.map_some', Option.some.injEq, Option.map_none']
          constructor
          · intro hh; exact Option.noConfusion hh
          · intro hh; exact absurd hh.symm hk
        | succ j => simp

/-- Folding the loop body over any entries keeps the invariant and equals the pure fold. -/
theorem foldl_mergeEntry_spec {V : Type} (all : List (Entry V)) (st : MergeState V)
    (h : MergeInv st) :
    MergeInv (all.foldl mergeEntry st) ∧
      (all.foldl mergeEntry st).merged.entries = all.foldl upsert st.merged.entries := by
  induction all generalizing st with
  | nil => exact ⟨h, rfl⟩
  | cons e es ih =>
    obtain ⟨h1, h2⟩ := mergeEntry_spec st e h
    obtain ⟨h3, h4⟩ := ih (mergeEntry st e) h1
    exact ⟨h3, by rw [List.foldl_cons, h4, h2]; rfl⟩

theorem foldl_mergeYield_eq {V : Type} (docs : List (Document V)) (st : MergeState V) :
    docs.foldl mergeYield st = (allEntries docs).foldl mergeEntry st := by
  induction docs generalizing st with
  | nil => rfl
  | cons d ds ih =>
    simp only [List.foldl_cons, allEntries, List.flatMap_cons, List.foldl_append]
    exact ih _

/-- The entries `mergeDocs` returns are the pure fold of `upsert` over all source entries. -/
theorem mergeDocs_entries {V : Type} (docs : List (Document V)) :
    (mergeDocs docs).entries = (allEntries docs).foldl upsert [] := by
  unfold mergeDocs
  rw [foldl_mergeYield_eq]
  exact (foldl_mergeEntry_spec (allEntries docs) _ mergeInv_init).2

/-! ## Lemmas on `isJSONFile` -/

theorem toLowerRune_cases (c : Char) :
    (65 ≤ c.toNat ∧ c.toNat ≤ 90 ∧ toLowerRune c = Char.ofNat (c.toNat + 32)) ∨
      (toLowerRune c = 'i') ∨ (toLowerRune c = 'k') ∨
      (¬ (65 ≤ c.toNat ∧ c.toNat ≤ 90) ∧ toLowerRune c = c) := by
  unfold toLowerRune
  by_cases h1 : 65 ≤ c.toNat ∧ c.toNat ≤ 90
  · exact Or.inl ⟨h1.1, h1.2, by rw [if_pos h1]⟩
  · rw [if_neg h1]
    by_cases h2 : c.toNat = 0x130
    · rw [if_pos h2]; exact Or.inr (Or.inl rfl)
    · rw [if_neg h2]
      by_cases h3 : c.toNat = 0x212A
      · rw [if_pos h3]; exact Or.inr (Or.inr (Or.inl rfl))
      · rw [if_neg h3]; exact Or.inr (Or.inr (Or.inr ⟨h1, rfl⟩))

theorem toLowerRune_eq_dot (c : Char) : toLowerRune c = '.' ↔ c = '.' := by
  constructor
  · intro h
    rcases toLowerRune_cases c with ⟨h1, h2, h3⟩ | h3 | h3 | ⟨_, h3⟩
    · rw [h3] at h
      generalize hn : c.toNat = n at h h1 h2
      exfalso
      interval_cases n <;> revert h <;> decide
    · rw [h3] at h; exact absurd h (by decide)
    · rw [h3] at h; exact absurd h (by decide)
    · rw [h3] at h; exact h
  · rintro rfl; decide

theorem toLowerRune_eq_j (c : Char) : toLowerRune c = 'j' ↔ (c = 'j' ∨ c = 'J') := by
  constructor
  · intro h
    rcases toLowerRune_cases c with ⟨h1, h2, h3⟩ | h3 | h3 | ⟨_, h3⟩
    · rw [h3] at h
      have hc := Char.ofNat_toNat c
      generalize hn : c.toNat = n at h h1 h2 hc
      interval_cases n <;> first
        | (exfalso; revert h; decide)
        | exact Or.inr hc.symm
    · rw [h3] at h; exact absurd h (by decide)
    · rw [h3] at h; exact absurd h (by decide)
    · rw [h3] at h; exact Or.inl h
  · rintro (rfl | rfl) <;> decide

theorem toLowerRune_eq_s (c : Char) : toLowerRune c = 's' ↔ (c = 's' ∨ c = 'S') := by
  constructor
  · intro h
    rcases toLowerRune_cases c with ⟨h1, h2, h3⟩ | h3 | h3 | ⟨_, h3⟩
    · rw [h3] at h
      have hc := Char.ofNat_toNat c
      generalize hn : c.toNat = n at h h1 h2 hc
      interval_cases n <;> first
        | (exfalso; revert h; decide)
        | exact Or.inr hc.symm
    · rw [h3] at h; exact absurd h (by decide)
    · rw [h3] at h; exact absurd h (by decide)
    · rw [h3] at h; exact Or.inl h
  · rintro (rfl | rfl) <;> decide

theorem toLowerRune_eq_o (c : Char) : toLowerRune c = 'o' ↔ (c = 'o' ∨ c = 'O') := by
  constructor
  · intro h
    rcases toLowerRune_cases c with ⟨h1, h2, h3⟩ | h3 | h3 | ⟨_, h3⟩
    · rw [h3] at h
      have hc := Char.ofNat_toNat c
      generalize hn : c.toNat = n at h h1 h2 hc
      interval_cases n <;> first
        | (exfalso; revert h; decide)
        | exact Or.inr hc.symm
    · rw [h3] at h; exact absurd h (by decide)
    · rw [h3] at h; exact absurd h (by decide)
    · rw [h3] at h; exact Or.inl h
  · rintro (rfl | rfl) <;> decide

theorem toLowerRune_eq_n (c : Char) : toLowerRune c = 'n' ↔ (c = 'n' ∨ c = 'N') := by
  constructor
  · intro h
    rcases toLowerRune_cases c with ⟨h1, h2, h3⟩ | h3 | h3 | ⟨_, h3⟩
    · rw [h3] at h
      have hc := Char.ofNat_toNat c
      generalize hn : c.toNat = n at h h1 h2 hc
      interval_cases n <;> first
        | (exfalso; revert h; decide)
        | exact Or.inr hc.symm
    · rw [h3] at h; exact absurd h (by decide)
    · rw [h3] at h; exact absurd h (by decide)
    · rw [h3] at h; exact Or.inl h
  · rintro (rfl | rfl) <;> decide

/-- The helper `isJSONFile` accepts exactly the names ending with `.json` in any case. -/
theorem isJSONFile_iff (name : String) : isJSONFile name = true ↔ EndsWithJSONFold name := by
  unfold isJSONFile HasSuffix ToLower EndsWithJSONFold
  rw [List.isSuffixOf_iff_suffix]
  show (∃ t, t ++ ['.', 'j', 's', 'o', 'n'] = name.data.map toLowerRune) ↔ _
  constructor
  · rintro ⟨t, ht⟩
    obtain ⟨l₁, l₂, hl, _, h2⟩ := List.map_eq_append_iff.1 ht.symm
    simp only [List.map_eq_cons_iff, List.map_eq_nil_iff] at h2
    obtain ⟨a, _, rfl, ha, b, _, rfl, hb, c, _, rfl, hc, d, _, rfl, hd, e, _, rfl, he, rfl⟩ := h2
    rw [(toLowerRune_eq_dot a).1 ha] at hl
    exact ⟨l₁, b, c, d, e, hl, (toLowerRune_eq_j b).1 hb, (toLowerRune_eq_s c).1 hc,
      (toLowerRune_eq_o d).1 hd, (toLowerRune_eq_n e).1 he⟩
  · rintro ⟨pre, j, s, o, n, hd, hj, hs, ho, hn⟩
    refine ⟨pre.map toLowerRune, ?_⟩
    rw [hd, List.map_append]
    simp only [List.map_cons, List.map_nil, (toLowerRune_eq_dot '.').2 rfl,
      (toLowerRune_eq_j j).2 hj, (toLowerRune_eq_s s).2 hs, (toLowerRune_eq_o o).2 ho,
      (toLowerRune_eq_n n).2 hn]

/-! ## Lemmas on the loader -/

theorem readFile_ok {Reg V : Type} (env : Env Reg V) (l : documentLoader Reg V) (f : String)
    (d : Document V) (h : decodeFile env l.reg f = .ok d) :
    l.readFile env f = ((d, none), { l with opened := l.opened ++ [f] }) := by
  simp only [documentLoader.readFile, h]

theorem readFile_err {Reg V : Type} (env : Env Reg V) (l : documentLoader Reg V) (f : String)
    (e : String) (h : decodeFile env l.reg f = .error e) :
    l.readFile env f = ((none, some e), { l with opened := l.opened ++ [f] }) := by
  simp only [documentLoader.readFile, h]

theorem getFile_uncached {Reg V : Type} (env : Env Reg V) (l : documentLoader Reg V)
    (f : String) (hc : l.cache = false) : l.getFile env f = l.readFile env f := by
  simp [documentLoader.getFile, hc]

theorem getFile_hit {Reg V : Type} (env : Env Reg V) (l : documentLoader Reg V) (f : String)
    (es : List (Entry V)) (hc : l.cache = true) (hh : l.getFileCache f = some es) :
    l.getFile env f = ((some es, none), l) := by
  simp [documentLoader.getFile, hc, hh, copyDoc, Document.entries]

theorem getFile_miss_ok {Reg V : Type} (env : Env Reg V) (l : documentLoader Reg V)
    (f : String) (d : Document V) (hc : l.cache = true) (hm : l.getFileCache f = none)
    (h : decodeFile env l.reg f = .ok d) :
    l.getFile env f =
      ((copyDoc d, none),
        documentLoader.setFileCache { l with opened := l.opened ++ [f] } f d) := by
  simp [documentLoader.getFile, documentLoader.getFileFlight, hc, hm, readFile_ok env l f d h]

theorem getFile_miss_err {Reg V : Type} (env : Env Reg V) (l : documentLoader Reg V)
    (f : String) (e : String) (hc : l.cache = true) (hm : l.getFileCache f = none)
    (h : decodeFile env l.reg f = .error e) :
    l.getFile env f = ((none, some e), { l with opened := l.opened ++ [f] }) := by
  simp [documentLoader.getFile, documentLoader.getFileFlight, hc, hm, readFile_err env l f e h]

theorem getFileCache_setFileCache {Reg V : Type} (l : documentLoader Reg V) (f g : String)
    (d : Document V) :
    (l.setFileCache f d).getFileCache g = if g = f then d else l.getFileCache g := by
  unfold documentLoader.setFileCache documentLoader.getFileCache GoMap.set
  by_cases h : g = f
  · simp [h]
  · simp [h]

theorem readFiles_cons_ok {Reg V : Type} (env : Env Reg V) (l l1 l2 : documentLoader Reg V)
    (g : String) (fs : List String) (d : Document V) (ds : List (Document V))
    (readErr : GoError) (h : l.getFile env g = ((d, none), l1))
    (h2 : l1.readFiles env fs = (ds, readErr, l2)) :
    l.readFiles env (g :: fs) = (d :: ds, readErr, l2) := by
  simp only [documentLoader.readFiles, h, h2]

theorem docOf_ok {Reg V : Type} (env : Env Reg V) (reg : Reg) (f : String) (d : Document V)
    (h : decodeFile env reg f = .ok d) : docOf env reg f = d := by
  simp only [docOf, h]

theorem entries_copyDoc {V : Type} (d : Document V) : (copyDoc d).entries = d.entries := rfl

theorem fileDoc_entries_of_set {Reg V : Type} (env : Env Reg V) (l l1 : documentLoader Reg V)
    (g : String) (d : Document V) (hc : l.cache = true) (hc1 : l1.cache = true)
    (hr1 : l1.reg = l.reg) (hm : l.getFileCache g = none)
    (hd : decodeFile env l.reg g = .ok d)
    (hfc : ∀ g', l1.getFileCache g' = if g' = g then d else l.getFileCache g') :
    ∀ g', (l1.fileDoc env g').entries = (l.fileDoc env g').entries := by
  intro g'
  unfold documentLoader.fileDoc
  rw [if_pos hc, if_pos hc1, hfc g', hr1]
  by_cases hgg : g' = g
  · subst hgg
    rw [if_pos rfl, hm]
    simp only [docOf_ok env l.reg g' d hd]
    cases d <;> simp only [docOf_ok env l.reg g' _ hd]
  · rw [if_neg hgg]

/-- A successful `getFile`: the document handed out has the entries of `fileDoc`, and the
loader afterwards sees every file as before. -/
theorem getFile_yields {Reg V : Type} (env : Env Reg V) (l : documentLoader Reg V)
    (g : String) (hy : l.Yields env g) :
    ∃ d l1, l.getFile env g = ((d, none), l1) ∧
      d.entries = (l.fileDoc env g).entries ∧
      (l.cache = false → d = docOf env l.reg g ∧ l1.opened = l.opened ++ [g]) ∧
      (l1.opened = l.opened ∨ l1.opened = l.opened ++ [g]) ∧
      l1.reg = l.reg ∧ l1.cache = l.cache ∧ l1.pathCache = l.pathCache ∧
      (∀ g', (l1.fileDoc env g').entries = (l.fileDoc env g').entries) ∧
      (∀ g', l.Yields env g' → l1.Yields env g') ∧
      (∀ g', g' ≠ g → l1.getFileCache g' = l.getFileCache g') := by
  rcases Bool.eq_false_or_eq_true l.cache with hc | hc
  · cases hm : l.getFileCache g with
    | some es =>
      refine ⟨some es, l, getFile_hit env l g es hc hm, ?_, ?_, Or.inl rfl, rfl, rfl, rfl,
        fun _ => rfl, fun _ h => h, fun _ _ => rfl⟩
      · simp only [documentLoader.fileDoc, hc, hm, if_true]
      · intro h; rw [hc] at h; exact Bool.noConfusion h
    | none =>
      rcases hy with ⟨_, h⟩ | ⟨d, hd⟩
      · exact absurd hm h
      · refine ⟨copyDoc d,
          documentLoader.setFileCache { l with opened := l.opened ++ [g] } g d,
          getFile_miss_ok env l g d hc hm hd, ?_, ?_, Or.inr rfl, rfl, rfl, rfl, ?_, ?_, ?_⟩
        · simp only [documentLoader.fileDoc, hc, hm, if_true, docOf_ok env l.reg g d hd,
            entries_copyDoc]
        · intro h; rw [hc] at h; exact Bool.noConfusion h
        · exact fileDoc_entries_of_set env l _ g d hc hc rfl hm hd
            (fun g' => getFileCache_setFileCache _ g g' d)
        · intro g' hy'
          by_cases hgg : g' = g
          · exact Or.inr ⟨d, by rw [hgg]; exact hd⟩
          · rcases hy' with ⟨_, h⟩ | h
            · refine Or.inl ⟨hc, ?_⟩
              rw [getFileCache_setFileCache, if_neg hgg]
              exact h
            · exact Or.inr h
        · intro g' hgg
          rw [getFileCache_setFileCache, if_neg hgg]
          rfl
  · rcases hy with ⟨h, _⟩ | ⟨d, hd⟩
    · rw [hc] at h; exact Bool.noConfusion h
    · have hc1 : ({ l with opened := l.opened ++ [g] } : documentLoader Reg V).cache
          = false := hc
      refine ⟨d, { l with opened := l.opened ++ [g] }, ?_, ?_, fun _ => ⟨?_, rfl⟩,
        Or.inr rfl, rfl, rfl, rfl, ?_, ?_, fun _ _ => rfl⟩
      · rw [getFile_uncached env l g hc, readFile_ok env l g d hd]
      · simp only [documentLoader.fileDoc, hc, docOf_ok env l.reg g d hd]
        rfl
      · exact (docOf_ok env l.reg g d hd).symm
      · intro g'
        unfold documentLoader.fileDoc
        rw [if_neg (by rw [hc1]; exact Bool.noConfusion), if_neg (by rw [hc]; exact Bool.noConfusion)]
      · intro g' hy'
        rcases hy' with ⟨h, _⟩ | h
        · rw [hc] at h; exact Bool.noConfusion h
        · exact Or.inr h

/-- When `getFile` can hand out a document for every file, the iterator of `loadPath`
yields one document per file, with the entries of `fileDoc`, and leaves `readErr` unset. -/
theorem readFiles_yields {Reg V : Type} (env : Env Reg V) :
    ∀ (files : List String) (l : documentLoader Reg V),
      (∀ g ∈ files, l.Yields env g) →
      ∃ docs l', l.readFiles env files = (docs, none, l') ∧
        docs.map Document.entries = files.map (fun g => (l.fileDoc env g).entries) ∧
        (l.cache = false → docs = files.map (docOf env l.reg) ∧
          l'.opened = l.opened ++ files) ∧
        l'.cache = l.cache ∧ l'.pathCache = l.pathCache ∧ l'.reg = l.reg := by
  intro files
  induction files with
  | nil =>
    intro l _
    exact ⟨[], l, rfl, rfl, fun _ => ⟨rfl, by simp⟩, rfl, rfl, rfl⟩
  | cons g fs ih =>
    intro l hy
    obtain ⟨d, l1, hget, hd, hun, _, hr1, hc1, hp1, hfd, hys, _⟩ :=
      getFile_yields env l g (hy g (List.mem_cons_self _ _))
    obtain ⟨ds, l', hrf, hents, hun', hc', hp', hr'⟩ :=
      ih l1 (fun g' hg' => hys g' (hy g' (List.mem_cons_of_mem _ hg')))
    refine ⟨d :: ds, l', readFiles_cons_ok env l l1 l' g fs d ds none hget hrf, ?_, ?_,
      hc'.trans hc1, hp'.trans hp1, hr'.trans hr1⟩
    · simp only [List.map_cons, hents, hd, hfd]
    · intro hc
      obtain ⟨h1, h2⟩ := hun hc
      obtain ⟨h3, h4⟩ := hun' (hc1.trans hc)
      refine ⟨by simp only [List.map_cons, h1, h3, hr1], ?_⟩
      rw [h4, h2]; simp

theorem load_uncached {Reg V : Type} (env : Env Reg V) (l : documentLoader Reg V)
    (path : String) (hc : l.cache = false) : l.load env path = l.loadPath env path := by
  simp [documentLoader.load, hc]

theorem load_hit {Reg V : Type} (env : Env Reg V) (l : documentLoader Reg V) (path : String)
    (es : List (Entry V)) (hc : l.cache = true) (hh : l.getPathCache path = some es) :
    l.load env path = ((some es, none), l) := by
  simp [documentLoader.load, hc, hh, copyDoc, Document.entries]

theorem load_miss_ok {Reg V : Type} (env : Env Reg V) (l l' : documentLoader Reg V)
    (path : String) (doc : Document V) (hc : l.cache = true)
    (hm : l.getPathCache path = none) (h : l.loadPath env path = ((doc, none), l')) :
    l.load env path = ((copyDoc doc, none), l'.setPathCache path doc) := by
  simp [documentLoader.load, documentLoader.loadFlight, hc, hm, h]

theorem load_miss_err {Reg V : Type} (env : Env Reg V) (l l' : documentLoader Reg V)
    (path : String) (doc : Document V) (e : String) (hc : l.cache = true)
    (hm : l.getPathCache path = none) (h : l.loadPath env path = ((doc, some e), l')) :
    l.load env path = ((none, some e), l') := by
  simp [documentLoader.load, documentLoader.loadFlight, hc, hm, h]

theorem loadPath_multi {Reg V : Type} (env : Env Reg V) (l : documentLoader Reg V)
    (path : String) (files : List String) (hres : resolve env path = (files, none))
    (hlen : 2 ≤ files.length) :
    l.loadPath env path =
      match l.readFiles env (sortStrings files) with
      | (docs, readErr, l') =>
        match readErr with
        | some err => ((none, some err), l')
        | none => ((mergeDocs docs, none), l') := by
  match files, hlen with
  | a :: b :: rest, _ => simp only [documentLoader.loadPath, hres]

theorem sortStrings_sorted (files : List String) :
    (sortStrings files).Sorted (fun a b => a.data ≤ b.data) := by
  haveI : IsTotal String (fun a b => a.data ≤ b.data) := ⟨fun a b => le_total a.data b.data⟩
  haveI : IsTrans String (fun a b => a.data ≤ b.data) :=
    ⟨fun _ _ _ h1 h2 => le_trans h1 h2⟩
  exact List.sorted_insertionSort _ files

theorem sortStrings_perm (files : List String) : (sortStrings files).Perm files :=
  List.perm_insertionSort _ files

theorem allEntries_append {V : Type} (ds ds' : List (Document V)) :
    allEntries (ds ++ ds') = allEntries ds ++ allEntries ds' := by
  simp [allEntries]

theorem allEntries_congr {V : Type} (ds ds' : List (Document V))
    (h : ds.map Document.entries = ds'.map Document.entries) :
    allEntries ds = allEntries ds' := by
  simp only [allEntries, List.flatMap_def, h]

theorem keys_mergeDocs {V : Type} (docs : List (Document V)) :
    (mergeDocs docs).entries.map Entry.Key =
      firstAppearance ((allEntries docs).map Entry.Key) := by
  rw [mergeDocs_entries, keys_foldl_upsert]

theorem firstAppearance_append_left (ks ks' : List String) :
    firstAppearance ks <+: firstAppearance (ks ++ ks') := by
  induction ks' using List.reverseRecOn with
  | nil => simp
  | append_singleton l k ih =>
    rw [← List.append_assoc, firstAppearance_snoc]
    by_cases h : k ∈ ks ++ l
    · rw [if_pos h]; exact ih
    · rw [if_neg h]; exact ih.trans (List.prefix_append _ _)

theorem lastValue_append {V : Type} (as bs : List (Entry V)) (k : String) :
    lastValue (as ++ bs) k =
      if k ∈ bs.map Entry.Key then lastValue bs k else lastValue as k := by
  induction bs using List.reverseRecOn with
  | nil => simp
  | append_singleton l e ih =>
    rw [← List.append_assoc, lastValue_snoc, lastValue_snoc, ih]
    by_cases he : e.Key = k
    · simp [he]
    · have hne : ¬ k = e.Key := fun h => he h.symm
      simp [he, hne]

/-- In a merge of the files of a sorted list, the last value of a key is its last value in
the greatest file that holds the key. -/
theorem lastValue_greatest {V : Type} (D : String → Document V) (k : String) :
    ∀ (fs : List String), fs.Sorted (fun a b => a.data ≤ b.data) → ∀ f ∈ fs,
      k ∈ (D f).entries.map Entry.Key →
      (∀ g ∈ fs, k ∈ (D g).entries.map Entry.Key → g.data ≤ f.data) →
      lastValue (allEntries (fs.map D)) k = lastValue (D f).entries k := by
  intro fs
  induction fs using List.reverseRecOn with
  | nil => intro _ f hf; simp at hf
  | append_singleton l g ih =>
    intro hs f hf hk hmax
    have hs' := List.pairwise_append.1 hs
    rw [List.map_append, allEntries_append, lastValue_append]
    have hone : allEntries ([g].map D) = (D g).entries := by
      simp [allEntries]
    rw [hone]
    by_cases hg : k ∈ (D g).entries.map Entry.Key
    · rw [if_pos hg]
      have h1 : g.data ≤ f.data := hmax g (by simp) hg
      have h2 : f.data ≤ g.data := by
        rcases List.mem_append.1 hf with hfl | hfg
        · exact hs'.2.2 f hfl g (by simp)
        · rw [List.mem_singleton.1 hfg]
      have : f = g := String.ext (le_antisymm h2 h1)
      rw [this]
    · rw [if_neg hg]
      have hfl : f ∈ l := by
        rcases List.mem_append.1 hf with hfl | hfg
        · exact hfl
        · rw [List.mem_singleton.1 hfg] at hk; exact absurd hk hg
      exact ih hs'.1 f hfl hk (fun g' hg' => hmax g' (List.mem_append_left _ hg'))

/-- The iterator of `loadPath` stops at the first file whose decoding fails: it reports
that error, has opened that file last, and has opened nothing but files before it. -/
theorem readFiles_fail {Reg V : Type} (env : Env Reg V) (f : String) (post : List String)
    (e : String) :
    ∀ (pre : List String) (l : documentLoader Reg V),
      (∀ g ∈ pre, l.Yields env g) →
      decodeFile env l.reg f = .error e →
      (l.cache = true → l.getFileCache f = none) →
      ∃ docs l', l.readFiles env (pre ++ f :: post) = (docs, some e, l') ∧
        l'.cache = l.cache ∧ l'.pathCache = l.pathCache ∧
        (∃ t, l'.opened = l.opened ++ t ++ [f] ∧ ∀ g ∈ t, g ∈ pre) ∧
        (l.cache = false → l'.opened = l.opened ++ pre ++ [f]) := by
  intro pre
  induction pre with
  | nil =>
    intro l _ hf hfc
    have hget : l.getFile env f = ((none, some e), { l with opened := l.opened ++ [f] }) := by
      rcases Bool.eq_false_or_eq_true l.cache with hc | hc
      · exact getFile_miss_err env l f e hc (hfc hc) hf
      · rw [getFile_uncached env l f hc, readFile_err env l f e hf]
    refine ⟨[], { l with opened := l.opened ++ [f] }, ?_, rfl, rfl, ⟨[], by simp, by simp⟩,
      fun _ => by simp⟩
    simp only [List.nil_append, documentLoader.readFiles, hget]
  | cons g gs ih =>
    intro l hpre hf hfc
    have hyg := hpre g (List.mem_cons_self _ _)
    have hgf : f ≠ g := by
      intro hfg
      rcases hyg with ⟨hc, h⟩ | ⟨d, hd⟩
      · exact h (hfg ▸ hfc hc)
      · rw [← hfg, hf] at hd
        exact Except.noConfusion hd
    obtain ⟨d, l1, hget, _, hun1, hop1, hr1, hc1, hp1, _, hys, hfc1⟩ :=
      getFile_yields env l g hyg
    obtain ⟨ds, l', hrf, hc', hp', ⟨t, ht, hsub⟩, hun'⟩ :=
      ih l1 (fun g' hg' => hys g' (hpre g' (List.mem_cons_of_mem _ hg')))
        (by rw [hr1]; exact hf)
        (fun h => by rw [hfc1 f hgf]; exact hfc (hc1 ▸ h))
    refine ⟨d :: ds, l', ?_, hc'.trans hc1, hp'.trans hp1, ?_, ?_⟩
    · rw [List.cons_append]
      exact readFiles_cons_ok env l l1 l' g _ d ds _ hget hrf
    · rcases hop1 with ho | ho
      · exact ⟨t, by rw [ht, ho], fun g' hg' => List.mem_cons_of_mem _ (hsub g' hg')⟩
      · refine ⟨g :: t, by rw [ht, ho]; simp, ?_⟩
        intro g' hg'
        rcases List.mem_cons.1 hg' with h | h
        · rw [h]; exact List.mem_cons_self _ _
        · exact List.mem_cons_of_mem _ (hsub g' h)
    · intro hc
      rw [hun' (hc1.trans hc), (hun1 hc).2]
      simp

theorem loadPath_resolve_err {Reg V : Type} (env : Env Reg V) (l : documentLoader Reg V)
    (path : String) (fs : List String) (e : String) (h : resolve env path = (fs, some e)) :
    l.loadPath env path = ((none, some e), l) := by
  simp only [documentLoader.loadPath, h]

theorem loadPath_resolve_empty {Reg V : Type} (env : Env Reg V) (l : documentLoader Reg V)
    (path : String) (h : resolve env path = ([], none)) :
    l.loadPath env path = ((none, some "no json files resolved"), l) := by
  simp only [documentLoader.loadPath, h]

theorem load_of_loadPath_err {Reg V : Type} (env : Env Reg V) (l l' : documentLoader Reg V)
    (path : String) (e : String) (hmiss : l.cache = true → l.getPathCache path = none)
    (h : l.loadPath env path = ((none, some e), l')) :
    l.load env path = ((none, some e), l') := by
  rcases Bool.eq_false_or_eq_true l.cache with hc | hc
  · exact load_miss_err env l l' path none e hc (hmiss hc) h
  · rw [load_uncached env l path hc, h]

/-- What `resolve` returns for a path specification that names nothing usable. -/
theorem resolve_unusable {Reg V : Type} (env : Env Reg V) (path : String)
    (h : Unusable env path) :
    resolve env path = ([], none) ∨ ∃ e, resolve env path = ([], some e) := by
  cases h with
  | missing e hstat hglob =>
    exact Or.inr ⟨"path not found", by simp [resolve, hstat, hglob]⟩
  | emptyDir info ents hstat hdir hread hnone =>
    refine Or.inl ?_
    have hf : ents.filter (fun e => !e.IsDir && isJSONFile e.Name) = [] := by
      rw [List.filter_eq_nil_iff]
      intro e he
      rcases hnone e he with h | h <;> simp [h]
    simp [resolve, hstat, hdir, hread, hf]
  | globNoMatch e found hstat hglob hfound hnone =>
    refine Or.inl ?_
    have hf : found.filter (keepMatch env) = [] := by
      rw [List.filter_eq_nil_iff]
      intro m hm
      simp [hnone m hm]
    simp [resolve, hstat, hglob, hfound, hf]
  | wrongExtension info hstat hfile hext =>
    exact Or.inr ⟨"not a json file", by simp [resolve, hstat, hfile, hext]⟩

/-! ## Further lemmas on `resolve` and `load` -/

theorem resolve_dir {Reg V : Type} (env : Env Reg V) (path : String) (info : FileInfo)
    (ents : List DirEntry) (hstat : env.Stat path = .ok info) (hdir : info.IsDir = true)
    (hread : env.ReadDir path = .ok ents) :
    resolve env path =
      ((ents.filter (fun e => !e.IsDir && isJSONFile e.Name)).map
        (fun e => env.Join path e.Name), none) := by
  simp [resolve, hstat, hdir, hread]

theorem resolve_missing {Reg V : Type} (env : Env Reg V) (path : String) (e : String)
    (hstat : env.Stat path = .error e) (hglob : ContainsAny path "*?[" = false) :
    resolve env path = ([], some "path not found") := by
  simp [resolve, hstat, hglob]

theorem resolve_glob {Reg V : Type} (env : Env Reg V) (path : String) (e : String)
    (found : List String) (hstat : env.Stat path = .error e)
    (hglob : ContainsAny path "*?[" = true) (hfound : env.Glob path = .ok found) :
    resolve env path = (found.filter (keepMatch env), none) := by
  simp [resolve, hstat, hglob, hfound]

theorem dirEntry_isDir_iff (e : DirEntry) : e.IsDir = true ↔ e.Mode = FileType.Dir := by
  simp [DirEntry.IsDir]

/-- Where `getFile` cannot hand out a document it opens the file, reports the decoding
error and caches nothing. -/
theorem getFile_fails {Reg V : Type} (env : Env Reg V) (l : documentLoader Reg V)
    (g : String) (h : ¬ l.Yields env g) :
    ∃ e, decodeFile env l.reg g = .error e ∧
      l.getFile env g = ((none, some e), { l with opened := l.opened ++ [g] }) := by
  cases hd : decodeFile env l.reg g with
  | ok d => exact absurd (Or.inr ⟨d, hd⟩) h
  | error e =>
    refine ⟨e, rfl, ?_⟩
    rcases Bool.eq_false_or_eq_true l.cache with hc | hc
    · cases hm : l.getFileCache g with
      | some es => exact absurd (Or.inl ⟨hc, by rw [hm]; exact Option.noConfusion⟩) h
      | none => exact getFile_miss_err env l g e hc hm hd
    · rw [getFile_uncached env l g hc, readFile_err env l g e hd]

/-- What every call of `getFile` leaves alone: the path cache, the mode and the registry;
an error comes with the `nil` document; the file cache only gains files that decode. -/
theorem getFile_frame {Reg V : Type} (env : Env Reg V) (l : documentLoader Reg V)
    (g : String) :
    (l.getFile env g).2.pathCache = l.pathCache ∧ (l.getFile env g).2.cache = l.cache ∧
      (l.getFile env g).2.reg = l.reg ∧
      ((l.getFile env g).1.2 ≠ none → (l.getFile env g).1.1 = none) ∧
      (∀ g', (l.getFile env g).2.getFileCache g' ≠ none →
        l.getFileCache g' ≠ none ∨ ∃ d, decodeFile env l.reg g' = .ok d) := by
  by_cases hy : l.Yields env g
  · obtain ⟨d, l1, hget, _, _, _, hr1, hc1, hp1, _, _, hfc⟩ := getFile_yields env l g hy
    rw [hget]
    refine ⟨hp1, hc1, hr1, fun h => absurd rfl h, ?_⟩
    intro g' hg'
    by_cases hgg : g' = g
    · rcases hy with ⟨_, h⟩ | h
      · exact Or.inl (hgg ▸ h)
      · exact Or.inr (hgg ▸ h)
    · rw [show (((d, (none : GoError)), l1) : (Document V × GoError) × documentLoader Reg V).2
        = l1 from rfl, hfc g' hgg] at hg'
      exact Or.inl hg'
  · obtain ⟨e, _, hget⟩ := getFile_fails env l g hy
    rw [hget]
    exact ⟨rfl, rfl, rfl, fun _ => rfl, fun g' hg' => Or.inl hg'⟩

theorem readFiles_cons_err {Reg V : Type} (env : Env Reg V) (l l1 : documentLoader Reg V)
    (g : String) (fs : List String) (d : Document V) (e : String)
    (h : l.getFile env g = ((d, some e), l1)) :
    l.readFiles env (g :: fs) = ([], some e, l1) := by
  simp only [documentLoader.readFiles, h]

/-- What the iterator of `loadPath` leaves alone. -/
theorem readFiles_frame {Reg V : Type} (env : Env Reg V) :
    ∀ (fs : List String) (l : documentLoader Reg V),
      (l.readFiles env fs).2.2.pathCache = l.pathCache ∧
        (l.readFiles env fs).2.2.cache = l.cache ∧ (l.readFiles env fs).2.2.reg = l.reg ∧
        (∀ g', (l.readFiles env fs).2.2.getFileCache g' ≠ none →
          l.getFileCache g' ≠ none ∨ ∃ d, decodeFile env l.reg g' = .ok d) := by
  intro fs
  induction fs with
  | nil => intro l; exact ⟨rfl, rfl, rfl, fun _ h => Or.inl h⟩
  | cons g gs ih =>
    intro l
    obtain ⟨hp, hc, hr, _, hf⟩ := getFile_frame env l g
    rcases hres : l.getFile env g with ⟨⟨d, err⟩, l1⟩
    rw [hres] at hp hc hr hf
    cases err with
    | some e =>
      rw [readFiles_cons_err env l l1 g gs d e hres]
      exact ⟨hp, hc, hr, hf⟩
    | none =>
      obtain ⟨hp2, hc2, hr2, hf2⟩ := ih l1
      rcases hrec : l1.readFiles env gs with ⟨ds, readErr, l2⟩
      rw [hrec] at hp2 hc2 hr2 hf2
      rw [readFiles_cons_ok env l l1 l2 g gs d ds readErr hres hrec]
      refine ⟨hp2.trans hp, hc2.trans hc, hr2.trans hr, ?_⟩
      intro g' hg'
      rcases hf2 g' hg' with h | ⟨d', hd'⟩
      · exact hf g' h
      · exact Or.inr ⟨d', by
          rw [show l1.reg = l.reg from hr] at hd'
          exact hd'⟩

/-- What `loadPath` leaves alone; an error comes with the `nil` document. -/
theorem loadPath_frame {Reg V : Type} (env : Env Reg V) (l : documentLoader Reg V)
    (path : String) :
    (l.loadPath env path).2.pathCache = l.pathCache ∧
      (l.loadPath env path).2.cache = l.cache ∧ (l.loadPath env path).2.reg = l.reg ∧
      ((l.loadPath env path).1.2 ≠ none → (l.loadPath env path).1.1 = none) ∧
      (∀ g', (l.loadPath env path).2.getFileCache g' ≠ none →
        l.getFileCache g' ≠ none ∨ ∃ d, decodeFile env l.reg g' = .ok d) := by
  rcases hres : resolve env path with ⟨files, rerr⟩
  cases rerr with
  | some e =>
    rw [loadPath_resolve_err env l path files e hres]
    exact ⟨rfl, rfl, rfl, fun _ => rfl, fun _ h => Or.inl h⟩
  | none =>
    match files, hres with
    | [], hres =>
      rw [loadPath_resolve_empty env l path hres]
      exact ⟨rfl, rfl, rfl, fun _ => rfl, fun _ h => Or.inl h⟩
    | [f], hres =>
      have : l.loadPath env path = l.getFile env f := by
        simp only [documentLoader.loadPath, hres]
      rw [this]
      exact getFile_frame env l f
    | a :: b :: rest, hres =>
      rw [loadPath_multi env l path (a :: b :: rest) hres (by simp)]
      obtain ⟨hp, hc, hr, hf⟩ := readFiles_frame env (sortStrings (a :: b :: rest)) l
      rcases hrf : l.readFiles env (sortStrings (a :: b :: rest)) with ⟨docs, readErr, l'⟩
      rw [hrf] at hp hc hr hf
      cases readErr with
      | some e => exact ⟨hp, hc, hr, fun _ => rfl, hf⟩
      | none => exact ⟨hp, hc, hr, fun h => absurd rfl h, hf⟩

/-- A caching loader whose path cache does not serve the specification returns the error of
`loadPath`; on success it returns a copy of the document and stores the document. -/
theorem load_miss {Reg V : Type} (env : Env Reg V) (l : documentLoader Reg V)
    (path : String) (hc : l.cache = true) (hm : l.getPathCache path = none) :
    (l.load env path).1.2 = (l.loadPath env path).1.2 ∧
      ((l.loadPath env path).1.2 = none →
        l.load env path = ((copyDoc (l.loadPath env path).1.1, none),
          (l.loadPath env path).2.setPathCache path (l.loadPath env path).1.1)) ∧
      ((l.loadPath env path).1.2 ≠ none →
        (l.load env path).1.1 = none ∧ (l.load env path).2 = (l.loadPath env path).2) := by
  rcases hlp : l.loadPath env path with ⟨⟨doc, err⟩, l'⟩
  cases err with
  | none =>
    rw [load_miss_ok env l l' path doc hc hm hlp]
    exact ⟨rfl, fun _ => rfl, fun h => absurd rfl h⟩
  | some e =>
    rw [load_miss_err env l l' path doc e hc hm hlp]
    exact ⟨rfl, fun h => Option.noConfusion h, fun _ => ⟨rfl, rfl⟩⟩

/-- When `getFile` can hand out a document for each of the files a specification resolves
to, and there is at least one, `loadPath` succeeds. -/
theorem loadPath_yields {Reg V : Type} (env : Env Reg V) (l : documentLoader Reg V)
    (path : String) (files : List String) (hres : resolve env path = (files, none))
    (hne : files ≠ []) (hy : ∀ g ∈ files, l.Yields env g) :
    (l.loadPath env path).1.2 = none := by
  match files, hres, hne, hy with
  | [f], hres, _, hy =>
    have : l.loadPath env path = l.getFile env f := by
      simp only [documentLoader.loadPath, hres]
    obtain ⟨d, l1, hget, _⟩ := getFile_yields env l f (hy f (List.mem_singleton.2 rfl))
    rw [this, hget]
  | a :: b :: rest, hres, _, hy =>
    obtain ⟨docs, l', hrf, _⟩ := readFiles_yields env (sortStrings (a :: b :: rest)) l
      (fun g hg => hy g ((sortStrings_perm _).mem_iff.1 hg))
    rw [loadPath_multi env l path (a :: b :: rest) hres (by simp), hrf]

/-! ## Lemmas on `toBSONCollections`, `Seed` and `Snapshot` -/

theorem convertElements_of_documents (fmt : Fmt) (key : String) :
    ∀ (els : List GoVal) (i : Nat), (∀ el ∈ els, el.IsDocument) →
      ∃ ds, convertElements fmt key i els = .ok ds := by
  intro els
  induction els with
  | nil => intro i _; exact ⟨[], rfl⟩
  | cons el rest ih =>
    intro i h
    obtain ⟨doc, rfl⟩ := h el (List.mem_cons_self _ _)
    obtain ⟨ds, hds⟩ := ih (i + 1) (fun x hx => h x (List.mem_cons_of_mem _ hx))
    exact ⟨.bdoc (toBSONDocument doc) :: ds, by simp only [convertElements, hds]⟩

theorem convertElements_cons_document (fmt : Fmt) (key : String) (i : Nat)
    (doc : Option (List (Entry GoVal))) (rest : List GoVal) :
    convertElements fmt key i (.jdoc doc :: rest) =
      match convertElements fmt key (i + 1) rest with
      | .ok bsonDocs => .ok (.bdoc (toBSONDocument doc) :: bsonDocs)
      | .error err => .error err := rfl

theorem convertElements_not_document (fmt : Fmt) (key : String) (i : Nat) (el : GoVal)
    (rest : List GoVal) (h : ¬ el.IsDocument) :
    convertElements fmt key i (el :: rest) = .error (notDocumentError fmt key i el) := by
  cases el with
  | jdoc doc => exact absurd ⟨doc, rfl⟩ h
  | jarr _ => rfl
  | bdoc _ => rfl
  | barr _ => rfl
  | unwrappable _ _ => rfl
  | leaf _ _ => rfl
  | null => rfl

/-- The inner loop fails at the first element that is no document, naming its index. -/
theorem convertElements_first_bad (fmt : Fmt) (key : String) (el : GoVal)
    (epost : List GoVal) (hbad : ¬ el.IsDocument) :
    ∀ (epre : List GoVal) (i : Nat), (∀ x ∈ epre, x.IsDocument) →
      convertElements fmt key i (epre ++ el :: epost) =
        .error (notDocumentError fmt key (i + epre.length) el) := by
  intro epre
  induction epre with
  | nil => intro i _; exact convertElements_not_document fmt key i el epost hbad
  | cons x xs ih =>
    intro i h
    obtain ⟨doc, rfl⟩ := h x (List.mem_cons_self _ _)
    have := ih (i + 1) (fun y hy => h y (List.mem_cons_of_mem _ hy))
    have hidx : i + 1 + xs.length = i + (xs.length + 1) := by omega
    rw [List.cons_append, convertElements_cons_document, this, List.length_cons, hidx]

theorem convertElements_ok_documents (fmt : Fmt) (key : String) :
    ∀ (els : List GoVal) (i : Nat) (ds : List GoVal),
      convertElements fmt key i els = .ok ds → ∀ el ∈ els, el.IsDocument := by
  intro els
  induction els with
  | nil => intro _ _ _ el hel; exact absurd hel (List.not_mem_nil _)
  | cons x rest ih =>
    intro i ds h el hel
    by_cases hx : x.IsDocument
    · rcases List.mem_cons.1 hel with rfl | hmem
      · exact hx
      · obtain ⟨doc, rfl⟩ := hx
        cases hrest : convertElements fmt key (i + 1) rest with
        | ok ds' => exact ih (i + 1) ds' hrest el hmem
        | error e =>
          simp only [convertElements, hrest] at h
          exact Except.noConfusion h
    · rw [convertElements_not_document fmt key i x rest hx] at h
      exact Except.noConfusion h

theorem convertFields_not_array (fmt : Fmt) (top : Entry GoVal) (rest : List (Entry GoVal))
    (cols : Collections) (h : ∀ arr, top.Value ≠ .jarr arr) :
    convertFields fmt (top :: rest) cols =
      (none, some (notArrayError fmt top.Key top.Value)) := by
  obtain ⟨k, v⟩ := top
  cases v with
  | jarr arr => exact absurd rfl (h arr)
  | jdoc _ => rfl
  | bdoc _ => rfl
  | barr _ => rfl
  | unwrappable _ _ => rfl
  | leaf _ _ => rfl
  | null => rfl

theorem convertFields_array (fmt : Fmt) (top : Entry GoVal) (rest : List (Entry GoVal))
    (cols : Collections) (arr : Option (List GoVal)) (h : top.Value = .jarr arr) :
    convertFields fmt (top :: rest) cols =
      match convertElements fmt top.Key 0 (elems arr) with
      | .error err => (none, some err)
      | .ok bsonDocs => convertFields fmt rest (mapSet cols top.Key (some bsonDocs)) := by
  obtain ⟨k, v⟩ := top
  simp only at h
  subst h
  rfl

/-- The outer loop passes over well-shaped entries, only adding to the map. -/
theorem convertFields_shaped (fmt : Fmt) (rest : List (Entry GoVal)) :
    ∀ (pre : List (Entry GoVal)) (cols : Collections), (∀ e ∈ pre, ShapedEntry e) →
      ∃ cols', convertFields fmt (pre ++ rest) cols = convertFields fmt rest cols' := by
  intro pre
  induction pre with
  | nil => intro cols _; exact ⟨cols, rfl⟩
  | cons top tl ih =>
    intro cols h
    obtain ⟨arr, harr, hdocs⟩ := h top (List.mem_cons_self _ _)
    obtain ⟨ds, hds⟩ := convertElements_of_documents fmt top.Key (elems arr) 0 hdocs
    obtain ⟨cols', hc⟩ := ih (mapSet cols top.Key (some ds))
      (fun e he => h e (List.mem_cons_of_mem _ he))
    refine ⟨cols', ?_⟩
    rw [List.cons_append, convertFields_array fmt top _ cols arr harr, hds]
    exact hc

/-- A nil map comes with an error and a map with none. -/
theorem convertFields_result (fmt : Fmt) :
    ∀ (fields : List (Entry GoVal)) (cols : Collections),
      ((convertFields fmt fields cols).2 = none ↔ ∀ e ∈ fields, ShapedEntry e) ∧
        ((convertFields fmt fields cols).2 ≠ none → (convertFields fmt fields cols).1 = none) ∧
        ((convertFields fmt fields cols).2 = none →
          (convertFields fmt fields cols).1 ≠ none) := by
  intro fields
  induction fields with
  | nil =>
    intro cols
    exact ⟨⟨fun _ e he => absurd he (List.not_mem_nil _), fun _ => rfl⟩,
      fun h => absurd rfl h, fun _ => Option.noConfusion⟩
  | cons top rest ih =>
    intro cols
    by_cases hs : ShapedEntry top
    · obtain ⟨arr, harr, hdocs⟩ := hs
      obtain ⟨ds, hds⟩ := convertElements_of_documents fmt top.Key (elems arr) 0 hdocs
      have heq : convertFields fmt (top :: rest) cols =
          convertFields fmt rest (mapSet cols top.Key (some ds)) := by
        rw [convertFields_array fmt top rest cols arr harr, hds]
      rw [heq]
      obtain ⟨h1, h2, h3⟩ := ih (mapSet cols top.Key (some ds))
      refine ⟨⟨fun h e he => ?_, fun h => h1.2 (fun e he => h e (List.mem_cons_of_mem _ he))⟩,
        h2, h3⟩
      rcases List.mem_cons.1 he with rfl | hmem
      · exact ⟨arr, harr, hdocs⟩
      · exact h1.1 h e hmem
    · have herr : ∃ err, convertFields fmt (top :: rest) cols = (none, some err) := by
        by_cases ha : ∃ arr, top.Value = .jarr arr
        · obtain ⟨arr, harr⟩ := ha
          rw [convertFields_array fmt top rest cols arr harr]
          cases hce : convertElements fmt top.Key 0 (elems arr) with
          | error err => exact ⟨err, rfl⟩
          | ok ds =>
            exact absurd ⟨arr, harr, convertElements_ok_documents fmt top.Key _ 0 ds hce⟩ hs
        · exact ⟨_, convertFields_not_array fmt top rest cols
            (fun arr h => ha ⟨arr, h⟩)⟩
      obtain ⟨err, herr⟩ := herr
      rw [herr]
      refine ⟨⟨fun h => Option.noConfusion h, fun h => absurd (h top (List.mem_cons_self _ _)) hs⟩,
        fun _ => rfl, fun h => Option.noConfusion h⟩

theorem seed_convert_error (db : MongoDB) (fmt : Fmt) (visit : Collections → Collections)
    (root : Document GoVal) (cols : Option Collections) (err : String)
    (h : toBSONCollections fmt root = (cols, some err)) :
    Driver.Seed db fmt visit root = ((none, some ("convert jwalk to bson: " ++ err)), []) := by
  simp only [Driver.Seed, h]

theorem seed_ok_converted (db : MongoDB) (fmt : Fmt) (visit : Collections → Collections)
    (root : Document GoVal) (h : (Driver.Seed db fmt visit root).1.2 = none) :
    (toBSONCollections fmt root).2 = none := by
  rcases hc : toBSONCollections fmt root with ⟨cols, err⟩
  cases err with
  | none => rfl
  | some e =>
    rw [seed_convert_error db fmt visit root cols e hc] at h
    exact Option.noConfusion h

theorem toArrayElems_eq_map (vs : List GoVal) : toArrayElems vs = vs.map toValue := by
  induction vs with
  | nil => rfl
  | cons v rest ih => rw [toArrayElems, ih, List.map_cons]

theorem toArray_eq_map (docs : Option (List GoVal)) :
    toArray docs = some ((elems docs).map toValue) := by
  cases docs with
  | none => rfl
  | some vs => rw [toArray, toArrayElems_eq_map]; rfl

theorem snapshotLoop_cons_ok (db : MongoDB) (fmt : Fmt) (c : String) (rest : List String)
    (actual : List (Entry GoVal)) (cur : Cursor) (docs : Option (List GoVal))
    (hf : db.Find c = .ok cur) (ha : cur.All = .ok docs) :
    snapshotLoop db fmt (c :: rest) actual =
      snapshotLoop db fmt rest (actual ++ [{ Key := c, Value := .jarr (toArray docs) }]) := by
  simp only [snapshotLoop, hf, ha]

/-- The loop of `Snapshot` over readable collections appends one entry per name, in the
order of the names, holding the converted records. -/
theorem snapshotLoop_readable (db : MongoDB) (fmt : Fmt) :
    ∀ (names : List String) (actual : List (Entry GoVal)), (∀ c ∈ names, Readable db c) →
      ∃ es, snapshotLoop db fmt names actual = .ok (actual ++ es) ∧
        es.map Entry.Key = names ∧
        ∀ x ∈ es, ∃ cur docs, db.Find x.Key = .ok cur ∧ cur.All = .ok docs ∧
          x.Value = .jarr (some ((elems docs).map toValue)) := by
  intro names
  induction names with
  | nil => intro actual _; exact ⟨[], by simp [snapshotLoop], rfl, fun _ h => absurd h (List.not_mem_nil _)⟩
  | cons c rest ih =>
    intro actual h
    obtain ⟨cur, docs, hf, ha⟩ := h c (List.mem_cons_self _ _)
    obtain ⟨es, hes, hkeys, hvals⟩ :=
      ih (actual ++ [{ Key := c, Value := .jarr (toArray docs) }])
        (fun x hx => h x (List.mem_cons_of_mem _ hx))
    refine ⟨{ Key := c, Value := .jarr (toArray docs) } :: es, ?_, ?_, ?_⟩
    · rw [snapshotLoop_cons_ok db fmt c rest actual cur docs hf ha, hes]
      simp
    · simp [hkeys]
    · intro x hx
      rcases List.mem_cons.1 hx with rfl | hmem
      · exact ⟨cur, docs, hf, ha, by rw [toArray_eq_map]⟩
      · exact hvals x hmem

/-- The loop of `Snapshot` stops at the first collection that cannot be read. -/
theorem snapshotLoop_fail (db : MongoDB) (fmt : Fmt) (c : String) (post : List String) :
    ∀ (pre : List String) (actual : List (Entry GoVal)), (∀ p ∈ pre, Readable db p) →
      (∀ e, db.Find c = .error e →
        snapshotLoop db fmt (pre ++ c :: post) actual =
          .error ("find in collection " ++ fmt.q c ++ ": " ++ e)) ∧
      (∀ cur e, db.Find c = .ok cur → cur.All = .error e →
        snapshotLoop db fmt (pre ++ c :: post) actual =
          .error ("decode documents in collection " ++ fmt.q c ++ ": " ++ e)) := by
  intro pre
  induction pre with
  | nil =>
    intro actual _
    refine ⟨fun e hf => ?_, fun cur e hf ha => ?_⟩
    · simp only [List.nil_append, snapshotLoop, hf]
    · simp only [List.nil_append, snapshotLoop, hf, ha]
  | cons p rest ih =>
    intro actual h
    obtain ⟨cur, docs, hf, ha⟩ := h p (List.mem_cons_self _ _)
    obtain ⟨h1, h2⟩ := ih (actual ++ [{ Key := p, Value := .jarr (toArray docs) }])
      (fun x hx => h x (List.mem_cons_of_mem _ hx))
    refine ⟨fun e hfe => ?_, fun cur' e hfc hae => ?_⟩
    · rw [List.cons_append, snapshotLoop_cons_ok db fmt p _ actual cur docs hf ha]
      exact h1 e hfe
    · rw [List.cons_append, snapshotLoop_cons_ok db fmt p _ actual cur docs hf ha]
      exact h2 cur' e hfc hae

theorem sortByKey_perm {V : Type} (es : List (Entry V)) : (sortByKey es).Perm es :=
  List.perm_insertionSort _ es

theorem sortByKey_sorted {V : Type} (es : List (Entry V)) :
    ((sortByKey es).map Entry.Key).Pairwise (fun a b => a.data ≤ b.data) := by
  haveI : IsTotal (Entry V) (fun a b => a.Key.data ≤ b.Key.data) :=
    ⟨fun a b => le_total a.Key.data b.Key.data⟩
  haveI : IsTrans (Entry V) (fun a b => a.Key.data ≤ b.Key.data) :=
    ⟨fun _ _ _ h1 h2 => le_trans h1 h2⟩
  have h : (sortByKey es).Pairwise (fun a b => a.Key.data ≤ b.Key.data) :=
    List.sorted_insertionSort _ es
  exact List.pairwise_map.2 h

/-- Sorting entries with distinct keys puts the keys in strictly ascending order. -/
theorem sortByKey_strict {V : Type} (es : List (Entry V)) (hnodup : (es.map Entry.Key).Nodup) :
    ((sortByKey es).map Entry.Key).Pairwise (fun a b => a.data < b.data) := by
  have hn : ((sortByKey es).map Entry.Key).Nodup :=
    ((sortByKey_perm es).map Entry.Key).nodup_iff.2 hnodup
  refine ((sortByKey_sorted es).and hn).imp ?_
  intro a b hab
  exact lt_of_le_of_ne hab.1 (fun h => hab.2 (String.ext h))

/-! ## Lemmas on the loader by reference -/

theorem read_ext {V : Type} (h t : Heap V) (s : SliceRef) (hs : s.arr < h.length) :
    Heap.read (h ++ t) (some s) = Heap.read h (some s) := by
  simp only [Heap.read, List.getD_append h t [] s.arr hs]

theorem read_new {V : Type} (h : Heap V) (es : List (Entry V)) :
    Heap.read (h ++ [es]) (some { arr := h.length, len := es.length }) = some es := by
  simp [Heap.read, List.getD_eq_getElem?_getD]

theorem Ext.refl {Reg V : Type} (l : refLoader Reg V) : l.Ext l :=
  ⟨⟨[], by simp⟩, fun _ h => Or.inl h⟩

theorem Ext.trans {Reg V : Type} {l l1 l2 : refLoader Reg V} (h1 : l.Ext l1)
    (h2 : l1.Ext l2) : l.Ext l2 := by
  obtain ⟨⟨t1, ht1⟩, hc1⟩ := h1
  obtain ⟨⟨t2, ht2⟩, hc2⟩ := h2
  refine ⟨⟨t1 ++ t2, by rw [ht2, ht1, List.append_assoc]⟩, ?_⟩
  intro s hs
  rcases hc2 s hs with h | h
  · exact hc1 s h
  · refine Or.inr (Nat.le_trans ?_ h)
    rw [ht1, List.length_append]
    exact Nat.le_add_right _ _

theorem Ext.length_le {Reg V : Type} {l l' : refLoader Reg V} (h : l.Ext l') :
    l.heap.length ≤ l'.heap.length := by
  obtain ⟨⟨t, ht⟩, _⟩ := h
  rw [ht, List.length_append]
  exact Nat.le_add_right _ _

theorem Ext.read {Reg V : Type} {l l' : refLoader Reg V} (h : l.Ext l') (s : SliceRef)
    (hs : s.arr < l.heap.length) : l'.heap.read (some s) = l.heap.read (some s) := by
  obtain ⟨⟨t, ht⟩, _⟩ := h
  rw [ht]
  exact read_ext l.heap t s hs

/-- Two loaders with the same caches show the same view when every cached slice reads the
same in both heaps. -/
theorem view_congr {Reg V : Type} (l l' : refLoader Reg V)
    (hr : l'.reg = l.reg) (hc : l'.cache = l.cache) (hf : l'.fileCache = l.fileCache)
    (hp : l'.pathCache = l.pathCache) (ho : l'.opened = l.opened)
    (hh : ∀ s, l.Cached s → l'.heap.read (some s) = l.heap.read (some s)) :
    l'.view = l.view := by
  unfold refLoader.view
  rw [hr, hc, hf, hp, ho]
  congr 1
  · funext k
    cases hk : l.fileCache k with
    | none => rfl
    | some d =>
      cases d with
      | none => rfl
      | some s =>
        simp only [Option.map_some']
        rw [hh s ⟨k, Or.inr hk⟩]
  · funext k
    cases hk : l.pathCache k with
    | none => rfl
    | some d =>
      cases d with
      | none => rfl
      | some s =>
        simp only [Option.map_some']
        rw [hh s ⟨k, Or.inl hk⟩]

/-- Two loaders with the same caches, the second over a longer heap, show the same view. -/
theorem view_eq_of_heap {Reg V : Type} (l l' : refLoader Reg V) (hwf : l.WF)
    (hr : l'.reg = l.reg) (hc : l'.cache = l.cache) (hf : l'.fileCache = l.fileCache)
    (hp : l'.pathCache = l.pathCache) (ho : l'.opened = l.opened)
    (hh : ∃ t, l'.heap = l.heap ++ t) : l'.view = l.view := by
  obtain ⟨t, ht⟩ := hh
  refine view_congr l l' hr hc hf hp ho ?_
  intro s hs
  rw [ht]
  exact read_ext l.heap t s (hwf s hs)

/-- Allocation: the new slice shows the entries, is fresh, and nothing else changes. -/
theorem alloc_sim {Reg V : Type} (l : refLoader Reg V) (es : List (Entry V)) (hwf : l.WF) :
    (l.alloc es).2.heap.read (l.alloc es).1 = some es ∧ (l.alloc es).2.view = l.view ∧
      (l.alloc es).2.WF ∧ l.Ext (l.alloc es).2 ∧ l.Fresh (l.alloc es).2 (l.alloc es).1 := by
  refine ⟨read_new l.heap es, ?_, ?_, ?_, ?_⟩
  · exact view_eq_of_heap l _ hwf rfl rfl rfl rfl rfl ⟨[es], rfl⟩
  · intro s hs
    have := hwf s hs
    show s.arr < (l.heap ++ [es]).length
    rw [List.length_append]
    exact Nat.lt_of_lt_of_le this (Nat.le_add_right _ _)
  · exact ⟨⟨[es], rfl⟩, fun s hs => Or.inl hs⟩
  · intro s hs
    have hs' : s = { arr := l.heap.length, len := es.length } := (Option.some.inj hs).symm
    subst hs'
    refine ⟨Nat.le_refl _, ?_, ?_⟩
    · show l.heap.length < (l.heap ++ [es]).length
      simp
    · intro c hc
      exact Nat.ne_of_lt (hwf c hc)

theorem view_getFileCache {Reg V : Type} (l : refLoader Reg V) (f : String) :
    l.view.getFileCache f = l.heap.read (l.getFileCache f) := by
  show (Option.map l.heap.read (l.fileCache f)).join = l.heap.read (l.fileCache f).join
  cases l.fileCache f with
  | none => rfl
  | some d => cases d <;> rfl

theorem view_getPathCache {Reg V : Type} (l : refLoader Reg V) (p : String) :
    l.view.getPathCache p = l.heap.read (l.getPathCache p) := by
  show (Option.map l.heap.read (l.pathCache p)).join = l.heap.read (l.pathCache p).join
  cases l.pathCache p with
  | none => rfl
  | some d => cases d <;> rfl

/-! ## The loader by reference simulates `documentLoader` -/

/-- Handing out a copy of a document of the heap. -/
theorem sim_copy {Reg V : Type} (l l0 : refLoader Reg V) (doc : DocRef) (hwf : l0.WF)
    (hext : l.Ext l0) (hc : l0.cache = l.cache) (hr : l0.reg = l.reg) :
    l.Sim (((l0.copyDoc doc).1, none), (l0.copyDoc doc).2)
      ((copyDoc (l0.heap.read doc), none), l0.view) := by
  obtain ⟨hread, hview, hwf', hext', hfresh⟩ := alloc_sim l0 (l0.heap.read doc).entries hwf
  refine ⟨?_, hwf', Ext.trans hext hext', ?_, hc, hr⟩
  · show ((copyDoc (l0.heap.read doc), none), l0.view) =
      (((l0.alloc (l0.heap.read doc).entries).2.heap.read
        (l0.alloc (l0.heap.read doc).entries).1, none),
        (l0.alloc (l0.heap.read doc).entries).2.view)
    rw [hread, hview]
    rfl
  · intro s hs
    obtain ⟨h1, h2, h3⟩ := hfresh s hs
    exact ⟨Nat.le_trans (Ext.length_le hext) h1, h2, h3⟩

theorem view_setFileCache {Reg V : Type} (l : refLoader Reg V) (f : String) (doc : DocRef) :
    (l.setFileCache f doc).view = l.view.setFileCache f (l.heap.read doc) := by
  unfold refLoader.setFileCache documentLoader.setFileCache refLoader.view GoMap.set
  congr 1
  funext k
  by_cases h : k = f
  · simp [h]
  · simp [h]

theorem view_setPathCache {Reg V : Type} (l : refLoader Reg V) (p : String) (doc : DocRef) :
    (l.setPathCache p doc).view = l.view.setPathCache p (l.heap.read doc) := by
  unfold refLoader.setPathCache documentLoader.setPathCache refLoader.view GoMap.set
  congr 1
  funext k
  by_cases h : k = p
  · simp [h]
  · simp [h]

/-- A slice cached after `setFileCache` was cached before or is the one stored. -/
theorem cached_setFileCache {Reg V : Type} (l : refLoader Reg V) (f : String) (doc : DocRef)
    (s : SliceRef) (h : (l.setFileCache f doc).Cached s) : l.Cached s ∨ doc = some s := by
  obtain ⟨k, hk | hk⟩ := h
  · exact Or.inl ⟨k, Or.inl hk⟩
  · have hk' : (if k = f then some doc else l.fileCache k) = some (some s) := hk
    by_cases hkf : k = f
    · rw [if_pos hkf] at hk'
      exact Or.inr (Option.some.inj hk')
    · rw [if_neg hkf] at hk'
      exact Or.inl ⟨k, Or.inr hk'⟩

/-- A slice cached after `setPathCache` was cached before or is the one stored. -/
theorem cached_setPathCache {Reg V : Type} (l : refLoader Reg V) (p : String) (doc : DocRef)
    (s : SliceRef) (h : (l.setPathCache p doc).Cached s) : l.Cached s ∨ doc = some s := by
  obtain ⟨k, hk | hk⟩ := h
  · have hk' : (if k = p then some doc else l.pathCache k) = some (some s) := hk
    by_cases hkp : k = p
    · rw [if_pos hkp] at hk'
      exact Or.inr (Option.some.inj hk')
    · rw [if_neg hkp] at hk'
      exact Or.inl ⟨k, Or.inl hk'⟩
  · exact Or.inl ⟨k, Or.inr hk⟩

theorem fresh_none {Reg V : Type} (l l' : refLoader Reg V) : l.Fresh l' none :=
  fun _ hs => nomatch hs

theorem wf_opened {Reg V : Type} (l : refLoader Reg V) (o : List String) (hwf : l.WF) :
    refLoader.WF { l with opened := o } := fun s hs => hwf s hs

theorem readFile_sim {Reg V : Type} (env : Env Reg V) (l : refLoader Reg V) (f : String)
    (hwf : l.WF) : l.Sim (l.readFile env f) (l.view.readFile env f) := by
  have hreg : l.view.reg = l.reg := rfl
  cases hd : decodeFile env l.reg f with
  | error e =>
    have h1 : l.readFile env f = ((none, some e), { l with opened := l.opened ++ [f] }) := by
      simp only [refLoader.readFile, hd]
    have h2 : l.view.readFile env f =
        ((none, some e), { l.view with opened := l.view.opened ++ [f] }) :=
      readFile_err env l.view f e hd
    rw [h1, h2]
    exact ⟨rfl, wf_opened l _ hwf, ⟨⟨[], by simp⟩, fun _ h => Or.inl h⟩,
      fresh_none _ _, rfl, rfl⟩
  | ok d =>
    have h2 : l.view.readFile env f =
        ((d, none), { l.view with opened := l.view.opened ++ [f] }) :=
      readFile_ok env l.view f d hd
    cases d with
    | none =>
      have h1 : l.readFile env f = ((none, none), { l with opened := l.opened ++ [f] }) := by
        simp only [refLoader.readFile, hd]
      rw [h1, h2]
      exact ⟨rfl, wf_opened l _ hwf, ⟨⟨[], by simp⟩, fun _ h => Or.inl h⟩,
        fresh_none _ _, rfl, rfl⟩
    | some es =>
      have h1 : l.readFile env f =
          (((refLoader.alloc { l with opened := l.opened ++ [f] } es).1, none),
            (refLoader.alloc { l with opened := l.opened ++ [f] } es).2) := by
        simp only [refLoader.readFile, hd]
      obtain ⟨hread, hview, hwf', hext', hfresh⟩ :=
        alloc_sim { l with opened := l.opened ++ [f] } es (wf_opened l _ hwf)
      rw [h1, h2]
      refine ⟨?_, hwf', ?_, ?_, rfl, rfl⟩
      · show ((some es, none), _) = ((_, none), _)
        rw [hread, hview]
        rfl
      · exact ⟨hext'.1, fun s hs => hext'.2 s hs⟩
      · exact hfresh

/-- Caching a document just handed out by the loader keeps the caches well formed. -/
theorem sim_setFileCache {Reg V : Type} (l l0 : refLoader Reg V) (f : String) (doc : DocRef)
    (hwf : l0.WF) (hext : l.Ext l0) (hfresh : l.Fresh l0 doc) :
    (l0.setFileCache f doc).WF ∧ l.Ext (l0.setFileCache f doc) := by
  constructor
  · intro s hs
    rcases cached_setFileCache l0 f doc s hs with h | h
    · exact hwf s h
    · exact (hfresh s h).2.1
  · refine ⟨hext.1, ?_⟩
    intro s hs
    rcases cached_setFileCache l0 f doc s hs with h | h
    · exact hext.2 s h
    · exact Or.inr (hfresh s h).1

/-- Caching a document just handed out by the loader keeps the caches well formed. -/
theorem sim_setPathCache {Reg V : Type} (l l0 : refLoader Reg V) (p : String) (doc : DocRef)
    (hwf : l0.WF) (hext : l.Ext l0) (hfresh : l.Fresh l0 doc) :
    (l0.setPathCache p doc).WF ∧ l.Ext (l0.setPathCache p doc) := by
  constructor
  · intro s hs
    rcases cached_setPathCache l0 p doc s hs with h | h
    · exact hwf s h
    · exact (hfresh s h).2.1
  · refine ⟨hext.1, ?_⟩
    intro s hs
    rcases cached_setPathCache l0 p doc s hs with h | h
    · exact hext.2 s h
    · exact Or.inr (hfresh s h).1

theorem getFile_sim {Reg V : Type} (env : Env Reg V) (l : refLoader Reg V) (f : String)
    (hwf : l.WF) : l.Sim (l.getFile env f) (l.view.getFile env f) := by
  have hvc : l.view.cache = l.cache := rfl
  rcases Bool.eq_false_or_eq_true l.cache with hc | hc
  · have hgc := view_getFileCache l f
    cases hg : l.getFileCache f with
    | some s =>
      rw [hg] at hgc
      have h1 : l.getFile env f = (((l.copyDoc (some s)).1, none), (l.copyDoc (some s)).2) := by
        simp only [refLoader.getFile, hc, hg]
        rfl
      have h2 : l.view.getFile env f = ((copyDoc (l.heap.read (some s)), none), l.view) := by
        simp only [documentLoader.getFile, hvc, hc, hgc]
        rfl
      rw [h1, h2]
      exact sim_copy l l (some s) hwf (Ext.refl l) rfl rfl
    | none =>
      rw [hg] at hgc
      have hsim := readFile_sim env l f hwf
      rcases hrf : l.readFile env f with ⟨⟨doc, err⟩, l0⟩
      rw [hrf] at hsim
      obtain ⟨hv, hwf0, hext0, hfresh0, hc0, hr0⟩ := hsim
      cases err with
      | some e =>
        have h1 : l.getFile env f = ((none, some e), l0) := by
          simp only [refLoader.getFile, refLoader.getFileFlight, hc, hg, hrf]
          rfl
        have h2 : l.view.getFile env f = ((none, some e), l0.view) := by
          simp only [documentLoader.getFile, documentLoader.getFileFlight, hvc, hc, hgc, hv]
          rfl
        rw [h1, h2]
        exact ⟨rfl, hwf0, hext0, fresh_none _ _, hc0, hr0⟩
      | none =>
        have h1 : l.getFile env f =
            ((((l0.setFileCache f doc).copyDoc doc).1, none),
              ((l0.setFileCache f doc).copyDoc doc).2) := by
          simp only [refLoader.getFile, refLoader.getFileFlight, hc, hg, hrf]
          rfl
        have h2 : l.view.getFile env f =
            ((copyDoc (l0.heap.read doc), none),
              l0.view.setFileCache f (l0.heap.read doc)) := by
          simp only [documentLoader.getFile, documentLoader.getFileFlight, hvc, hc, hgc, hv]
          rfl
        obtain ⟨hwf1, hext1⟩ := sim_setFileCache l l0 f doc hwf0 hext0 hfresh0
        rw [h1, h2, ← view_setFileCache]
        exact sim_copy l (l0.setFileCache f doc) doc hwf1 hext1 hc0 hr0
  · have h1 : l.getFile env f = l.readFile env f := by
      simp [refLoader.getFile, hc]
    have h2 : l.view.getFile env f = l.view.readFile env f :=
      getFile_uncached env l.view f hc
    rw [h1, h2]
    exact readFile_sim env l f hwf

theorem refLoader_readFiles_cons_ok {Reg V : Type} (env : Env Reg V) (l l1 : refLoader Reg V)
    (g : String) (fs : List String) (d : DocRef) (h : l.getFile env g = ((d, none), l1)) :
    l.readFiles env (g :: fs) =
      (d :: (l1.readFiles env fs).1, (l1.readFiles env fs).2.1, (l1.readFiles env fs).2.2) := by
  simp only [refLoader.readFiles, h]

theorem refLoader_readFiles_cons_err {Reg V : Type} (env : Env Reg V) (l l1 : refLoader Reg V)
    (g : String) (fs : List String) (d : DocRef) (e : String)
    (h : l.getFile env g = ((d, some e), l1)) :
    l.readFiles env (g :: fs) = ([], some e, l1) := by
  simp only [refLoader.readFiles, h]

/-- The iterator of `loadPath` by reference matches the one of `documentLoader`; the slices
it yields all point into the heap. -/
theorem readFiles_sim {Reg V : Type} (env : Env Reg V) :
    ∀ (fs : List String) (l : refLoader Reg V), l.WF →
      l.view.readFiles env fs =
          ((l.readFiles env fs).1.map (l.readFiles env fs).2.2.heap.read,
            (l.readFiles env fs).2.1, (l.readFiles env fs).2.2.view) ∧
        (l.readFiles env fs).2.2.WF ∧ l.Ext (l.readFiles env fs).2.2 ∧
        (l.readFiles env fs).2.2.cache = l.cache ∧ (l.readFiles env fs).2.2.reg = l.reg ∧
        ∀ s, some s ∈ (l.readFiles env fs).1 → s.arr < (l.readFiles env fs).2.2.heap.length := by
  intro fs
  induction fs with
  | nil =>
    intro l hwf
    exact ⟨rfl, hwf, Ext.refl l, rfl, rfl, fun s hs => nomatch hs⟩
  | cons g fs ih =>
    intro l hwf
    have hsim := getFile_sim env l g hwf
    rcases hgf : l.getFile env g with ⟨⟨d, err⟩, l1⟩
    rw [hgf] at hsim
    obtain ⟨hv, hwf1, hext1, hfresh1, hc1, hr1⟩ := hsim
    cases err with
    | some e =>
      rw [refLoader_readFiles_cons_err env l l1 g fs d e hgf,
        readFiles_cons_err env l.view l1.view g fs (l1.heap.read d) e hv]
      exact ⟨rfl, hwf1, hext1, hc1, hr1, fun s hs => nomatch hs⟩
    | none =>
      obtain ⟨ihv, ihwf, ihext, ihc, ihr, ihval⟩ := ih l1 hwf1
      rw [refLoader_readFiles_cons_ok env l l1 g fs d hgf,
        readFiles_cons_ok env l.view l1.view _ g fs (l1.heap.read d) _ _ hv ihv]
      refine ⟨?_, ihwf, Ext.trans hext1 ihext, ihc.trans hc1, ihr.trans hr1, ?_⟩
      · simp only [List.map_cons]
        congr 2
        cases d with
        | none => rfl
        | some s => exact (Ext.read ihext s (hfresh1 s rfl).2.1).symm
      · intro s hs
        rcases List.mem_cons.1 hs with h | h
        · exact Nat.lt_of_lt_of_le (hfresh1 s h.symm).2.1 (Ext.length_le ihext)
        · exact ihval s h

/-- The function `mergeDocs` by reference: the merged document is fresh. -/
theorem mergeDocs_sim {Reg V : Type} (l : refLoader Reg V) (docs : List DocRef) (hwf : l.WF) :
    (l.mergeDocs docs).2.heap.read (l.mergeDocs docs).1 =
        Poutine.mergeDocs (docs.map l.heap.read) ∧
      (l.mergeDocs docs).2.view = l.view ∧ (l.mergeDocs docs).2.WF ∧
      l.Ext (l.mergeDocs docs).2 ∧ l.Fresh (l.mergeDocs docs).2 (l.mergeDocs docs).1 ∧
      (l.mergeDocs docs).2.cache = l.cache ∧ (l.mergeDocs docs).2.reg = l.reg := by
  cases hm : Poutine.mergeDocs (docs.map l.heap.read) with
  | none =>
    have h : l.mergeDocs docs = (none, l) := by
      simp only [refLoader.mergeDocs, hm]
    rw [h]
    exact ⟨rfl, rfl, hwf, Ext.refl l, fresh_none l l, rfl, rfl⟩
  | some es =>
    have h : l.mergeDocs docs = l.alloc es := by
      simp only [refLoader.mergeDocs, hm]
    rw [h]
    obtain ⟨hread, hview, hwf', hext', hfresh⟩ := alloc_sim l es hwf
    exact ⟨hread, hview, hwf', hext', hfresh, rfl, rfl⟩

theorem sim_fail {Reg V : Type} (l : refLoader Reg V) (e : String) (hwf : l.WF) :
    l.Sim ((none, some e), l) ((none, some e), l.view) :=
  ⟨rfl, hwf, Ext.refl l, fresh_none l l, rfl, rfl⟩

theorem loadPath_sim {Reg V : Type} (env : Env Reg V) (l : refLoader Reg V) (path : String)
    (hwf : l.WF) : l.Sim (l.loadPath env path) (l.view.loadPath env path) := by
  rcases hres : resolve env path with ⟨files, rerr⟩
  cases rerr with
  | some e =>
    have h1 : l.loadPath env path = ((none, some e), l) := by
      simp only [refLoader.loadPath, hres]
    have h2 : l.view.loadPath env path = ((none, some e), l.view) := by
      simp only [documentLoader.loadPath, hres]
    rw [h1, h2]
    exact sim_fail l e hwf
  | none =>
    match files, hres with
    | [], hres =>
      have h1 : l.loadPath env path = ((none, some "no json files resolved"), l) := by
        simp only [refLoader.loadPath, hres]
      have h2 : l.view.loadPath env path = ((none, some "no json files resolved"), l.view) := by
        simp only [documentLoader.loadPath, hres]
      rw [h1, h2]
      exact sim_fail l _ hwf
    | [f], hres =>
      have h1 : l.loadPath env path = l.getFile env f := by
        simp only [refLoader.loadPath, hres]
      have h2 : l.view.loadPath env path = l.view.getFile env f := by
        simp only [documentLoader.loadPath, hres]
      rw [h1, h2]
      exact getFile_sim env l f hwf
    | f :: g :: rest, hres =>
      obtain ⟨hv, hwf1, hext1, hc1, hr1, _⟩ :=
        readFiles_sim env (sortStrings (f :: g :: rest)) l hwf
      rcases hrf : l.readFiles env (sortStrings (f :: g :: rest)) with ⟨docs, readErr, l1⟩
      rw [hrf] at hv hwf1 hext1 hc1 hr1
      obtain ⟨hread, hview, hwf2, hext2, hfresh2, hc2, hr2⟩ := mergeDocs_sim l1 docs hwf1
      cases readErr with
      | some e =>
        have h1 : l.loadPath env path = ((none, some e), (l1.mergeDocs docs).2) := by
          simp only [refLoader.loadPath, hres, hrf]
        have h2 : l.view.loadPath env path = ((none, some e), l1.view) := by
          simp only [documentLoader.loadPath, hres, hv]
        rw [h1, h2]
        exact ⟨by rw [← hview]; rfl, hwf2, Ext.trans hext1 hext2, fresh_none _ _,
          hc2.trans hc1, hr2.trans hr1⟩
      | none =>
        have h1 : l.loadPath env path =
            (((l1.mergeDocs docs).1, none), (l1.mergeDocs docs).2) := by
          simp only [refLoader.loadPath, hres, hrf]
        have h2 : l.view.loadPath env path =
            ((Poutine.mergeDocs (docs.map l1.heap.read), none), l1.view) := by
          simp only [documentLoader.loadPath, hres, hv]
        rw [h1, h2]
        refine ⟨?_, hwf2, Ext.trans hext1 hext2, ?_, hc2.trans hc1, hr2.trans hr1⟩
        · show (_, _) = ((_, none), _)
          rw [hread, hview]
        · intro s hs
          obtain ⟨a, b, c⟩ := hfresh2 s hs
          exact ⟨Nat.le_trans (Ext.length_le hext1) a, b, c⟩

theorem load_sim {Reg V : Type} (env : Env Reg V) (l : refLoader Reg V) (path : String)
    (hwf : l.WF) : l.Sim (l.load env path) (l.view.load env path) := by
  have hvc : l.view.cache = l.cache := rfl
  rcases Bool.eq_false_or_eq_true l.cache with hc | hc
  · have hgc := view_getPathCache l path
    cases hg : l.getPathCache path with
    | some s =>
      rw [hg] at hgc
      have h1 : l.load env path = (((l.copyDoc (some s)).1, none), (l.copyDoc (some s)).2) := by
        simp only [refLoader.load, hc, hg]
        rfl
      have h2 : l.view.load env path = ((copyDoc (l.heap.read (some s)), none), l.view) := by
        simp only [documentLoader.load, hvc, hc, hgc]
        rfl
      rw [h1, h2]
      exact sim_copy l l (some s) hwf (Ext.refl l) rfl rfl
    | none =>
      rw [hg] at hgc
      have hsim := loadPath_sim env l path hwf
      rcases hlp : l.loadPath env path with ⟨⟨doc, err⟩, l0⟩
      rw [hlp] at hsim
      obtain ⟨hv, hwf0, hext0, hfresh0, hc0, hr0⟩ := hsim
      cases err with
      | some e =>
        have h1 : l.load env path = ((none, some e), l0) := by
          simp only [refLoader.load, refLoader.loadFlight, hc, hg, hlp]
          rfl
        have h2 : l.view.load env path = ((none, some e), l0.view) := by
          simp only [documentLoader.load, documentLoader.loadFlight, hvc, hc, hgc, hv]
          rfl
        rw [h1, h2]
        exact ⟨rfl, hwf0, hext0, fresh_none _ _, hc0, hr0⟩
      | none =>
        have h1 : l.load env path =
            ((((l0.setPathCache path doc).copyDoc doc).1, none),
              ((l0.setPathCache path doc).copyDoc doc).2) := by
          simp only [refLoader.load, refLoader.loadFlight, hc, hg, hlp]
          rfl
        have h2 : l.view.load env path =
            ((copyDoc (l0.heap.read doc), none),
              l0.view.setPathCache path (l0.heap.read doc)) := by
          simp only [documentLoader.load, documentLoader.loadFlight, hvc, hc, hgc, hv]
          rfl
        obtain ⟨hwf1, hext1⟩ := sim_setPathCache l l0 path doc hwf0 hext0 hfresh0
        rw [h1, h2, ← view_setPathCache]
        exact sim_copy l (l0.setPathCache path doc) doc hwf1 hext1 hc0 hr0
  · have h1 : l.load env path = l.loadPath env path := by
      simp [refLoader.load, hc]
    have h2 : l.view.load env path = l.view.loadPath env path := by
      simp [documentLoader.load, hvc, hc]
    rw [h1, h2]
    exact loadPath_sim env l path hwf

/-! ## Writes through a slice -/

theorem getD_set_ne {V : Type} (h : Heap V) (a b : Nat) (x : List (Entry V)) (hab : b ≠ a) :
    (h.set a x).getD b [] = h.getD b [] := by
  simp only [List.getD_eq_getElem?_getD]
  rw [List.getElem?_set_ne (Ne.symm hab)]

theorem getD_set_eq {V : Type} (h : Heap V) (a : Nat) (x : List (Entry V))
    (ha : a < h.length) : (h.set a x).getD a [] = x := by
  simp [List.getD_eq_getElem?_getD, List.getElem?_set, ha]

/-- Go `doc[i] = e` replaces entry `i` of the document and nothing else of it. -/
theorem store_read {V : Type} (h : Heap V) (s : SliceRef) (i : Nat) (e : Entry V)
    (hs : s.arr < h.length) (hi : i < s.len) :
    (h.store s i e).read (some s) = some ((h.read (some s)).entries.set i e) := by
  unfold Heap.store
  rw [if_pos hi]
  simp only [Heap.read, Document.entries, getD_set_eq h s.arr _ hs]
  rw [List.set_take]

/-- Go `append(doc, e)` returns the entries of the document followed by `e`. -/
theorem append_read {V : Type} (h : Heap V) (s : SliceRef) (e : Entry V)
    (hs : s.arr < h.length) (hl : s.len ≤ (h.getD s.arr []).length) :
    (h.append s e).2.read (some (h.append s e).1) =
      some ((h.read (some s)).entries ++ [e]) := by
  unfold Heap.append
  by_cases hlt : s.len < (h.getD s.arr []).length
  · rw [if_pos hlt]
    simp only [Heap.read, Document.entries, getD_set_eq h s.arr _ hs]
    rw [List.take_succ, List.set_take, List.getElem?_set]
    have hlt2 : s.len < (h[s.arr]?.getD []).length := by
      rw [← List.getD_eq_getElem?_getD]
      exact hlt
    simp [hlt2, List.set_eq_of_length_le]
  · rw [if_neg hlt]
    have hlen : s.len = (h.getD s.arr []).length := by omega
    simp [Heap.read, Document.entries, List.getD_eq_getElem?_getD, hlen]

/-- Go `append(doc, e)` leaves the first entries of the document as they are. -/
theorem append_read_self {V : Type} (h : Heap V) (s : SliceRef) (e : Entry V)
    (hs : s.arr < h.length) : (h.append s e).2.read (some s) = h.read (some s) := by
  unfold Heap.append
  by_cases hlt : s.len < (h.getD s.arr []).length
  · rw [if_pos hlt]
    simp only [Heap.read, getD_set_eq h s.arr _ hs]
    rw [List.set_take, List.set_eq_of_length_le]
    simp
  · rw [if_neg hlt]
    exact read_ext h _ s hs

theorem mutated_length {V : Type} (h h' : Heap V) (s : SliceRef) (hm : h.Mutated s h') :
    h.length ≤ h'.length := by
  rcases hm with ⟨i, e, rfl⟩ | ⟨e, rfl⟩
  · unfold Heap.store
    split
    · rw [List.length_set]
    · exact Nat.le_refl _
  · unfold Heap.append
    split
    · simp only [List.length_set]
      exact Nat.le_refl _
    · simp

/-- A write through a slice does not show through a slice over another array. -/
theorem mutated_read {V : Type} (h h' : Heap V) (s c : SliceRef) (hm : h.Mutated s h')
    (hne : c.arr ≠ s.arr) (hc : c.arr < h.length) : h'.read (some c) = h.read (some c) := by
  rcases hm with ⟨i, e, rfl⟩ | ⟨e, rfl⟩
  · unfold Heap.store
    split
    · simp only [Heap.read, getD_set_ne h s.arr c.arr _ hne]
    · rfl
  · unfold Heap.append
    split
    · simp only [Heap.read, getD_set_ne h s.arr c.arr _ hne]
    · exact read_ext h _ c hc

/-! ## Loading the same path again -/

theorem getFile_ok_yields {Reg V : Type} (env : Env Reg V) (l : documentLoader Reg V)
    (g : String) (h : (l.getFile env g).1.2 = none) : l.Yields env g := by
  by_contra hy
  obtain ⟨e, _, hget⟩ := getFile_fails env l g hy
  rw [hget] at h
  cases h

theorem yields_of_getFile {Reg V : Type} (env : Env Reg V) (l : documentLoader Reg V)
    (g g' : String) (h : (l.getFile env g).2.Yields env g') : l.Yields env g' := by
  obtain ⟨_, hc, hr, _, hfc⟩ := getFile_frame env l g
  rcases h with ⟨h1, h2⟩ | ⟨d, hd⟩
  · rcases hfc g' h2 with h3 | h3
    · exact Or.inl ⟨hc ▸ h1, h3⟩
    · exact Or.inr h3
  · exact Or.inr ⟨d, hr ▸ hd⟩

/-- Where the iterator of `loadPath` reports no error, every file yields. -/
theorem readFiles_ok_yields {Reg V : Type} (env : Env Reg V) :
    ∀ (fs : List String) (l : documentLoader Reg V),
      (l.readFiles env fs).2.1 = none → ∀ g ∈ fs, l.Yields env g := by
  intro fs
  induction fs with
  | nil => intro l _ g hg; cases hg
  | cons g fs ih =>
    intro l hok g' hg'
    rcases hgf : l.getFile env g with ⟨⟨d, err⟩, l1⟩
    cases err with
    | some e =>
      rw [readFiles_cons_err env l l1 g fs d e hgf] at hok
      cases hok
    | none =>
      rcases hrf : l1.readFiles env fs with ⟨ds, readErr, l2⟩
      rw [readFiles_cons_ok env l l1 l2 g fs d ds readErr hgf hrf] at hok
      have hok1 : (l1.readFiles env fs).2.1 = none := by rw [hrf]; exact hok
      rcases List.mem_cons.1 hg' with h | h
      · rw [h]
        exact getFile_ok_yields env l g (by rw [hgf])
      · have := ih l1 hok1 g' h
        exact yields_of_getFile env l g g' (by rw [hgf]; exact this)

/-- The iterator of `loadPath` leaves every file as the loader sees it. -/
theorem readFiles_preserves {Reg V : Type} (env : Env Reg V) :
    ∀ (fs : List String) (l : documentLoader Reg V), (∀ g ∈ fs, l.Yields env g) →
      ∀ g', ((l.readFiles env fs).2.2.fileDoc env g').entries = (l.fileDoc env g').entries ∧
        (l.Yields env g' → (l.readFiles env fs).2.2.Yields env g') := by
  intro fs
  induction fs with
  | nil => intro l _ g'; exact ⟨rfl, fun h => h⟩
  | cons g fs ih =>
    intro l hy g'
    obtain ⟨d, l1, hget, _, _, _, _, _, _, hfd, hyp, _⟩ :=
      getFile_yields env l g (hy g (List.mem_cons_self g fs))
    rcases hrf : l1.readFiles env fs with ⟨ds, readErr, l2⟩
    rw [readFiles_cons_ok env l l1 l2 g fs d ds readErr hget hrf]
    have h1 := ih l1 (fun x hx => hyp x (hy x (List.mem_cons_of_mem g hx))) g'
    rw [hrf] at h1
    exact ⟨h1.1.trans (hfd g'), fun h => h1.2 (hyp g' h)⟩

theorem fileDoc_congr {Reg V : Type} (env : Env Reg V) (l l' : documentLoader Reg V)
    (hc : l'.cache = l.cache) (hr : l'.reg = l.reg) (hf : l'.fileCache = l.fileCache)
    (g : String) :
    l'.fileDoc env g = l.fileDoc env g ∧ (l.Yields env g → l'.Yields env g) := by
  have hg : l'.getFileCache g = l.getFileCache g := by
    unfold documentLoader.getFileCache
    rw [hf]
  constructor
  · unfold documentLoader.fileDoc
    rw [hc, hr, hg]
  · intro h
    unfold documentLoader.Yields
    rw [hc, hr, hg]
    exact h

theorem getPathCache_setPathCache {Reg V : Type} (l : documentLoader Reg V) (p : String)
    (d : Document V) : (l.setPathCache p d).getPathCache p = d := by
  simp [documentLoader.setPathCache, documentLoader.getPathCache, GoMap.set]

/-- After a successful `loadPath`, a loader with the file cache it left resolves the path
to a document with the same entries. -/
theorem loadPath_again {Reg V : Type} (env : Env Reg V) (l l2 : documentLoader Reg V)
    (path : String) (hok : (l.loadPath env path).1.2 = none)
    (hc2 : l2.cache = (l.loadPath env path).2.cache)
    (hr2 : l2.reg = (l.loadPath env path).2.reg)
    (hf2 : l2.fileCache = (l.loadPath env path).2.fileCache) :
    (l2.loadPath env path).1.2 = none ∧
      (l2.loadPath env path).1.1.entries = (l.loadPath env path).1.1.entries := by
  rcases hres : resolve env path with ⟨files, rerr⟩
  cases rerr with
  | some e =>
    rw [loadPath_resolve_err env l path files e hres] at hok
    cases hok
  | none =>
    match files, hres with
    | [], hres =>
      rw [loadPath_resolve_empty env l path hres] at hok
      cases hok
    | [f], hres =>
      have h1 : l.loadPath env path = l.getFile env f := by
        simp only [documentLoader.loadPath, hres]
      have h2 : l2.loadPath env path = l2.getFile env f := by
        simp only [documentLoader.loadPath, hres]
      rw [h1] at hok hc2 hr2 hf2
      rw [h1, h2]
      have hy := getFile_ok_yields env l f hok
      obtain ⟨d, l1, hget, hd, _, _, _, _, _, hfd, hyp, _⟩ := getFile_yields env l f hy
      rw [hget] at hc2 hr2 hf2
      obtain ⟨hfd2, hy2⟩ := fileDoc_congr env l1 l2 hc2 hr2 hf2 f
      obtain ⟨d2, l3, hget2, hd2, _⟩ := getFile_yields env l2 f (hy2 (hyp f hy))
      rw [hget, hget2]
      exact ⟨rfl, by
        show d2.entries = d.entries
        rw [hd2, hfd2, hfd f, hd]⟩
    | f :: g :: rest, hres =>
      have hlen : 2 ≤ (f :: g :: rest).length := by simp
      have h1 := loadPath_multi env l path _ hres hlen
      have h2 := loadPath_multi env l2 path _ hres hlen
      rcases hrf : l.readFiles env (sortStrings (f :: g :: rest)) with ⟨docs, readErr, l1⟩
      rw [hrf] at h1
      cases readErr with
      | some e =>
        rw [h1] at hok
        cases hok
      | none =>
        have h1' : l.loadPath env path = ((mergeDocs docs, none), l1) := h1
        have hys := readFiles_ok_yields env (sortStrings (f :: g :: rest)) l (by rw [hrf])
        obtain ⟨docs', l1', hrf', hmap, _⟩ :=
          readFiles_yields env (sortStrings (f :: g :: rest)) l hys
        rw [hrf] at hrf'
        have hdocs : docs' = docs := (congrArg Prod.fst hrf').symm
        rw [hdocs] at hmap
        have hpres := readFiles_preserves env (sortStrings (f :: g :: rest)) l hys
        rw [hrf] at hpres
        rw [h1'] at hc2 hr2 hf2
        have hys2 : ∀ x ∈ sortStrings (f :: g :: rest), l2.Yields env x := fun x hx =>
          (fileDoc_congr env l1 l2 hc2 hr2 hf2 x).2 ((hpres x).2 (hys x hx))
        obtain ⟨docs2, l3, hrf2, hmap2, _⟩ :=
          readFiles_yields env (sortStrings (f :: g :: rest)) l2 hys2
        rw [hrf2] at h2
        have h2' : l2.loadPath env path = ((mergeDocs docs2, none), l3) := h2
        rw [h1', h2']
        refine ⟨rfl, ?_⟩
        show (mergeDocs docs2).entries = (mergeDocs docs).entries
        rw [mergeDocs_entries, mergeDocs_entries]
        congr 1
        apply allEntries_congr
        rw [hmap, hmap2]
        apply List.map_congr_left
        intro x hx
        rw [(fileDoc_congr env l1 l2 hc2 hr2 hf2 x).1, (hpres x).1]

/-- In a loader that caches, a successful load hands out a document that is not `nil`, and
loading the path again hands out a document with the same entries. -/
theorem load_again {Reg V : Type} (env : Env Reg V) (l : documentLoader Reg V)
    (path : String) (hc : l.cache = true) (hok : (l.load env path).1.2 = none) :
    ∃ es, (l.load env path).1.1 = some es ∧
      ((l.load env path).2.load env path).1 = (some es, none) := by
  cases hg : l.getPathCache path with
  | some es =>
    have h := load_hit env l path es hc hg
    refine ⟨es, by rw [h], ?_⟩
    rw [h]
    show (l.load env path).1 = _
    rw [h]
  | none =>
    rcases hlp : l.loadPath env path with ⟨⟨doc, err⟩, l1⟩
    cases err with
    | some e =>
      rw [load_miss_err env l l1 path doc e hc hg hlp] at hok
      cases hok
    | none =>
      have h := load_miss_ok env l l1 path doc hc hg hlp
      obtain ⟨_, hc1, hr1, _, _⟩ := loadPath_frame env l path
      rw [hlp] at hc1 hr1
      have hc1' : (l1.setPathCache path doc).cache = true := hc1.trans hc
      refine ⟨doc.entries, by rw [h]; rfl, ?_⟩
      rw [h]
      show ((l1.setPathCache path doc).load env path).1 = _
      cases doc with
      | some es =>
        rw [load_hit env _ path es hc1' (getPathCache_setPathCache l1 path (some es))]
        rfl
      | none =>
        obtain ⟨hok2, hent2⟩ := loadPath_again env l (l1.setPathCache path none) path
          (by rw [hlp]) (by rw [hlp]; rfl) (by rw [hlp]; rfl) (by rw [hlp]; rfl)
        rcases hlp2 : (l1.setPathCache path none).loadPath env path with ⟨⟨doc2, err2⟩, l3⟩
        rw [hlp2] at hok2 hent2
        rw [hlp] at hent2
        have herr : err2 = none := hok2
        subst herr
        rw [load_miss_ok env _ l3 path doc2 hc1' (getPathCache_setPathCache l1 path none) hlp2]
        show (copyDoc doc2, none) = (some (Document.entries none), none)
        have : doc2.entries = Document.entries (none : Document V) := hent2
        unfold copyDoc
        rw [this]

/-- What the loader by reference hands out where `documentLoader` hands out a document. -/
theorem load_of_view {Reg V : Type} (env : Env Reg V) (l : refLoader Reg V) (path : String)
    (es : List (Entry V)) (hwf : l.WF) (hv : (l.view.load env path).1 = (some es, none)) :
    ∃ r l', l.load env path = ((some r, none), l') ∧ l'.heap.read (some r) = some es ∧
      l'.WF ∧ l.Ext l' ∧ l.Fresh l' (some r) := by
  have hsim := load_sim env l path hwf
  rcases hl : l.load env path with ⟨⟨d, err⟩, l'⟩
  rw [hl] at hsim
  obtain ⟨hv', hwf', hext', hfresh', _, _⟩ := hsim
  rw [hv'] at hv
  have hd : l'.heap.read d = some es := congrArg Prod.fst hv
  have he : err = none := congrArg Prod.snd hv
  subst he
  cases d with
  | none => cases hd
  | some r => exact ⟨r, l', rfl, hd, hwf', hext', hfresh'⟩

theorem wf_newRefLoader {Reg V : Type} (reg : Reg) (cache : Bool) :
    (newRefLoader reg cache : refLoader Reg V).WF := by
  intro s hs
  obtain ⟨k, h | h⟩ := hs
  · cases h
  · cases h

/-- A write through a slice no cache holds leaves the caches as they were. -/
theorem wf_mutated {Reg V : Type} (l : refLoader Reg V) (r : SliceRef) (h' : Heap V)
    (hwf : l.WF) (hfresh : ∀ c, l.Cached c → c.arr ≠ r.arr) (hm : l.heap.Mutated r h') :
    refLoader.view { l with heap := h' } = l.view ∧ refLoader.WF { l with heap := h' } := by
  constructor
  · exact view_congr l _ rfl rfl rfl rfl rfl
      (fun c hc => mutated_read l.heap h' r c hm (hfresh c hc) (hwf c hc))
  · intro c hc
    have h1 : c.arr < l.heap.length := hwf c hc
    exact Nat.lt_of_lt_of_le h1 (mutated_length l.heap h' r hm)

/-! ## Converting `jwalk` trees to `bson` trees and back -/

theorem toBSONFields_eq_map (fs : List (Entry GoVal)) :
    toBSONFields fs = fs.map (fun f => { Key := f.Key, Value := toBSONValue f.Value }) := by
  induction fs with
  | nil => rfl
  | cons f fs ih =>
    rw [List.map_cons, ← ih]
    rfl

theorem toBSONElems_eq_map (vs : List GoVal) : toBSONElems vs = vs.map toBSONValue := by
  induction vs with
  | nil => rfl
  | cons v vs ih =>
    rw [List.map_cons, ← ih]
    rfl

theorem elems_toBSONDocument (doc : Option (List (Entry GoVal))) :
    elems (toBSONDocument doc) =
      (elems doc).map (fun f => { Key := f.Key, Value := toBSONValue f.Value }) := by
  cases doc with
  | none => rfl
  | some fs => exact toBSONFields_eq_map fs

theorem elems_toBSONArray (arr : Option (List GoVal)) :
    elems (toBSONArray arr) = (elems arr).map toBSONValue := by
  cases arr with
  | none => rfl
  | some vs => exact toBSONElems_eq_map vs

/-- One step down: the child of the converted container is the converted child. -/
theorem bchild_toBSONValue (v u : GoVal) (i : Nat) (h : jchild v i = some u) :
    bchild (toBSONValue v) i = some (toBSONValue u) := by
  cases v with
  | jdoc d =>
    have h1 : ((elems d)[i]?).map Entry.Value = some u := h
    show ((elems (toBSONDocument d))[i]?).map Entry.Value = some (toBSONValue u)
    rw [elems_toBSONDocument, List.getElem?_map]
    cases hg : (elems d)[i]? with
    | none => rw [hg] at h1; cases h1
    | some e =>
      rw [hg] at h1
      have : e.Value = u := Option.some.inj h1
      rw [← this]
      rfl
  | jarr a =>
    have h1 : (elems a)[i]? = some u := h
    show (elems (toBSONArray a))[i]? = some (toBSONValue u)
    rw [elems_toBSONArray, List.getElem?_map, h1]
    rfl
  | bdoc d => cases h
  | barr a => cases h
  | unwrappable ty inner => cases h
  | leaf ty r => cases h
  | null => cases h

/-- At every depth: the value at a path of the converted tree is the converted value at
that path. -/
theorem descend_toBSONValue :
    ∀ (path : List Nat) (v w : GoVal), descend jchild v path = some w →
      descend bchild (toBSONValue v) path = some (toBSONValue w) := by
  intro path
  induction path with
  | nil =>
    intro v w h
    have : v = w := Option.some.inj h
    rw [this]
    rfl
  | cons i path ih =>
    intro v w h
    cases hc : jchild v i with
    | none =>
      simp only [descend, hc] at h
      cases h
    | some u =>
      simp only [descend, hc] at h
      simp only [descend, bchild_toBSONValue v u i hc]
      exact ih u w h

mutual
/-- Converting a plain tree to `bson` and back fills its `nil` containers and changes
nothing else. -/
theorem roundtrip_value : ∀ v : GoVal, v.plain = true → toValue (toBSONValue v) = fillNil v
  | .jdoc d, h => by
    show GoVal.jdoc (toDocument (toBSONDocument d)) = GoVal.jdoc (fillNilDocument d)
    rw [roundtrip_document d h]
  | .jarr a, h => by
    show GoVal.jarr (toArray (toBSONArray a)) = GoVal.jarr (fillNilArray a)
    rw [roundtrip_array a h]
  | .leaf _ _, _ => rfl
  | .null, _ => rfl
  | .bdoc _, h => by cases h
  | .barr _, h => by cases h
  | .unwrappable _ _, h => by cases h
theorem roundtrip_document : ∀ d : Option (List (Entry GoVal)), plainDocument d = true →
    toDocument (toBSONDocument d) = fillNilDocument d
  | none, _ => rfl
  | some fs, h => by
    show some (toDocumentFields (toBSONFields fs)) = some (fillNilFields fs)
    rw [roundtrip_fields fs h]
theorem roundtrip_fields : ∀ fs : List (Entry GoVal), plainFields fs = true →
    toDocumentFields (toBSONFields fs) = fillNilFields fs
  | [], _ => rfl
  | f :: fs, h => by
    have h' : (f.Value.plain && plainFields fs) = true := h
    rw [Bool.and_eq_true] at h'
    show ({ Key := f.Key, Value := toValue (toBSONValue f.Value) } : Entry GoVal) ::
        toDocumentFields (toBSONFields fs) =
      { Key := f.Key, Value := fillNil f.Value } :: fillNilFields fs
    rw [roundtrip_value f.Value h'.1, roundtrip_fields fs h'.2]
theorem roundtrip_array : ∀ a : Option (List GoVal), plainArray a = true →
    toArray (toBSONArray a) = fillNilArray a
  | none, _ => rfl
  | some vs, h => by
    show some (toArrayElems (toBSONElems vs)) = some (fillNilElems vs)
    rw [roundtrip_elems vs h]
theorem roundtrip_elems : ∀ vs : List GoVal, plainElems vs = true →
    toArrayElems (toBSONElems vs) = fillNilElems vs
  | [], _ => rfl
  | v :: vs, h => by
    have h' : (v.plain && plainElems vs) = true := h
    rw [Bool.and_eq_true] at h'
    show toValue (toBSONValue v) :: toArrayElems (toBSONElems vs) =
      fillNil v :: fillNilElems vs
    rw [roundtrip_value v h'.1, roundtrip_elems vs h'.2]
end

mutual
/-- A tree without `nil` containers has none to fill. -/
theorem fillNil_nilFree : ∀ v : GoVal, v.nilFree = true → fillNil v = v
  | .jdoc d, h => by
    show GoVal.jdoc (fillNilDocument d) = GoVal.jdoc d
    rw [fillNilDocument_nilFree d h]
  | .jarr a, h => by
    show GoVal.jarr (fillNilArray a) = GoVal.jarr a
    rw [fillNilArray_nilFree a h]
  | .leaf _ _, _ => rfl
  | .null, _ => rfl
  | .bdoc _, _ => rfl
  | .barr _, _ => rfl
  | .unwrappable _ _, _ => rfl
theorem fillNilDocument_nilFree : ∀ d : Option (List (Entry GoVal)),
    nilFreeDocument d = true → fillNilDocument d = d
  | none, h => by cases h
  | some fs, h => by
    show some (fillNilFields fs) = some fs
    rw [fillNilFields_nilFree fs h]
theorem fillNilFields_nilFree : ∀ fs : List (Entry GoVal),
    nilFreeFields fs = true → fillNilFields fs = fs
  | [], _ => rfl
  | f :: fs, h => by
    have h' : (f.Value.nilFree && nilFreeFields fs) = true := h
    rw [Bool.and_eq_true] at h'
    show ({ Key := f.Key, Value := fillNil f.Value } : Entry GoVal) :: fillNilFields fs =
      f :: fs
    rw [fillNil_nilFree f.Value h'.1, fillNilFields_nilFree fs h'.2]
theorem fillNilArray_nilFree : ∀ a : Option (List GoVal),
    nilFreeArray a = true → fillNilArray a = a
  | none, h => by cases h
  | some vs, h => by
    show some (fillNilElems vs) = some vs
    rw [fillNilElems_nilFree vs h]
theorem fillNilElems_nilFree : ∀ vs : List GoVal,
    nilFreeElems vs = true → fillNilElems vs = vs
  | [], _ => rfl
  | v :: vs, h => by
    have h' : (v.nilFree && nilFreeElems vs) = true := h
    rw [Bool.and_eq_true] at h'
    show fillNil v :: fillNilElems vs = v :: vs
    rw [fillNil_nilFree v h'.1, fillNilElems_nilFree vs h'.2]
end

/-! ## The map built by `toBSONCollections` -/

theorem keys_mapSet {α : Type} (m : List (String × α)) (k : String) (v : α) :
    (mapSet m k v).map Prod.fst =
      if k ∈ m.map Prod.fst then m.map Prod.fst else m.map Prod.fst ++ [k] := by
  unfold mapSet
  by_cases h : k ∈ m.map Prod.fst
  · have hany : m.any (fun p => decide (p.1 = k)) = true := by
      obtain ⟨p, hp, hk⟩ := List.mem_map.1 h
      exact List.any_eq_true.2 ⟨p, hp, by simp [hk]⟩
    rw [if_pos hany, if_pos h, List.map_map]
    apply List.map_congr_left
    intro p _
    by_cases hp : p.1 = k
    · simp [hp]
    · simp [hp]
  · have hany : ¬ (m.any (fun p => decide (p.1 = k)) = true) := by
      intro ha
      obtain ⟨p, hp, hk⟩ := List.any_eq_true.1 ha
      exact h (List.mem_map.2 ⟨p, hp, by simpa using hk⟩)
    rw [if_neg hany, if_neg h, List.map_append]
    rfl

theorem mapGet_mapSet {α : Type} (m : List (String × α)) (k k' : String) (v : α) :
    mapGet (mapSet m k v) k' = if k' = k then some v else mapGet m k' := by
  unfold mapGet mapSet
  induction m with
  | nil =>
    by_cases h : k' = k
    · simp [h]
    · have h2 : ¬ k = k' := fun e => h e.symm
      simp [h, h2]
  | cons p m ih =>
    by_cases hany : (p :: m).any (fun q => decide (q.1 = k)) = true
    · rw [if_pos hany]
      by_cases hp : p.1 = k
      · by_cases h : k' = k
        · simp [hp, h]
        · have h2 : ¬ k = k' := fun e => h e.symm
          have h3 : ¬ p.1 = k' := fun e => h (e.symm.trans hp)
          simp only [List.map_cons, hp, if_true, List.find?_cons, h2, decide_False, h,
            if_false, h3]
          by_cases hm : m.any (fun q => decide (q.1 = k)) = true
          · rw [if_pos hm] at ih
            rw [ih, if_neg h]
          · rw [if_neg hm] at ih
            have := ih
            rw [if_neg h] at this
            rw [← this]
            have hnone : ∀ q ∈ m, ¬ q.1 = k := by
              intro q hq hqk
              exact hm (List.any_eq_true.2 ⟨q, hq, by simp [hqk]⟩)
            have hmap : m.map (fun q => if q.1 = k then (k, v) else q) = m := by
              conv_rhs => rw [← List.map_id m]
              apply List.map_congr_left
              intro q hq
              simp [hnone q hq]
            rw [hmap, List.find?_append]
            simp [h2]
      · have hm : m.any (fun q => decide (q.1 = k)) = true := by
          simpa [hp] using hany
        rw [if_pos hm] at ih
        by_cases hpk : p.1 = k'
        · have h : ¬ k' = k := fun e => hp (hpk.trans e)
          simp [hp, hpk, h]
        · simp only [List.map_cons, hp, if_false, List.find?_cons, hpk, decide_False]
          exact ih
    · rw [if_neg hany]
      have hp : ¬ p.1 = k := by
        intro e
        exact hany (by simp [e])
      have hm : ¬ (m.any (fun q => decide (q.1 = k)) = true) := by
        intro e
        exact hany (by simp [e])
      rw [if_neg hm] at ih
      by_cases hpk : p.1 = k'
      · have h : ¬ k' = k := fun e => hp (hpk.trans e)
        simp [hpk, h]
      · simp only [List.cons_append, List.find?_cons, hpk, decide_False]
        exact ih

theorem convertElements_eq_map (fmt : Fmt) (key : String) :
    ∀ (els : List GoVal) (i : Nat), (∀ el ∈ els, el.IsDocument) →
      convertElements fmt key i els = .ok (els.map toBSONValue) := by
  intro els
  induction els with
  | nil => intro i _; rfl
  | cons el rest ih =>
    intro i h
    obtain ⟨doc, rfl⟩ := h el (List.mem_cons_self _ _)
    rw [convertElements_cons_document, ih (i + 1) (fun x hx => h x (List.mem_cons_of_mem _ hx))]
    rfl

/-- One step of the outer loop on a well-shaped entry. -/
theorem convertFields_cons_shaped (fmt : Fmt) (top : Entry GoVal) (rest : List (Entry GoVal))
    (cols : Collections) (h : ShapedEntry top) :
    convertFields fmt (top :: rest) cols =
      convertFields fmt rest (mapSet cols top.Key (some (recordsOf top.Value))) := by
  obtain ⟨arr, harr, hdocs⟩ := h
  rw [convertFields_array fmt top rest cols arr harr,
    convertElements_eq_map fmt top.Key (elems arr) 0 hdocs, harr]
  rfl

/-- On well-shaped entries the outer loop is a fold of map assignments. -/
theorem convertFields_fold (fmt : Fmt) :
    ∀ (fields : List (Entry GoVal)) (cols : Collections), (∀ e ∈ fields, ShapedEntry e) →
      convertFields fmt fields cols =
        (some (fields.foldl (fun c e => mapSet c e.Key (some (recordsOf e.Value))) cols),
          none) := by
  intro fields
  induction fields with
  | nil => intro cols _; rfl
  | cons top rest ih =>
    intro cols h
    rw [convertFields_cons_shaped fmt top rest cols (h top (List.mem_cons_self _ _)),
      ih _ (fun e he => h e (List.mem_cons_of_mem _ he)), List.foldl_cons]

/-- The map after the assignments: its keys are distinct and are those of the map before
and of the entries; a key of the entries holds the records of the last entry that has it. -/
theorem foldl_mapSet_spec (fields : List (Entry GoVal)) (cols : Collections)
    (hnd : (cols.map Prod.fst).Nodup) :
    ((fields.foldl (fun c e => mapSet c e.Key (some (recordsOf e.Value))) cols).map
        Prod.fst).Nodup ∧
      (∀ k, k ∈ (fields.foldl (fun c e => mapSet c e.Key (some (recordsOf e.Value))) cols).map
          Prod.fst ↔ k ∈ cols.map Prod.fst ∨ k ∈ fields.map Entry.Key) ∧
      ∀ k, mapGet (fields.foldl (fun c e => mapSet c e.Key (some (recordsOf e.Value))) cols) k =
        match lastValue fields k with
        | some v => some (some (recordsOf v))
        | none => mapGet cols k := by
  induction fields using List.reverseRecOn with
  | nil =>
    refine ⟨hnd, fun k => by simp, fun k => ?_⟩
    simp [lastValue]
  | append_singleton fs e ih =>
    obtain ⟨ih1, ih2, ih3⟩ := ih
    rw [List.foldl_append, List.foldl_cons, List.foldl_nil]
    refine ⟨?_, ?_, ?_⟩
    · rw [keys_mapSet]
      split
      · exact ih1
      · rename_i hne
        exact List.nodup_append.2 ⟨ih1, List.nodup_singleton _, by
          intro a ha hb
          rw [List.mem_singleton.1 hb] at ha
          exact hne ha⟩
    · intro k
      rw [keys_mapSet]
      split
      · rename_i hin
        rw [ih2 k, List.map_append, List.mem_append]
        constructor
        · rintro (h | h)
          · exact Or.inl h
          · exact Or.inr (Or.inl h)
        · rintro (h | h | h)
          · exact Or.inl h
          · exact Or.inr h
          · have hk : k = e.Key := by simpa using h
            rw [hk]
            exact (ih2 e.Key).1 hin
      · rw [List.mem_append, ih2 k, List.map_append, List.mem_append]
        constructor
        · rintro ((h | h) | h)
          · exact Or.inl h
          · exact Or.inr (Or.inl h)
          · exact Or.inr (Or.inr (by simpa using h))
        · rintro (h | h | h)
          · exact Or.inl (Or.inl h)
          · exact Or.inl (Or.inr h)
          · exact Or.inr (by simpa using h)
    · intro k
      rw [mapGet_mapSet, lastValue_snoc]
      by_cases hk : k = e.Key
      · rw [if_pos hk, if_pos hk.symm]
      · have hk' : ¬ e.Key = k := fun h => hk h.symm
        rw [if_neg hk, if_neg hk']
        exact ih3 k

theorem mapGet_of_mem {α : Type} (m : List (String × α)) (k : String) (v : α)
    (hnd : (m.map Prod.fst).Nodup) (h : (k, v) ∈ m) : mapGet m k = some v := by
  unfold mapGet
  induction m with
  | nil => cases h
  | cons p m ih =>
    rw [List.map_cons, List.nodup_cons] at hnd
    rcases List.mem_cons.1 h with h1 | h1
    · rw [← h1]
      simp
    · have hpk : ¬ p.1 = k := by
        intro e
        exact hnd.1 (List.mem_map.2 ⟨(k, v), h1, e.symm⟩)
      simp only [List.find?_cons, hpk, decide_False]
      exact ih hnd.2 h1

/-- Every bulk write the loop of `Seed` issues carries the records the map holds under the
name of the collection. -/
theorem seedLoop_issued (db : MongoDB) (fmt : Fmt) :
    ∀ (cs : Collections) (issued : List (String × List GoVal)),
      ∀ w ∈ (seedLoop db fmt cs issued).2,
        w ∈ issued ∨ ∃ d, (w.1, d) ∈ cs ∧ w.2 = elems d := by
  intro cs
  induction cs with
  | nil => intro issued w hw; exact Or.inl hw
  | cons c rest ih =>
    intro issued w hw
    obtain ⟨name, docs⟩ := c
    by_cases hlen : (elems docs).length = 0
    · have h : seedLoop db fmt ((name, docs) :: rest) issued = seedLoop db fmt rest issued := by
        simp only [seedLoop, hlen, if_true]
      rw [h] at hw
      rcases ih issued w hw with h1 | ⟨d, hd, he⟩
      · exact Or.inl h1
      · exact Or.inr ⟨d, List.mem_cons_of_mem _ hd, he⟩
    · cases hb : db.BulkWrite name (elems docs) with
      | some err =>
        have h : seedLoop db fmt ((name, docs) :: rest) issued =
            (some ("bulk write to collection " ++ fmt.q name ++ ": " ++ err),
              issued ++ [(name, elems docs)]) := by
          simp only [seedLoop, hlen, if_false, hb]
        rw [h] at hw
        rcases List.mem_append.1 hw with h1 | h1
        · exact Or.inl h1
        · rw [List.mem_singleton.1 h1]
          exact Or.inr ⟨docs, List.mem_cons_self _ _, rfl⟩
      | none =>
        have h : seedLoop db fmt ((name, docs) :: rest) issued =
            seedLoop db fmt rest (issued ++ [(name, elems docs)]) := by
          simp only [seedLoop, hlen, if_false, hb]
        rw [h] at hw
        rcases ih _ w hw with h1 | ⟨d, hd, he⟩
        · rcases List.mem_append.1 h1 with h2 | h2
          · exact Or.inl h2
          · rw [List.mem_singleton.1 h2]
            exact Or.inr ⟨docs, List.mem_cons_self _ _, rfl⟩
        · exact Or.inr ⟨d, List.mem_cons_of_mem _ hd, he⟩

/-! ## The caching loader refines the loader without caches -/

/-- One file, read through a coherent file cache: the outcome is the one of decoding. -/
theorem getFile_coherent {Reg V : Type} (env : Env Reg V) (l : documentLoader Reg V)
    (f : String) (hco : l.FileCoherent env) :
    (∀ d, decodeFile env l.reg f = .ok d →
        (l.getFile env f).1.2 = none ∧ (l.getFile env f).1.1.entries = d.entries) ∧
      (∀ e, decodeFile env l.reg f = .error e → (l.getFile env f).1 = (none, some e)) ∧
      (l.getFile env f).2.FileCoherent env ∧ (l.getFile env f).2.pathCache = l.pathCache ∧
      (l.getFile env f).2.reg = l.reg := by
  obtain ⟨hc, hfc⟩ := hco
  cases hg : l.getFileCache f with
  | some es =>
    rw [getFile_hit env l f es hc hg]
    obtain ⟨d0, hd0, he0⟩ := hfc f es hg
    refine ⟨?_, ?_, ⟨hc, hfc⟩, rfl, rfl⟩
    · intro d hd
      rw [hd0] at hd
      have : d0 = d := Except.ok.inj hd
      rw [← this, he0]
      exact ⟨rfl, rfl⟩
    · intro e he
      rw [hd0] at he
      cases he
  | none =>
    cases hd : decodeFile env l.reg f with
    | ok d =>
      rw [getFile_miss_ok env l f d hc hg hd]
      refine ⟨?_, ?_, ⟨hc, ?_⟩, rfl, rfl⟩
      · intro d' hd'
        have : d = d' := Except.ok.inj hd'
        rw [← this]
        exact ⟨rfl, rfl⟩
      · intro e he
        cases he
      · intro g es hges
        rw [getFileCache_setFileCache] at hges
        by_cases hgf : g = f
        · rw [if_pos hgf] at hges
          rw [hgf]
          exact ⟨d, hd, by rw [hges]; rfl⟩
        · rw [if_neg hgf] at hges
          exact hfc g es hges
    | error e =>
      rw [getFile_miss_err env l f e hc hg hd]
      refine ⟨?_, ?_, ⟨hc, hfc⟩, rfl, rfl⟩
      · intro d' hd'
        cases hd'
      · intro e' he'
        have : e = e' := Except.error.inj he'
        rw [this]

/-- One file, read without caches. -/
theorem getFile_plain {Reg V : Type} (env : Env Reg V) (l0 : documentLoader Reg V)
    (f : String) (h0 : l0.cache = false) :
    (∀ d, decodeFile env l0.reg f = .ok d → (l0.getFile env f).1 = (d, none)) ∧
      (∀ e, decodeFile env l0.reg f = .error e → (l0.getFile env f).1 = (none, some e)) ∧
      (l0.getFile env f).2.cache = false ∧ (l0.getFile env f).2.reg = l0.reg := by
  rw [getFile_uncached env l0 f h0]
  cases hd : decodeFile env l0.reg f with
  | ok d =>
    rw [readFile_ok env l0 f d hd]
    exact ⟨fun d' hd' => (by rw [Except.ok.inj hd']), fun e he => (by cases he), h0, rfl⟩
  | error e =>
    rw [readFile_err env l0 f e hd]
    exact ⟨fun d' hd' => (by cases hd'), fun e' he' => (by rw [Except.error.inj he']), h0, rfl⟩

/-- The iterator of `loadPath` through a coherent file cache and without caches: the same
error, and documents with the same entries. -/
theorem readFiles_coherent {Reg V : Type} (env : Env Reg V) :
    ∀ (fs : List String) (l l0 : documentLoader Reg V), l.FileCoherent env →
      l0.cache = false → l0.reg = l.reg →
      (l.readFiles env fs).2.1 = (l0.readFiles env fs).2.1 ∧
        (l.readFiles env fs).1.map Document.entries =
          (l0.readFiles env fs).1.map Document.entries ∧
        (l.readFiles env fs).2.2.FileCoherent env ∧
        (l.readFiles env fs).2.2.pathCache = l.pathCache ∧
        (l.readFiles env fs).2.2.reg = l.reg := by
  intro fs
  induction fs with
  | nil =>
    intro l l0 hco _ _
    exact ⟨rfl, rfl, hco, rfl, rfl⟩
  | cons g fs ih =>
    intro l l0 hco h0 hr0
    obtain ⟨hok, herr, hco1, hp1, hr1⟩ := getFile_coherent env l g hco
    obtain ⟨hok0, herr0, hc01, hr01⟩ := getFile_plain env l0 g h0
    rw [hr0] at hok0 herr0
    rcases hgf : l.getFile env g with ⟨⟨d1, e1⟩, l1⟩
    rcases hgf0 : l0.getFile env g with ⟨⟨d0, e0⟩, l01⟩
    rw [hgf] at hok herr hco1 hp1 hr1
    rw [hgf0] at hok0 herr0 hc01 hr01
    cases hd : decodeFile env l.reg g with
    | ok d =>
      obtain ⟨he1, hent1⟩ := hok d hd
      have he1' : e1 = none := he1
      have hent1' : d1.entries = d.entries := hent1
      have h0eq : (d0, e0) = (d, none) := hok0 d hd
      have hd0 : d0 = d := congrArg Prod.fst h0eq
      have he0 : e0 = none := congrArg Prod.snd h0eq
      subst he1' he0 hd0
      have hc01' : l01.cache = false := hc01
      have hr01' : l01.reg = l1.reg := by
        have a : l01.reg = l0.reg := hr01
        have b : l1.reg = l.reg := hr1
        rw [a, b, hr0]
      obtain ⟨ih1, ih2, ih3, ih4, ih5⟩ := ih l1 l01 hco1 hc01' hr01'
      rcases hrf : l1.readFiles env fs with ⟨ds, readErr, l2⟩
      rcases hrf0 : l01.readFiles env fs with ⟨ds0, readErr0, l02⟩
      rw [hrf, hrf0] at ih1 ih2
      rw [hrf] at ih3 ih4 ih5
      rw [readFiles_cons_ok env l l1 l2 g fs d1 ds readErr hgf hrf,
        readFiles_cons_ok env l0 l01 l02 g fs d0 ds0 readErr0 hgf0 hrf0]
      refine ⟨ih1, ?_, ih3, ih4.trans hp1, ih5.trans hr1⟩
      show (d1 :: ds).map Document.entries = (d0 :: ds0).map Document.entries
      rw [List.map_cons, List.map_cons, hent1']
      congr 1
    | error e =>
      have h1eq : (d1, e1) = (none, some e) := herr e hd
      have h0eq : (d0, e0) = (none, some e) := herr0 e hd
      have he1 : e1 = some e := congrArg Prod.snd h1eq
      have he0 : e0 = some e := congrArg Prod.snd h0eq
      subst he1 he0
      rw [readFiles_cons_err env l l1 g fs d1 e hgf, readFiles_cons_err env l0 l01 g fs d0 e hgf0]
      exact ⟨rfl, rfl, hco1, hp1, hr1⟩

/-- Method `loadPath` through a coherent file cache and without caches: the same error, and
documents with the same entries. -/
theorem loadPath_coherent {Reg V : Type} (env : Env Reg V) (l l0 : documentLoader Reg V)
    (path : String) (hco : l.FileCoherent env) (h0 : l0.cache = false) (hr0 : l0.reg = l.reg) :
    (l.loadPath env path).1.2 = (l0.loadPath env path).1.2 ∧
      (l.loadPath env path).1.1.entries = (l0.loadPath env path).1.1.entries ∧
      (l.loadPath env path).2.FileCoherent env ∧
      (l.loadPath env path).2.pathCache = l.pathCache ∧
      (l.loadPath env path).2.reg = l.reg := by
  rcases hres : resolve env path with ⟨files, rerr⟩
  cases rerr with
  | some e =>
    rw [loadPath_resolve_err env l path files e hres,
      loadPath_resolve_err env l0 path files e hres]
    exact ⟨rfl, rfl, hco, rfl, rfl⟩
  | none =>
    match files, hres with
    | [], hres =>
      rw [loadPath_resolve_empty env l path hres, loadPath_resolve_empty env l0 path hres]
      exact ⟨rfl, rfl, hco, rfl, rfl⟩
    | [f], hres =>
      have h1 : l.loadPath env path = l.getFile env f := by
        simp only [documentLoader.loadPath, hres]
      have h2 : l0.loadPath env path = l0.getFile env f := by
        simp only [documentLoader.loadPath, hres]
      rw [h1, h2]
      obtain ⟨hok, herr, hco1, hp1, hr1⟩ := getFile_coherent env l f hco
      obtain ⟨hok0, herr0, _, _⟩ := getFile_plain env l0 f h0
      rw [hr0] at hok0 herr0
      cases hd : decodeFile env l.reg f with
      | ok d =>
        obtain ⟨a, b⟩ := hok d hd
        rw [hok0 d hd]
        exact ⟨a, b, hco1, hp1, hr1⟩
      | error e =>
        rw [herr e hd, herr0 e hd]
        exact ⟨rfl, rfl, hco1, hp1, hr1⟩
    | a :: b :: rest, hres =>
      have hlen : 2 ≤ (a :: b :: rest).length := by simp
      obtain ⟨i1, i2, i3, i4, i5⟩ :=
        readFiles_coherent env (sortStrings (a :: b :: rest)) l l0 hco h0 hr0
      rw [loadPath_multi env l path _ hres hlen, loadPath_multi env l0 path _ hres hlen]
      rcases hrf : l.readFiles env (sortStrings (a :: b :: rest)) with ⟨docs, readErr, l1⟩
      rcases hrf0 : l0.readFiles env (sortStrings (a :: b :: rest)) with ⟨docs0, readErr0, l01⟩
      rw [hrf, hrf0] at i1 i2
      rw [hrf] at i3 i4 i5
      have i1' : readErr = readErr0 := i1
      have i2' : docs.map Document.entries = docs0.map Document.entries := i2
      subst i1'
      cases readErr with
      | some e => exact ⟨rfl, rfl, i3, i4, i5⟩
      | none =>
        refine ⟨rfl, ?_, i3, i4, i5⟩
        show (mergeDocs docs).entries = (mergeDocs docs0).entries
        rw [mergeDocs_entries, mergeDocs_entries, allEntries_congr docs docs0 i2']

theorem getPathCache_setPathCache_ne {Reg V : Type} (l : documentLoader Reg V) (p q : String)
    (d : Document V) (h : q ≠ p) : (l.setPathCache p d).getPathCache q = l.getPathCache q := by
  simp [documentLoader.setPathCache, documentLoader.getPathCache, GoMap.set, h]

/-- Method `load` on coherent caches: the error of a loader without caches, a document
with the same entries, and coherent caches afterwards. -/
theorem load_coherent {Reg V : Type} (env : Env Reg V) (l : documentLoader Reg V)
    (path : String) (hco : l.Coherent env) :
    (l.load env path).1.2 = (plainLoad env l.reg path).2 ∧
      (l.load env path).1.1.entries = (plainLoad env l.reg path).1.entries ∧
      (l.load env path).2.Coherent env ∧ (l.load env path).2.reg = l.reg := by
  obtain ⟨hfco, hpc⟩ := hco
  have hc : l.cache = true := hfco.1
  cases hg : l.getPathCache path with
  | some es =>
    rw [load_hit env l path es hc hg]
    obtain ⟨d, hd, he⟩ := hpc path es hg
    rw [hd]
    exact ⟨rfl, he.symm, ⟨hfco, hpc⟩, rfl⟩
  | none =>
    have hplain : plainLoad env l.reg path =
        ((newDocumentLoader l.reg false).loadPath env path).1 := by
      unfold plainLoad
      rw [load_uncached env _ path rfl]
    obtain ⟨c1, c2, c3, c4, c5⟩ :=
      loadPath_coherent env l (newDocumentLoader l.reg false) path hfco rfl rfl
    rw [← hplain] at c1 c2
    rcases hlp : l.loadPath env path with ⟨⟨doc, err⟩, l1⟩
    rw [hlp] at c1 c2 c3 c4 c5
    have c5' : l1.reg = l.reg := c5
    have c4' : l1.pathCache = l.pathCache := c4
    have c3' : l1.FileCoherent env := c3
    cases err with
    | some e =>
      rw [load_miss_err env l l1 path doc e hc hg hlp]
      obtain ⟨_, _, _, hnil, _⟩ := loadPath_frame env l path
      rw [hlp] at hnil
      have hdoc : doc = none := hnil (fun h => nomatch h)
      rw [hdoc] at c2
      refine ⟨c1, c2, ⟨c3', ?_⟩, c5'⟩
      intro p es hp
      have hp' : l.getPathCache p = some es := by
        unfold documentLoader.getPathCache at hp ⊢
        rw [← c4']
        exact hp
      rw [c5']
      exact hpc p es hp'
    | none =>
      rw [load_miss_ok env l l1 path doc hc hg hlp]
      refine ⟨c1, c2, ⟨c3', ?_⟩, c5'⟩
      intro p es hp
      show ∃ d, plainLoad env l1.reg p = (d, none) ∧ d.entries = es
      rw [c5']
      by_cases hpp : p = path
      · rw [hpp] at hp ⊢
        rw [getPathCache_setPathCache] at hp
        refine ⟨(plainLoad env l.reg path).1, ?_, ?_⟩
        · have c1' : (none : GoError) = (plainLoad env l.reg path).2 := c1
          rw [Prod.ext_iff]
          exact ⟨rfl, c1'.symm⟩
        · have c2' : doc.entries = (plainLoad env l.reg path).1.entries := c2
          rw [← c2', hp]
          rfl
      · rw [getPathCache_setPathCache_ne l1 path p doc hpp] at hp
        have hp' : l.getPathCache p = some es := by
          unfold documentLoader.getPathCache at hp ⊢
          rw [← c4']
          exact hp
        exact hpc p es hp'

theorem coherent_new {Reg V : Type} (env : Env Reg V) (reg : Reg) :
    (newDocumentLoader reg true : documentLoader Reg V).Coherent env :=
  ⟨⟨rfl, fun _ _ h => nomatch h⟩, fun _ _ h => nomatch h⟩

/-- Coherent caches stay coherent through any sequence of loads. -/
theorem loads_coherent {Reg V : Type} (env : Env Reg V) :
    ∀ (ps : List String) (l : documentLoader Reg V), l.Coherent env →
      (l.loads env ps).Coherent env ∧ (l.loads env ps).reg = l.reg := by
  intro ps
  induction ps with
  | nil => intro l h; exact ⟨h, rfl⟩
  | cons p ps ih =>
    intro l h
    obtain ⟨_, _, h3, h4⟩ := load_coherent env l p h
    obtain ⟨i1, i2⟩ := ih (l.load env p).2 h3
    exact ⟨i1, i2.trans h4⟩

/-! ## The cleanup function and the hook -/

theorem teardowns_append (a b : List CleanupCall) :
    teardowns (a ++ b) = teardowns a ++ teardowns b := by
  induction a with
  | nil => rfl
  | cons c cs ih =>
    cases c with
    | teardown ctx =>
      show ctx :: teardowns (cs ++ b) = ctx :: teardowns cs ++ teardowns b
      rw [ih]
      rfl
    | fatal msg => exact ih

/-- One run of the function `T.Cleanup` hands to the hook. -/
theorem cleanupFunc_run {S Reg V : Type} (pt : T S Reg V) (t : TestingT) (s1 : S) :
    teardowns (pt.cleanupFunc t s1).1.2 = [Context.background] ∧
      (pt.cleanupFunc t s1).2 = (pt.poutine.Teardown s1).2 ∧
      (fatals (pt.cleanupFunc t s1).1.2 ≠ [] ↔ (pt.poutine.Teardown s1).1 ≠ none) ∧
      (∀ err, (pt.poutine.Teardown s1).1 = some err →
        fatals (pt.cleanupFunc t s1).1.2 = ["teardown: " ++ err] ∧
          (pt.cleanupFunc t s1).1.1 = (match t.Fatalf ("teardown: " ++ err) with
            | .stops => none
            | .returns => some ())) ∧
      ((pt.poutine.Teardown s1).1 = none →
        (pt.cleanupFunc t s1).1 = (some (), [.teardown .background])) := by
  rcases htd : pt.poutine.Teardown s1 with ⟨err, s'⟩
  cases err with
  | none =>
    have h : pt.cleanupFunc t s1 = ((some (), [.teardown .background]), s') := by
      simp only [T.cleanupFunc, htd]
    rw [h]
    refine ⟨rfl, rfl, ?_, ?_, fun _ => rfl⟩
    · constructor
      · intro h1
        exact absurd rfl h1
      · intro h1
        exact absurd rfl h1
    · intro err he
      cases he
  | some e =>
    cases hfat : t.Fatalf ("teardown: " ++ e) with
    | stops =>
      have h : pt.cleanupFunc t s1 =
          ((none, [.teardown .background, .fatal ("teardown: " ++ e)]), s') := by
        simp only [T.cleanupFunc, htd, hfat]
      rw [h]
      refine ⟨rfl, rfl, ⟨fun _ h1 => (nomatch h1), fun _ h1 => (nomatch h1)⟩, ?_,
        fun h1 => nomatch h1⟩
      intro err he
      cases he
      rw [hfat]
      exact ⟨rfl, rfl⟩
    | returns =>
      have h : pt.cleanupFunc t s1 =
          ((some (), [.teardown .background, .fatal ("teardown: " ++ e)]), s') := by
        simp only [T.cleanupFunc, htd, hfat]
      rw [h]
      refine ⟨rfl, rfl, ⟨fun _ h1 => (nomatch h1), fun _ h1 => (nomatch h1)⟩, ?_,
        fun h1 => nomatch h1⟩
      intro err he
      cases he
      rw [hfat]
      exact ⟨rfl, rfl⟩

/-- A hook that runs the function `n` times makes at most `n` teardowns, all with the
background context, and exactly `n` when it returns. -/
theorem runCleanupHook_teardowns {S : Type} (f : S → (Option Unit × List CleanupCall) × S)
    (hrun : ∀ s, teardowns (f s).1.2 = [Context.background]) :
    ∀ (n : Nat) (s : S), ∃ k, k ≤ n ∧
      teardowns (runCleanupHook f n s).1.2 = List.replicate k Context.background ∧
      ((runCleanupHook f n s).1.1 ≠ none → k = n) := by
  intro n
  induction n with
  | zero => intro s; exact ⟨0, Nat.le_refl 0, rfl, fun _ => rfl⟩
  | succ n ih =>
    intro s
    have hs := hrun s
    rcases hf : f s with ⟨⟨r, calls⟩, s'⟩
    rw [hf] at hs
    cases r with
    | none =>
      have h : runCleanupHook f (n + 1) s = ((none, calls), s') := by
        simp only [runCleanupHook, hf]
      rw [h]
      exact ⟨1, by omega, hs, fun hne => absurd rfl hne⟩
    | some u =>
      obtain ⟨k, hk, hk1, hk2⟩ := ih s'
      rcases hr : runCleanupHook f n s' with ⟨⟨r2, later⟩, s''⟩
      rw [hr] at hk1 hk2
      have h : runCleanupHook f (n + 1) s = ((r2, calls ++ later), s'') := by
        simp only [runCleanupHook, hf, hr]
      rw [h]
      refine ⟨k + 1, by omega, ?_, ?_⟩
      · show teardowns (calls ++ later) = List.replicate (k + 1) Context.background
        have hs' : teardowns calls = [Context.background] := hs
        have hk1' : teardowns later = List.replicate k Context.background := hk1
        rw [teardowns_append, hs', hk1']
        rfl
      · intro hne
        rw [hk2 hne]

/-! ## Which files a caching loader opens, and what it keeps of them -/

/-- Method `getFile` of a caching loader: a file the cache holds is not opened; any other
file is opened once, and the cache then holds what it decoded to. Documents the cache
holds stay. -/
theorem getFile_trace {Reg V : Type} (env : Env Reg V) (l : documentLoader Reg V)
    (g : String) (hc : l.cache = true) :
    (l.getFileCache g ≠ none → (l.getFile env g).2 = l ∧ (l.getFile env g).1.2 = none) ∧
      (l.getFileCache g = none →
        (l.getFile env g).2.opened = l.opened ++ [g] ∧
          (l.getFile env g).2.getFileCache g = docOf env l.reg g ∧
          ((l.getFile env g).1.2 = none ↔ ∃ d, decodeFile env l.reg g = .ok d)) ∧
      (∀ g', g' ≠ g → (l.getFile env g).2.getFileCache g' = l.getFileCache g') ∧
      (∀ g' es, l.getFileCache g' = some es → (l.getFile env g).2.getFileCache g' = some es) ∧
      (l.getFile env g).2.cache = true ∧ (l.getFile env g).2.reg = l.reg ∧
      (l.getFile env g).2.pathCache = l.pathCache := by
  cases hg : l.getFileCache g with
  | some es =>
    rw [getFile_hit env l g es hc hg]
    exact ⟨fun _ => ⟨rfl, rfl⟩, fun h => (nomatch h), fun _ _ => rfl, fun _ _ h => h, hc,
      rfl, rfl⟩
  | none =>
    cases hd : decodeFile env l.reg g with
    | ok d =>
      rw [getFile_miss_ok env l g d hc hg hd]
      have hset : ∀ g', (documentLoader.setFileCache { l with opened := l.opened ++ [g] } g
          d).getFileCache g' = if g' = g then d else l.getFileCache g' := by
        intro g'
        rw [getFileCache_setFileCache]
        rfl
      refine ⟨fun h => absurd rfl h, fun _ => ⟨rfl, ?_, ?_⟩, ?_, ?_, hc, rfl, rfl⟩
      · show (documentLoader.setFileCache { l with opened := l.opened ++ [g] } g
          d).getFileCache g = docOf env l.reg g
        rw [hset g, if_pos rfl, docOf_ok env l.reg g d hd]
      · exact ⟨fun _ => ⟨d, rfl⟩, fun _ => rfl⟩
      · intro g' hne
        show (documentLoader.setFileCache { l with opened := l.opened ++ [g] } g
          d).getFileCache g' = l.getFileCache g'
        rw [hset g', if_neg hne]
      · intro g' es hes
        show (documentLoader.setFileCache { l with opened := l.opened ++ [g] } g
          d).getFileCache g' = some es
        rw [hset g']
        by_cases hgg : g' = g
        · rw [hgg, hg] at hes
          cases hes
        · rw [if_neg hgg]
          exact hes
    | error e =>
      rw [getFile_miss_err env l g e hc hg hd]
      refine ⟨fun h => absurd rfl h, fun _ => ⟨rfl, ?_, ?_⟩, fun _ _ => rfl, fun _ _ h => h,
        hc, rfl, rfl⟩
      · show l.getFileCache g = docOf env l.reg g
        rw [hg]
        unfold docOf
        rw [hd]
      · constructor
        · intro h
          cases h
        · rintro ⟨d, hd'⟩
          cases hd'

/-- The iterator of `loadPath` in a caching loader: it opens only files of the list the
cache does not hold, keeps every document the cache holds, and keeps the document of every
file it opened that decoded to one; when it reports no error it has opened every file of
the list the cache did not hold. -/
theorem readFiles_trace {Reg V : Type} (env : Env Reg V) :
    ∀ (fs : List String) (l : documentLoader Reg V), l.cache = true →
      ∃ t, (l.readFiles env fs).2.2.opened = l.opened ++ t ∧
        (∀ g ∈ t, g ∈ fs ∧ l.getFileCache g = none) ∧
        (∀ g es, l.getFileCache g = some es →
          (l.readFiles env fs).2.2.getFileCache g = some es) ∧
        (∀ g ∈ t, ∀ es, docOf env l.reg g = some es →
          (l.readFiles env fs).2.2.getFileCache g = some es) ∧
        ((l.readFiles env fs).2.1 = none → ∀ g ∈ fs, l.getFileCache g = none → g ∈ t) ∧
        (l.readFiles env fs).2.2.cache = true ∧ (l.readFiles env fs).2.2.reg = l.reg ∧
        (l.readFiles env fs).2.2.pathCache = l.pathCache := by
  intro fs
  induction fs with
  | nil =>
    intro l hc
    exact ⟨[], by simp [documentLoader.readFiles], fun _ h => (nomatch h), fun _ _ h => h,
      fun _ h => (nomatch h), fun _ _ h => (nomatch h), hc, rfl, rfl⟩
  | cons g fs ih =>
    intro l hc
    obtain ⟨hhit, hmiss, hother, hmono, hc1, hr1, hp1⟩ := getFile_trace env l g hc
    rcases hgf : l.getFile env g with ⟨⟨d, err⟩, l1⟩
    rw [hgf] at hhit hmiss hother hmono hc1 hr1 hp1
    have hc1' : l1.cache = true := hc1
    have hr1' : l1.reg = l.reg := hr1
    have hp1' : l1.pathCache = l.pathCache := hp1
    have hmono' : ∀ g' es, l.getFileCache g' = some es → l1.getFileCache g' = some es := hmono
    have hother' : ∀ g', g' ≠ g → l1.getFileCache g' = l.getFileCache g' := hother
    have hback : ∀ x, l1.getFileCache x = none → l.getFileCache x = none := by
      intro x hx
      cases hl : l.getFileCache x with
      | none => rfl
      | some es =>
        rw [hmono' x es hl] at hx
        cases hx
    -- what the first file adds to the log
    have hfirst : ∃ t0, l1.opened = l.opened ++ t0 ∧ (∀ x ∈ t0, x = g ∧ l.getFileCache g = none) ∧
        (l.getFileCache g = none → g ∈ t0 ∧ l1.getFileCache g = docOf env l.reg g) ∧
        (l.getFileCache g ≠ none → err = none) := by
      cases hg : l.getFileCache g with
      | some es =>
        have hne : l.getFileCache g ≠ none := by rw [hg]; exact fun h => nomatch h
        obtain ⟨h1, h2⟩ := hhit hne
        have h1' : l1 = l := h1
        have h2' : err = none := h2
        refine ⟨[], by rw [h1']; simp, fun _ h => (nomatch h), fun h => (nomatch h),
          fun _ => h2'⟩
      | none =>
        obtain ⟨h1, h2, _⟩ := hmiss hg
        have h1' : l1.opened = l.opened ++ [g] := h1
        have h2' : l1.getFileCache g = docOf env l.reg g := h2
        refine ⟨[g], h1', fun x hx => ⟨List.mem_singleton.1 hx, rfl⟩,
          fun _ => ⟨List.mem_singleton.2 rfl, h2'⟩, fun h => absurd rfl h⟩
    obtain ⟨t0, hop0, ht0, hg0, herr0⟩ := hfirst
    cases err with
    | some e =>
      rw [readFiles_cons_err env l l1 g fs d e hgf]
      refine ⟨t0, hop0, ?_, hmono', ?_, fun h => (nomatch h), hc1', hr1', hp1'⟩
      · intro x hx
        obtain ⟨hxg, hm⟩ := ht0 x hx
        rw [hxg]
        exact ⟨List.mem_cons_self _ _, hm⟩
      · intro x hx es hes
        obtain ⟨hxg, hm⟩ := ht0 x hx
        rw [hxg] at hes ⊢
        show l1.getFileCache g = some es
        rw [(hg0 hm).2, hes]
    | none =>
      obtain ⟨t1, i1, i2, i3, i4, i5, i6, i7, i8⟩ := ih l1 hc1'
      rcases hrf : l1.readFiles env fs with ⟨ds, readErr, l2⟩
      rw [hrf] at i1 i3 i4 i5 i6 i7 i8
      rw [readFiles_cons_ok env l l1 l2 g fs d ds readErr hgf hrf]
      have i1' : l2.opened = l1.opened ++ t1 := i1
      have i3' : ∀ x es, l1.getFileCache x = some es → l2.getFileCache x = some es := i3
      have i4' : ∀ x ∈ t1, ∀ es, docOf env l1.reg x = some es → l2.getFileCache x = some es :=
        i4
      have i5' : readErr = none → ∀ x ∈ fs, l1.getFileCache x = none → x ∈ t1 := i5
      refine ⟨t0 ++ t1, ?_, ?_, ?_, ?_, ?_, i6, ?_, ?_⟩
      · show l2.opened = l.opened ++ (t0 ++ t1)
        rw [i1', hop0, List.append_assoc]
      · intro x hx
        rcases List.mem_append.1 hx with h | h
        · obtain ⟨hxg, hm⟩ := ht0 x h
          rw [hxg]
          exact ⟨List.mem_cons_self _ _, hm⟩
        · obtain ⟨h1, h2⟩ := i2 x h
          exact ⟨List.mem_cons_of_mem _ h1, hback x h2⟩
      · intro x es hes
        exact i3' x es (hmono' x es hes)
      · intro x hx es hes
        show l2.getFileCache x = some es
        rcases List.mem_append.1 hx with h | h
        · obtain ⟨hxg, hm⟩ := ht0 x h
          rw [hxg] at hes ⊢
          apply i3'
          rw [(hg0 hm).2, hes]
        · apply i4' x h es
          rw [hr1']
          exact hes
      · intro hok x hx hm
        have hok' : readErr = none := hok
        rcases List.mem_cons.1 hx with h | h
        · rw [h]
          rw [h] at hm
          exact List.mem_append.2 (Or.inl (hg0 hm).1)
        · by_cases hxg : x = g
          · rw [hxg]
            rw [hxg] at hm
            exact List.mem_append.2 (Or.inl (hg0 hm).1)
          · have hm1 : l1.getFileCache x = none := by
              rw [hother' x hxg]
              exact hm
            exact List.mem_append.2 (Or.inr (i5' hok' x h hm1))
      · exact i7.trans hr1'
      · exact i8.trans hp1'

/-- Method `loadPath` in a caching loader: it opens only resolved files the file cache
does not hold, keeps every document the cache holds and the document of every file it
opened that decoded to one; when it succeeds it has opened every resolved file the cache
did not hold. -/
theorem loadPath_trace {Reg V : Type} (env : Env Reg V) (l : documentLoader Reg V)
    (path : String) (hc : l.cache = true) :
    ∃ t, (l.loadPath env path).2.opened = l.opened ++ t ∧
      (∀ g ∈ t, l.getFileCache g = none ∧ g ∈ (resolve env path).1) ∧
      (∀ g es, l.getFileCache g = some es →
        (l.loadPath env path).2.getFileCache g = some es) ∧
      (∀ g ∈ t, ∀ es, docOf env l.reg g = some es →
        (l.loadPath env path).2.getFileCache g = some es) ∧
      ((l.loadPath env path).1.2 = none →
        ∀ g ∈ (resolve env path).1, l.getFileCache g = none → g ∈ t) := by
  rcases hres : resolve env path with ⟨files, rerr⟩
  cases rerr with
  | some e =>
    rw [loadPath_resolve_err env l path files e hres]
    exact ⟨[], by simp, fun _ h => (nomatch h), fun _ _ h => h, fun _ h => (nomatch h),
      fun h => (nomatch h)⟩
  | none =>
    match files, hres with
    | [], hres =>
      rw [loadPath_resolve_empty env l path hres]
      exact ⟨[], by simp, fun _ h => (nomatch h), fun _ _ h => h, fun _ h => (nomatch h),
        fun h => (nomatch h)⟩
    | [f], hres =>
      have h1 : l.loadPath env path = l.getFile env f := by
        simp only [documentLoader.loadPath, hres]
      rw [h1]
      obtain ⟨hhit, hmiss, _, hmono, _, _, _⟩ := getFile_trace env l f hc
      cases hg : l.getFileCache f with
      | some es =>
        have hne : l.getFileCache f ≠ none := by rw [hg]; exact fun h => nomatch h
        obtain ⟨a, _⟩ := hhit hne
        rw [a]
        refine ⟨[], by simp, fun _ h => (nomatch h), fun _ _ h => h, fun _ h => (nomatch h), ?_⟩
        intro _ g hgm hm
        rw [List.mem_singleton.1 hgm, hg] at hm
        cases hm
      | none =>
        obtain ⟨a, b, _⟩ := hmiss hg
        refine ⟨[f], a, ?_, hmono, ?_, ?_⟩
        · intro g hgm
          rw [List.mem_singleton.1 hgm]
          exact ⟨hg, List.mem_singleton.2 rfl⟩
        · intro g hgm es hes
          rw [List.mem_singleton.1 hgm] at hes ⊢
          rw [b, hes]
        · intro _ g hgm _
          exact hgm
    | a :: b :: rest, hres =>
      have hlen : 2 ≤ (a :: b :: rest).length := by simp
      obtain ⟨t, i1, i2, i3, i4, i5, _⟩ :=
        readFiles_trace env (sortStrings (a :: b :: rest)) l hc
      have hperm := sortStrings_perm (a :: b :: rest)
      rw [loadPath_multi env l path _ hres hlen]
      rcases hrf : l.readFiles env (sortStrings (a :: b :: rest)) with ⟨docs, readErr, l1⟩
      rw [hrf] at i1 i3 i4 i5
      cases readErr with
      | some e =>
        exact ⟨t, i1, fun g hgm => ⟨(i2 g hgm).2, hperm.subset (i2 g hgm).1⟩, i3, i4,
          fun hok g hgm hm => i5 hok g (hperm.symm.subset hgm) hm⟩
      | none =>
        exact ⟨t, i1, fun g hgm => ⟨(i2 g hgm).2, hperm.subset (i2 g hgm).1⟩, i3, i4,
          fun hok g hgm hm => i5 hok g (hperm.symm.subset hgm) hm⟩

/-! ## The claims -/

/-- C1: the keys of the document `mergeDocs` returns are the distinct keys of all source
entries in order of first appearance, every returned entry carries the value of the last
source entry with its key, and merging `[(x,1),(y,2)]` then `[(y,9),(z,3)]` gives
`[(x,1),(y,9),(z,3)]`. -/
theorem mergeDocs_first_appearance_last_wins {V : Type} (docs : List (Document V)) :
    (mergeDocs docs).entries.map Entry.Key =
        firstAppearance ((allEntries docs).map Entry.Key) ∧
      (∀ e ∈ (mergeDocs docs).entries, lastValue (allEntries docs) e.Key = some e.Value) ∧
      mergeDocs [some [⟨"x", 1⟩, ⟨"y", 2⟩], some [⟨"y", 9⟩, ⟨"z", 3⟩]] =
        some [(⟨"x", 1⟩ : Entry Nat), ⟨"y", 9⟩, ⟨"z", 3⟩] := by
  refine ⟨?_, ?_, by decide⟩
  · rw [mergeDocs_entries, keys_foldl_upsert]
  · rw [mergeDocs_entries]
    exact values_foldl_upsert (allEntries docs)

/-- C2: the keys of the document `mergeDocs` returns are pairwise distinct, whatever keys
the sources repeat. -/
theorem mergeDocs_keys_nodup {V : Type} (docs : List (Document V)) :
    ((mergeDocs docs).entries.map Entry.Key).Nodup := by
  rw [mergeDocs_entries, keys_foldl_upsert]
  exact nodup_firstAppearance _

/-- C3: a wildcard pattern tested against a non-nil value succeeds exactly when the
dynamic type of the value is `T`, is assignable to `T` or is convertible to `T`; the error
returned is the same for every payload and every comparator, and the comparator is left as
it was, without a call. -/
theorem any_test_non_nil {Ty Val T : Type} [DecidableEq Ty] (R : Reflect Ty)
    (ta : TypeArg Ty Val T) (p : T) (rc : RuleContext Ty Val) (b : Boxed Ty Val) :
    (((Any p).Test R ta rc (some b)).1 = none ↔
        (b.ty = ta.tv ∨ R.AssignableTo b.ty ta.tv = true ∨ R.ConvertibleTo b.ty ta.tv = true)) ∧
      (∀ (p' : T) (rc' : RuleContext Ty Val),
        ((Any p').Test R ta rc' (some b)).1 = ((Any p).Test R ta rc (some b)).1) ∧
      ((Any p).Test R ta rc (some b)).2 = rc := by
  have key : ∀ (q : T) (c : RuleContext Ty Val), (Any q).Test R ta c (some b) =
      (if typeAssert R (some b) ta.tv = true then none
        else if (!R.AssignableTo b.ty ta.tv && !R.ConvertibleTo b.ty ta.tv) = true then
          some ("expected type assignable/convertible to " ++ R.typeName ta.tv ++ ", got " ++
            R.typeName b.ty)
        else none, c) := by
    intro q c
    simp only [Pattern.Test, Any, Pattern.IsPresent, Pattern.IsExplicit]
    by_cases h1 : typeAssert R (some b) ta.tv = true
    · simp [h1]
    · by_cases h2 : (!R.AssignableTo b.ty ta.tv && !R.ConvertibleTo b.ty ta.tv) = true
      · simp [h1, h2]
      · simp [h1, h2]
  refine ⟨?_, ?_, ?_⟩
  · rw [key]
    by_cases h1 : typeAssert R (some b) ta.tv = true
    · rw [if_pos h1]
      refine ⟨fun _ => ?_, fun _ => rfl⟩
      simp only [typeAssert] at h1
      by_cases hk : R.Kind ta.tv = GoKind.Interface
      · rw [if_pos hk] at h1
        exact Or.inr (Or.inl (R.implements_assignable _ _ hk h1))
      · rw [if_neg hk] at h1
        exact Or.inl (of_decide_eq_true h1)
    · rw [if_neg h1]
      by_cases h2 : (!R.AssignableTo b.ty ta.tv && !R.ConvertibleTo b.ty ta.tv) = true
      · rw [if_pos h2]
        simp only [Bool.and_eq_true, Bool.not_eq_true'] at h2
        constructor
        · intro h; exact Option.noConfusion h
        · rintro (h | h | h)
          · have h3 := h2.1
            rw [h, R.assignable_refl] at h3
            exact Bool.noConfusion h3
          · rw [h2.1] at h; exact Bool.noConfusion h
          · rw [h2.2] at h; exact Bool.noConfusion h
      · rw [if_neg h2]
        refine ⟨fun _ => ?_, fun _ => rfl⟩
        simp only [Bool.and_eq_true, Bool.not_eq_true', not_and, Bool.not_eq_false] at h2
        by_cases ha : R.AssignableTo b.ty ta.tv = true
        · exact Or.inr (Or.inl ha)
        · exact Or.inr (Or.inr (h2 (by simpa using ha)))
  · intro p' rc'
    rw [key, key]
  · rw [key]

/-- C4: a wildcard pattern tested against `nil` succeeds exactly when the kind of `T` is
interface, pointer, map, slice, func or chan, and for every other kind returns the error
"expected non-nil value of type T, got <nil>"; the comparator is not called. -/
theorem any_test_nil {Ty Val T : Type} [DecidableEq Ty] (R : Reflect Ty)
    (ta : TypeArg Ty Val T) (p : T) (rc : RuleContext Ty Val) :
    (((Any p).Test R ta rc none).1 = none ↔
        R.Kind ta.tv ∈ [GoKind.Interface, GoKind.Pointer, GoKind.Map, GoKind.Slice,
          GoKind.Func, GoKind.Chan]) ∧
      (Any p).Test R ta rc none =
        (if R.Kind ta.tv ∈ [GoKind.Interface, GoKind.Pointer, GoKind.Map, GoKind.Slice,
            GoKind.Func, GoKind.Chan] then none
          else some ("expected non-nil value of type " ++ R.typeName ta.tv ++ ", got <nil>"),
          rc) := by
  have key : (Any p).Test R ta rc none =
      (if nilAccepted (R.Kind ta.tv) = true then none
        else some ("expected non-nil value of type " ++ R.typeName ta.tv ++ ", got <nil>"),
        rc) := by
    simp only [Pattern.Test, Any, Pattern.IsPresent, Pattern.IsExplicit, typeAssert]
    by_cases h : nilAccepted (R.Kind ta.tv) = true <;> simp [h]
  have hk : nilAccepted (R.Kind ta.tv) = true ↔
      R.Kind ta.tv ∈ [GoKind.Interface, GoKind.Pointer, GoKind.Map, GoKind.Slice,
        GoKind.Func, GoKind.Chan] := by
    cases R.Kind ta.tv <;> simp [nilAccepted]
  rw [key]
  by_cases h : nilAccepted (R.Kind ta.tv) = true
  · rw [if_pos h, if_pos (hk.1 h)]
    exact ⟨⟨fun _ => hk.1 h, fun _ => rfl⟩, rfl⟩
  · have h' := fun hm => h (hk.2 hm)
    rw [if_neg h, if_neg h']
    exact ⟨⟨fun hh => Option.noConfusion hh, fun hm => absurd hm h'⟩, rfl⟩

/-- C5: an absent pattern returns exactly what the comparator answers for the expectation
`nil`, and an explicit pattern exactly what it answers for the stored value. -/
theorem absent_value_test_delegate {Ty Val T : Type} [DecidableEq Ty] (R : Reflect Ty)
    (ta : TypeArg Ty Val T) (v : T) (rc : RuleContext Ty Val) (actual : GoAny Ty Val) :
    (Absent ta).Test R ta rc actual = rc.Test none actual ∧
      (Value v).Test R ta rc actual = rc.Test (ta.toAny v) actual :=
  ⟨rfl, rfl⟩

/-- C6: `Absent` is not present, not explicit and not wildcard; `Any` is present, not
explicit and wildcard; `Value` is present, explicit and not wildcard; and on every pattern
built by one of the three, explicit implies present and wildcard equals present and not
explicit. -/
theorem constructed_pattern_states {Ty Val T : Type} (ta : TypeArg Ty Val T) (v : T) :
    ((Absent ta).IsPresent = false ∧ (Absent ta).IsExplicit = false ∧
        (Absent ta).IsWildcard = false) ∧
      ((Any v).IsPresent = true ∧ (Any v).IsExplicit = false ∧ (Any v).IsWildcard = true) ∧
      ((Value v).IsPresent = true ∧ (Value v).IsExplicit = true ∧
        (Value v).IsWildcard = false) ∧
      ∀ p : Pattern T, Constructed ta p →
        (p.IsExplicit = true → p.IsPresent = true) ∧
          p.IsWildcard = (p.IsPresent && !p.IsExplicit) := by
  refine ⟨⟨rfl, rfl, rfl⟩, ⟨rfl, rfl, rfl⟩, ⟨rfl, rfl, rfl⟩, ?_⟩
  intro p hp
  cases hp with
  | absent => exact ⟨fun h => Bool.noConfusion h, rfl⟩
  | any w => exact ⟨fun _ => rfl, rfl⟩
  | value w => exact ⟨fun _ => rfl, rfl⟩

/-- C7: when a path specification resolves to two or more files and `getFile` can hand
out a document for each (in cached mode the load is not served from the path cache), `load`
returns without error the merge of the files' documents taken in ascending order of path:
for a key held by several files the value of the greatest such path wins, the keys stand
in order of first appearance along the ascending paths, and the keys merged from any
initial stretch of the sorted paths keep their positions in the result. -/
theorem load_merges_in_path_order {Reg V : Type} (env : Env Reg V)
    (l : documentLoader Reg V) (path : String) (files : List String)
    (hres : resolve env path = (files, none)) (hlen : 2 ≤ files.length)
    (hdec : ∀ g ∈ files, l.Yields env g)
    (hmiss : l.cache = true → l.getPathCache path = none) :
    (l.load env path).1.2 = none ∧
      (l.load env path).1.1.entries =
        (mergeDocs ((sortStrings files).map (l.fileDoc env))).entries ∧
      (l.cache = false →
        (l.load env path).1.1 = mergeDocs ((sortStrings files).map (docOf env l.reg))) ∧
      (sortStrings files).Sorted (fun a b => a.data ≤ b.data) ∧
      (sortStrings files).Perm files ∧
      (∀ x ∈ (l.load env path).1.1.entries, ∀ f ∈ files,
        x.Key ∈ (l.fileDoc env f).entries.map Entry.Key →
        (∀ g ∈ files, x.Key ∈ (l.fileDoc env g).entries.map Entry.Key → g.data ≤ f.data) →
        lastValue (l.fileDoc env f).entries x.Key = some x.Value) ∧
      (l.load env path).1.1.entries.map Entry.Key =
        firstAppearance
          ((allEntries ((sortStrings files).map (l.fileDoc env))).map Entry.Key) ∧
      (∀ pre post, sortStrings files = pre ++ post →
        (mergeDocs (pre.map (l.fileDoc env))).entries.map Entry.Key <+:
          (l.load env path).1.1.entries.map Entry.Key) := by
  have hperm := sortStrings_perm files
  obtain ⟨docs, l', hrf, hents, hun, _, _, _⟩ :=
    readFiles_yields env (sortStrings files) l (fun g hg => hdec g (hperm.mem_iff.1 hg))
  have hlp : l.loadPath env path = ((mergeDocs docs, none), l') := by
    rw [loadPath_multi env l path files hres hlen, hrf]
  have hall : allEntries docs = allEntries ((sortStrings files).map (l.fileDoc env)) :=
    allEntries_congr _ _ (by rw [hents, List.map_map]; rfl)
  have hme : (mergeDocs docs).entries =
      (mergeDocs ((sortStrings files).map (l.fileDoc env))).entries := by
    rw [mergeDocs_entries, mergeDocs_entries, hall]
  have hload : (l.load env path).1.2 = none ∧
      (l.load env path).1.1.entries = (mergeDocs docs).entries ∧
      (l.cache = false → (l.load env path).1.1 = mergeDocs docs) := by
    rcases Bool.eq_false_or_eq_true l.cache with hc | hc
    · rw [load_miss_ok env l l' path _ hc (hmiss hc) hlp]
      exact ⟨rfl, rfl, fun h => by rw [hc] at h; exact Bool.noConfusion h⟩
    · rw [load_uncached env l path hc, hlp]
      exact ⟨rfl, rfl, fun _ => rfl⟩
  obtain ⟨h1, h2, h3⟩ := hload
  have hkeys : (l.load env path).1.1.entries.map Entry.Key =
      firstAppearance
        ((allEntries ((sortStrings files).map (l.fileDoc env))).map Entry.Key) := by
    rw [h2, hme, keys_mergeDocs]
  refine ⟨h1, h2.trans hme, ?_, sortStrings_sorted files, hperm, ?_, hkeys, ?_⟩
  · intro hc
    rw [h3 hc, (hun hc).1]
  · intro x hx f hf hk hmax
    rw [h2, hme, mergeDocs_entries] at hx
    have hv := values_foldl_upsert _ x hx
    rw [lastValue_greatest (l.fileDoc env) x.Key (sortStrings files)
      (sortStrings_sorted files) f (hperm.mem_iff.2 hf) hk
      (fun g hg => hmax g (hperm.mem_iff.1 hg))] at hv
    exact hv
  · intro pre post hsplit
    rw [hkeys, keys_mergeDocs, hsplit, List.map_append, allEntries_append, List.map_append]
    exact firstAppearance_append_left _ _

/-- C7 on directory `/d` of the demo file system, with a fresh caching loader. -/
theorem load_merges_in_path_order_witness :
    ((newDocumentLoader () true : documentLoader Unit Nat).load demoEnv "/d").1.2 = none ∧
      ((newDocumentLoader () true : documentLoader Unit Nat).load demoEnv "/d").1.1.entries =
        (mergeDocs ((sortStrings ["/d/a.JSON", "/d/b.json"]).map
          ((newDocumentLoader () true : documentLoader Unit Nat).fileDoc demoEnv))).entries := by
  have h := load_merges_in_path_order demoEnv (newDocumentLoader () true) "/d"
    ["/d/a.JSON", "/d/b.json"] rfl (by decide)
    (by
      intro g hg
      simp only [List.mem_cons, List.mem_singleton, List.not_mem_nil, or_false] at hg
      rcases hg with rfl | rfl
      · exact Or.inr ⟨some [⟨"x", 1⟩, ⟨"y", 2⟩], rfl⟩
      · exact Or.inr ⟨some [⟨"y", 9⟩, ⟨"z", 3⟩], rfl⟩)
    (fun _ => rfl)
  exact ⟨h.1, h.2.1⟩

/-- C8: when a path specification resolves to two or more files and, in merge order, the
files before `f` yield a document while decoding `f` fails, `load` returns the `nil`
document with the error of `f`; `f` is the last file opened and every file opened during
the call stands before `f`, and nothing is stored in the path cache. -/
theorem load_aborts_on_first_decode_error {Reg V : Type} (env : Env Reg V)
    (l : documentLoader Reg V) (path : String) (files pre post : List String) (f e : String)
    (hres : resolve env path = (files, none)) (hlen : 2 ≤ files.length)
    (hsort : sortStrings files = pre ++ f :: post)
    (hpre : ∀ g ∈ pre, l.Yields env g)
    (hf : decodeFile env l.reg f = .error e)
    (hfc : l.cache = true → l.getFileCache f = none)
    (hmiss : l.cache = true → l.getPathCache path = none) :
    (l.load env path).1 = (none, some e) ∧
      (∃ t, (l.load env path).2.opened = l.opened ++ t ++ [f] ∧ ∀ g ∈ t, g ∈ pre) ∧
      (l.cache = false → (l.load env path).2.opened = l.opened ++ pre ++ [f]) ∧
      (l.load env path).2.pathCache = l.pathCache := by
  obtain ⟨docs, l', hrf, _, hp', hop, hun⟩ :=
    readFiles_fail env f post e pre l hpre hf hfc
  have hlp : l.loadPath env path = ((none, some e), l') := by
    rw [loadPath_multi env l path files hres hlen, hsort, hrf]
  rw [load_of_loadPath_err env l l' path e hmiss hlp]
  exact ⟨rfl, hop, hun, hp'⟩

/-- C8 on directory `/e` of the demo file system: `a.json` decodes, `bad.json` does not,
and `ok.json` is not opened. -/
theorem load_aborts_on_first_decode_error_witness :
    ((newDocumentLoader () false : documentLoader Unit Nat).load demoEnv "/e").1 =
        (none, some "jsontext: invalid character") ∧
      ((newDocumentLoader () false : documentLoader Unit Nat).load demoEnv "/e").2.opened =
        [] ++ ["/e/a.json"] ++ ["/e/bad.json"] := by
  have h := load_aborts_on_first_decode_error demoEnv (newDocumentLoader () false) "/e"
    ["/e/a.json", "/e/bad.json", "/e/ok.json"] ["/e/a.json"] ["/e/ok.json"] "/e/bad.json"
    "jsontext: invalid character" rfl (by decide) (by decide)
    (by
      intro g hg
      rw [List.mem_singleton.1 hg]
      exact Or.inr ⟨some [⟨"x", 1⟩, ⟨"y", 2⟩], rfl⟩)
    rfl (fun _ => rfl) (fun _ => rfl)
  exact ⟨h.1, h.2.2.1 rfl⟩

/-- C9 as stated fails on a caching loader: after `/d/b.json` has been loaded and then
removed, the path does not exist, yet `load` returns the cached document and no error. -/
theorem load_missing_path_cached_succeeds :
    Unusable demoEnvRemoved "/d/b.json" ∧
      ((newDocumentLoader () true : documentLoader Unit Nat).load demoEnv "/d/b.json").2.cache
        = true ∧
      (((newDocumentLoader () true : documentLoader Unit Nat).load demoEnv "/d/b.json").2.load
        demoEnvRemoved "/d/b.json").1 = (some [⟨"y", 9⟩, ⟨"z", 3⟩], none) :=
  ⟨Unusable.missing "stat: no such file or directory" rfl (by decide), by decide, by decide⟩

/-- C9 (amended): loading a path that does not exist, a directory with no usable fixture
file, a glob pattern that matches no usable file, or an existing file with an unrecognized
extension returns the `nil` document and an error, and leaves the loader as it was, in
uncached mode and in cached mode when the path cache holds no document for that path. -/
theorem load_unusable_fails {Reg V : Type} (env : Env Reg V) (l : documentLoader Reg V)
    (path : String) (hbad : Unusable env path)
    (hmiss : l.cache = true → l.getPathCache path = none) :
    ∃ err, l.load env path = ((none, some err), l) := by
  rcases resolve_unusable env path hbad with h | ⟨e, h⟩
  · exact ⟨"no json files resolved",
      load_of_loadPath_err env l l path _ hmiss (loadPath_resolve_empty env l path h)⟩
  · exact ⟨e, load_of_loadPath_err env l l path e hmiss (loadPath_resolve_err env l path [] e h)⟩

/-- C9 (amended) on the empty directory of the demo file system, with a caching loader. -/
theorem load_unusable_fails_witness :
    ∃ err, (newDocumentLoader () true : documentLoader Unit Nat).load demoEnv "/empty" =
      ((none, some err), newDocumentLoader () true) :=
  load_unusable_fails demoEnv (newDocumentLoader () true) "/empty"
    (Unusable.emptyDir ⟨FileType.Dir⟩ [] rfl rfl rfl (fun _ h => absurd h (List.not_mem_nil _)))
    (fun _ => rfl)

/-- C10: for a path that names an existing file which is not a directory, `resolve`
returns the one-element list holding that path, without error, exactly when the path ends
with `.json` compared case-insensitively; otherwise it returns no file and the error
"not a json file". -/
theorem resolve_existing_file {Reg V : Type} (env : Env Reg V) (path : String)
    (info : FileInfo) (hstat : env.Stat path = .ok info) (hfile : info.IsDir = false) :
    (resolve env path = ([path], none) ↔ EndsWithJSONFold path) ∧
      (¬ EndsWithJSONFold path → resolve env path = ([], some "not a json file")) := by
  have hres : resolve env path =
      if isJSONFile path = true then ([path], none) else ([], some "not a json file") := by
    unfold resolve
    rw [hstat]
    simp only [hfile]
    by_cases hj : isJSONFile path = true <;> simp [hj]
  rw [hres, ← isJSONFile_iff]
  by_cases hj : isJSONFile path = true
  · simp [hj]
  · simp [hj]

/-- C10 at `/d/a.JSON` of the demo file system. -/
theorem resolve_existing_file_witness :
    (resolve demoEnv "/d/a.JSON" = (["/d/a.JSON"], none) ↔ EndsWithJSONFold "/d/a.JSON") ∧
      (¬ EndsWithJSONFold "/d/a.JSON" →
        resolve demoEnv "/d/a.JSON" = ([], some "not a json file")) :=
  resolve_existing_file demoEnv "/d/a.JSON" ⟨FileType.Regular⟩ rfl rfl

/-- C11 as stated fails: in directory `/s` the symbolic link `link.json` and the named
pipe `pipe.JSON` are not regular files, yet `resolve` returns them next to `real.json`;
only the directory `sub.json` is left out. -/
theorem resolve_keeps_non_regular :
    demoEnvLinks.ReadDir "/s" =
        .ok [⟨"link.json", FileType.Symlink⟩, ⟨"notes.txt", FileType.Regular⟩,
          ⟨"pipe.JSON", FileType.NamedPipe⟩, ⟨"real.json", FileType.Regular⟩,
          ⟨"sub.json", FileType.Dir⟩] ∧
      resolve demoEnvLinks "/s" = (["/s/link.json", "/s/pipe.JSON", "/s/real.json"], none) :=
  ⟨rfl, by decide⟩

/-- C11 (amended): for a path naming an existing, readable directory, `resolve` returns, in
the order of the listing and each joined to the directory path, exactly the direct entries
that are not directories and whose name ends with `.json` in any case; directories are
left out, entries that are neither directories nor regular files are kept. -/
theorem resolve_directory {Reg V : Type} (env : Env Reg V) (path : String) (info : FileInfo)
    (ents : List DirEntry) (hstat : env.Stat path = .ok info) (hdir : info.IsDir = true)
    (hread : env.ReadDir path = .ok ents) :
    (resolve env path).2 = none ∧
      (resolve env path).1 =
        (ents.filter (fun e => decide (e.Mode ≠ FileType.Dir) && isJSONFile e.Name)).map
          (fun e => env.Join path e.Name) ∧
      (∀ p, p ∈ (resolve env path).1 ↔
        ∃ e ∈ ents, e.Mode ≠ FileType.Dir ∧ EndsWithJSONFold e.Name ∧
          p = env.Join path e.Name) ∧
      (∀ e ∈ ents, e.Mode = FileType.Regular → EndsWithJSONFold e.Name →
        env.Join path e.Name ∈ (resolve env path).1) := by
  have hfilter : ents.filter (fun e => !e.IsDir && isJSONFile e.Name) =
      ents.filter (fun e => decide (e.Mode ≠ FileType.Dir) && isJSONFile e.Name) := by
    apply List.filter_congr
    intro e _
    by_cases h : e.Mode = FileType.Dir <;> simp [DirEntry.IsDir, h]
  have hmem : ∀ p, p ∈ (resolve env path).1 ↔
      ∃ e ∈ ents, e.Mode ≠ FileType.Dir ∧ EndsWithJSONFold e.Name ∧
        p = env.Join path e.Name := by
    intro p
    rw [resolve_dir env path info ents hstat hdir hread, hfilter]
    simp only [List.mem_map, List.mem_filter, Bool.and_eq_true, decide_eq_true_eq,
      isJSONFile_iff]
    constructor
    · rintro ⟨e, ⟨he, hm, hj⟩, rfl⟩
      exact ⟨e, he, hm, hj, rfl⟩
    · rintro ⟨e, he, hm, hj, rfl⟩
      exact ⟨e, ⟨he, hm, hj⟩, rfl⟩
  refine ⟨?_, ?_, hmem, ?_⟩
  · rw [resolve_dir env path info ents hstat hdir hread]
  · rw [resolve_dir env path info ents hstat hdir hread, hfilter]
  · intro e he hreg hj
    exact (hmem _).2 ⟨e, he, by rw [hreg]; decide, hj, rfl⟩

/-- C11 (amended) on directory `/d` of the demo file system. -/
theorem resolve_directory_witness :
    (resolve demoEnv "/d").2 = none ∧
      (resolve demoEnv "/d").1 =
        (([⟨"a.JSON", FileType.Regular⟩, ⟨"b.json", FileType.Regular⟩,
          ⟨"notes.txt", FileType.Regular⟩, ⟨"sub", FileType.Dir⟩] : List DirEntry).filter
            (fun e => decide (e.Mode ≠ FileType.Dir) && isJSONFile e.Name)).map
          (fun e => demoEnv.Join "/d" e.Name) := by
  have h := resolve_directory demoEnv "/d" ⟨FileType.Dir⟩ _ rfl rfl rfl
  exact ⟨h.1, h.2.1⟩

/-- C12 as stated fails: a missing path and an empty directory both yield zero usable
files, yet `load` reports "path not found" for the first and "no json files resolved" for
the second. -/
theorem load_missing_error_differs :
    Unusable demoEnv "/nope.json" ∧ Unusable demoEnv "/empty" ∧
      ((newDocumentLoader () false : documentLoader Unit Nat).load demoEnv "/nope.json").1 =
        (none, some "path not found") ∧
      ((newDocumentLoader () false : documentLoader Unit Nat).load demoEnv "/empty").1 =
        (none, some "no json files resolved") :=
  ⟨Unusable.missing "stat: no such file or directory" rfl (by decide),
    Unusable.emptyDir ⟨FileType.Dir⟩ [] rfl rfl rfl (fun _ h => absurd h (List.not_mem_nil _)),
    by decide, by decide⟩

/-- C12 (amended): when the load is not served from the path cache, an existing directory
without a usable entry and a glob pattern without a usable match (none at all, or all
filtered out) fail with the same error "no json files resolved", while a path that does not
exist and is no glob pattern fails with the different error "path not found"; each leaves
the loader as it was. -/
theorem load_zero_files_errors {Reg V : Type} (env : Env Reg V) (l : documentLoader Reg V)
    (path : String) (hmiss : l.cache = true → l.getPathCache path = none) :
    (∀ e, env.Stat path = .error e → ContainsAny path "*?[" = false →
        l.load env path = ((none, some "path not found"), l)) ∧
      (∀ info ents, env.Stat path = .ok info → info.IsDir = true →
        env.ReadDir path = .ok ents →
        (∀ e ∈ ents, e.IsDir = true ∨ isJSONFile e.Name = false) →
        l.load env path = ((none, some "no json files resolved"), l)) ∧
      (∀ e found, env.Stat path = .error e → ContainsAny path "*?[" = true →
        env.Glob path = .ok found → (∀ m ∈ found, keepMatch env m = false) →
        l.load env path = ((none, some "no json files resolved"), l)) := by
  refine ⟨?_, ?_, ?_⟩
  · intro e hstat hglob
    exact load_of_loadPath_err env l l path _ hmiss
      (loadPath_resolve_err env l path [] _ (resolve_missing env path e hstat hglob))
  · intro info ents hstat hdir hread hnone
    have hf : ents.filter (fun e => !e.IsDir && isJSONFile e.Name) = [] := by
      rw [List.filter_eq_nil_iff]
      intro e he
      rcases hnone e he with h | h <;> simp [h]
    have hres : resolve env path = ([], none) := by
      rw [resolve_dir env path info ents hstat hdir hread, hf]; rfl
    exact load_of_loadPath_err env l l path _ hmiss (loadPath_resolve_empty env l path hres)
  · intro e found hstat hglob hfound hnone
    have hf : found.filter (keepMatch env) = [] := by
      rw [List.filter_eq_nil_iff]
      intro m hm
      simp [hnone m hm]
    have hres : resolve env path = ([], none) := by
      rw [resolve_glob env path e found hstat hglob hfound, hf]
    exact load_of_loadPath_err env l l path _ hmiss (loadPath_resolve_empty env l path hres)

/-- C12 (amended) with a fresh caching loader on the demo file system, where `/d/*.txt`
is a glob pattern without a match. -/
theorem load_zero_files_errors_witness :
    (newDocumentLoader () true : documentLoader Unit Nat).load demoEnv "/d/*.txt" =
      ((none, some "no json files resolved"), newDocumentLoader () true) :=
  (load_zero_files_errors demoEnv (newDocumentLoader () true) "/d/*.txt" (fun _ => rfl)).2.2
    "stat: no such file or directory" [] rfl (by decide) rfl
    (fun _ h => absurd h (List.not_mem_nil _))

/-- C14: when the path cache of a caching loader holds a non-nil document under the
requested specification, `load` returns that document, entry for entry, without error and
leaves the loader as it was (both caches, and no file opened); the outcome is the same for
every file system. -/
theorem load_served_from_path_cache {Reg V : Type} (env : Env Reg V)
    (l : documentLoader Reg V) (path : String) (es : List (Entry V))
    (hc : l.cache = true) (hh : l.getPathCache path = some es) :
    l.load env path = ((some es, none), l) ∧
      (l.load env path).1.1.entries = es ∧
      (l.load env path).2.pathCache = l.pathCache ∧
      (l.load env path).2.fileCache = l.fileCache ∧
      (l.load env path).2.opened = l.opened ∧
      ∀ env2 : Env Reg V, l.load env2 path = l.load env path := by
  have h := load_hit env l path es hc hh
  refine ⟨h, by rw [h]; rfl, by rw [h], by rw [h], by rw [h], ?_⟩
  intro env2
  rw [h, load_hit env2 l path es hc hh]

/-- C14 with the document of `/d/b.json` in the path cache and the file removed. -/
theorem load_served_from_path_cache_witness :
    ((newDocumentLoader () true : documentLoader Unit Nat).load demoEnv "/d/b.json").2.load
        demoEnvRemoved "/d/b.json" =
      ((some [⟨"y", 9⟩, ⟨"z", 3⟩], none),
        ((newDocumentLoader () true : documentLoader Unit Nat).load demoEnv "/d/b.json").2) :=
  (load_served_from_path_cache demoEnvRemoved
    ((newDocumentLoader () true : documentLoader Unit Nat).load demoEnv "/d/b.json").2
    "/d/b.json" [⟨"y", 9⟩, ⟨"z", 3⟩] rfl rfl).1

/-- C15, which the code breaks: with the `nil` document in the path cache of a caching
loader under `/d/b.json` and the file valid, `load` returns the document of the file and no
error and puts that document in the slot, where the claim and the test `cache contains nil
returns error` require an error and no document. -/
theorem load_nil_slot_succeeds :
    demoNilSlot.cache = true ∧ demoNilSlot.pathCache "/d/b.json" = some none ∧
      (demoNilSlot.load demoEnv "/d/b.json").1 = (some [⟨"y", 9⟩, ⟨"z", 3⟩], none) ∧
      (demoNilSlot.load demoEnv "/d/b.json").2.pathCache "/d/b.json" =
        some (some [⟨"y", 9⟩, ⟨"z", 3⟩]) :=
  ⟨rfl, rfl, by decide, by decide⟩

/-- What `load` does where the path cache of a caching loader holds the `nil` document
under the requested specification: it reads the slot as a missing key and returns the
error of `loadPath`, with the `nil` document and an unchanged path cache when there is
one, and otherwise a copy of the loaded document, which it puts in the slot. The test
`cache contains nil returns error` meets the first case only, its file being empty. -/
theorem load_nil_slot {Reg V : Type} (env : Env Reg V) (l : documentLoader Reg V)
    (path : String) (hc : l.cache = true) (hnil : l.pathCache path = some none) :
    (l.load env path).1.2 = (l.loadPath env path).1.2 ∧
      ((l.loadPath env path).1.2 ≠ none →
        (l.load env path).1.1 = none ∧ (l.load env path).2.pathCache = l.pathCache) ∧
      ((l.loadPath env path).1.2 = none →
        (l.load env path).1.1 = copyDoc (l.loadPath env path).1.1 ∧
          (l.load env path).2.pathCache path = some (l.loadPath env path).1.1) := by
  have hm : l.getPathCache path = none := by
    simp [documentLoader.getPathCache, hnil]
  obtain ⟨h1, h2, h3⟩ := load_miss env l path hc hm
  refine ⟨h1, ?_, ?_⟩
  · intro herr
    obtain ⟨h4, h5⟩ := h3 herr
    exact ⟨h4, by rw [h5]; exact (loadPath_frame env l path).1⟩
  · intro hok
    rw [h2 hok]
    refine ⟨rfl, ?_⟩
    simp [documentLoader.setPathCache, GoMap.set]

/-- The `nil` slot under `/d/b.json` with the file missing: the error is the one of
`loadPath`. -/
theorem load_nil_slot_witness :
    (demoNilSlot.load demoEnvRemoved "/d/b.json").1.2 =
      (demoNilSlot.loadPath demoEnvRemoved "/d/b.json").1.2 :=
  (load_nil_slot demoEnvRemoved demoNilSlot "/d/b.json" rfl rfl).1

/-- C16 as stated fails: the load of `/e` fails on `bad.json` after `a.json` was decoded;
once `bad.json` is repaired the next load succeeds, but it opens only `bad.json` and
`ok.json`: `a.json` comes from the file cache and is not decoded again. -/
theorem retry_reuses_file_cache :
    ((newDocumentLoader () true : documentLoader Unit Nat).load demoEnv "/e").1 =
        (none, some "jsontext: invalid character") ∧
      ((newDocumentLoader () true : documentLoader Unit Nat).load demoEnv "/e").2.opened =
        ["/e/a.json", "/e/bad.json"] ∧
      (((newDocumentLoader () true : documentLoader Unit Nat).load demoEnv "/e").2.load
        demoEnvRepaired "/e").1.2 = none ∧
      (((newDocumentLoader () true : documentLoader Unit Nat).load demoEnv "/e").2.load
        demoEnvRepaired "/e").2.opened =
        ["/e/a.json", "/e/bad.json", "/e/bad.json", "/e/ok.json"] :=
  ⟨by decide, by decide, by decide, by decide⟩

/-- C16 (amended): a load of a caching loader that fails returns the `nil` document and
leaves the path cache as it was, with nothing under the specification. Of the file cache it
keeps every document held before, adds the document of every file it opened that decoded
to one (it opens only files the cache did not hold), and adds nothing for a file that did
not decode. So the next load of the specification is not served from the path cache but
runs `loadPath` again; once the specification resolves to files that all decode it
succeeds, and the files it opens are exactly the resolved files of which the file cache
holds no document: the files decoded before the failure are served from the file cache
and not opened again. -/
theorem failed_load_not_cached {Reg V : Type} (env : Env Reg V) (l : documentLoader Reg V)
    (path : String) (e : String) (hc : l.cache = true)
    (hfail : (l.load env path).1.2 = some e) :
    (l.load env path).1.1 = none ∧
      (l.load env path).2.pathCache = l.pathCache ∧
      (l.load env path).2.getPathCache path = none ∧
      (∀ g, (l.load env path).2.getFileCache g ≠ none →
        l.getFileCache g ≠ none ∨ ∃ d, decodeFile env l.reg g = .ok d) ∧
      (∃ t, (l.load env path).2.opened = l.opened ++ t ∧
        (∀ g ∈ t, l.getFileCache g = none) ∧
        (∀ g ∈ t, ∀ es, decodeFile env l.reg g = .ok (some es) →
          (l.load env path).2.getFileCache g = some es) ∧
        (∀ g es, l.getFileCache g = some es →
          (l.load env path).2.getFileCache g = some es)) ∧
      (∀ (env2 : Env Reg V) (files : List String), resolve env2 path = (files, none) →
        files ≠ [] → (∀ g ∈ files, ∃ d, decodeFile env2 l.reg g = .ok d) →
        ((l.load env path).2.load env2 path).1.2 = none ∧
          ((l.load env path).2.load env2 path).1.1 =
            copyDoc ((l.load env path).2.loadPath env2 path).1.1 ∧
          ∃ t2, ((l.load env path).2.load env2 path).2.opened =
              (l.load env path).2.opened ++ t2 ∧
            ∀ g, g ∈ t2 ↔ g ∈ files ∧ (l.load env path).2.getFileCache g = none) := by
  have hm : l.getPathCache path = none := by
    cases hh : l.getPathCache path with
    | none => rfl
    | some es =>
      rw [load_hit env l path es hc hh] at hfail
      exact Option.noConfusion hfail
  obtain ⟨h1, _, h3⟩ := load_miss env l path hc hm
  have herr : (l.loadPath env path).1.2 ≠ none := by
    rw [← h1, hfail]; exact Option.noConfusion
  obtain ⟨h4, h5⟩ := h3 herr
  obtain ⟨hp, hcc, hr, _, hf⟩ := loadPath_frame env l path
  have hm' : (l.load env path).2.getPathCache path = none := by
    rw [h5]
    unfold documentLoader.getPathCache at hm ⊢
    rw [hp]; exact hm
  have hc' : (l.load env path).2.cache = true := by rw [h5, hcc]; exact hc
  have hr' : (l.load env path).2.reg = l.reg := by rw [h5]; exact hr
  refine ⟨h4, by rw [h5]; exact hp, hm', ?_, ?_, ?_⟩
  · intro g hg
    rw [h5] at hg
    exact hf g hg
  · obtain ⟨t, t1, t2, t3, t4, _⟩ := loadPath_trace env l path hc
    rw [h5]
    refine ⟨t, t1, fun g hg => (t2 g hg).1, ?_, t3⟩
    intro g hg es hd
    exact t4 g hg es (docOf_ok env l.reg g (some es) hd)
  · intro env2 files hres hne hdec
    obtain ⟨k1, k2, _⟩ := load_miss env2 (l.load env path).2 path hc' hm'
    have hok : ((l.load env path).2.loadPath env2 path).1.2 = none :=
      loadPath_yields env2 _ path files hres hne
        (fun g hg => Or.inr (by rw [hr']; exact hdec g hg))
    refine ⟨by rw [k1]; exact hok, by rw [k2 hok], ?_⟩
    obtain ⟨t2, u1, u2, _, _, u5⟩ := loadPath_trace env2 (l.load env path).2 path hc'
    rw [hres] at u2 u5
    refine ⟨t2, ?_, ?_⟩
    · rw [k2 hok]
      exact u1
    · intro g
      constructor
      · intro hg
        exact ⟨(u2 g hg).2, (u2 g hg).1⟩
      · rintro ⟨hg1, hg2⟩
        exact u5 hok g hg1 hg2

/-- C16 (amended) on directory `/e` of the demo file system, repaired before the retry:
the failed load leaves `a.json` in the file cache and nothing for `bad.json`; the retry
succeeds and opens `bad.json` and `ok.json` only. -/
theorem failed_load_not_cached_witness :
    ((newDocumentLoader () true : documentLoader Unit Nat).load demoEnv "/e").1.1 = none ∧
      (((newDocumentLoader () true : documentLoader Unit Nat).load demoEnv "/e").2.load
        demoEnvRepaired "/e").1.2 = none ∧
      ((newDocumentLoader () true : documentLoader Unit Nat).load demoEnv
        "/e").2.getFileCache "/e/a.json" = some [⟨"x", 1⟩, ⟨"y", 2⟩] ∧
      ((newDocumentLoader () true : documentLoader Unit Nat).load demoEnv
        "/e").2.getFileCache "/e/bad.json" = none ∧
      (((newDocumentLoader () true : documentLoader Unit Nat).load demoEnv "/e").2.load
        demoEnvRepaired "/e").2.opened =
        ((newDocumentLoader () true : documentLoader Unit Nat).load demoEnv "/e").2.opened ++
          ["/e/bad.json", "/e/ok.json"] := by
  have h := failed_load_not_cached demoEnv (newDocumentLoader () true) "/e"
    "jsontext: invalid character" rfl (by decide)
  refine ⟨h.1, (h.2.2.2.2.2 demoEnvRepaired ["/e/a.json", "/e/bad.json", "/e/ok.json"] rfl
    (by decide) ?_).1, by decide, by decide, by decide⟩
  intro g hg
  simp only [List.mem_cons, List.mem_singleton, List.not_mem_nil, or_false] at hg
  rcases hg with rfl | rfl | rfl
  · exact ⟨some [⟨"x", 1⟩, ⟨"y", 2⟩], rfl⟩
  · exact ⟨some [⟨"y", 9⟩, ⟨"z", 3⟩], rfl⟩
  · exact ⟨some [⟨"ok", 1⟩], rfl⟩

/-- C18 as stated fails for `Driver.Seed`: the tree `demoRoot` is well shaped and
`toBSONCollections` converts it, yet `Seed` fails, because the store refuses the write. -/
theorem seed_fails_on_well_shaped_tree :
    WellShaped demoRoot ∧ (toBSONCollections demoFmt demoRoot).2 = none ∧
      (Driver.Seed demoDB demoFmt id demoRoot).1 =
        (none, some "bulk write error: bulk write to collection \"users\": write refused") := by
  refine ⟨?_, rfl, rfl⟩
  intro e he
  simp only [demoRoot, Document.entries, List.mem_cons, List.mem_singleton,
    List.not_mem_nil, or_false] at he
  rcases he with rfl | rfl
  · refine ⟨_, rfl, ?_⟩
    intro el hel
    simp only [elems, List.mem_cons, List.mem_singleton, List.not_mem_nil, or_false] at hel
    rcases hel with rfl | rfl
    · exact ⟨_, rfl⟩
    · exact ⟨_, rfl⟩
  · refine ⟨_, rfl, ?_⟩
    intro el hel
    simp only [elems, List.mem_cons, List.mem_singleton, List.not_mem_nil, or_false] at hel
    rcases hel with rfl
    exact ⟨_, rfl⟩

/-- C18 (amended): `toBSONCollections` succeeds exactly when every top-level entry holds an
array whose elements are all documents; otherwise it returns the `nil` map and an error
naming the first offending top-level key in document order and, when the offender is an
array element, the index of the first element of that array that is no document.
`Driver.Seed` returns that error, wrapped, without issuing a write, and succeeds only on a
well-shaped tree. -/
theorem toBSONCollections_shape (fmt : Fmt) (root : Document GoVal) :
    ((toBSONCollections fmt root).2 = none ↔ WellShaped root) ∧
      ((toBSONCollections fmt root).2 ≠ none → (toBSONCollections fmt root).1 = none) ∧
      (∀ pre top post, root.entries = pre ++ top :: post → (∀ e ∈ pre, ShapedEntry e) →
        (∀ arr, top.Value ≠ .jarr arr) →
        toBSONCollections fmt root = (none, some (notArrayError fmt top.Key top.Value))) ∧
      (∀ pre top post arr epre el epost, root.entries = pre ++ top :: post →
        (∀ e ∈ pre, ShapedEntry e) → top.Value = .jarr arr →
        elems arr = epre ++ el :: epost → (∀ x ∈ epre, x.IsDocument) → ¬ el.IsDocument →
        toBSONCollections fmt root =
          (none, some (notDocumentError fmt top.Key epre.length el))) ∧
      (∀ (db : MongoDB) (visit : Collections → Collections), ¬ WellShaped root →
        ∃ err, (toBSONCollections fmt root).2 = some err ∧
          Driver.Seed db fmt visit root =
            ((none, some ("convert jwalk to bson: " ++ err)), [])) ∧
      (∀ (db : MongoDB) (visit : Collections → Collections),
        (Driver.Seed db fmt visit root).1.2 = none → WellShaped root) := by
  obtain ⟨h1, h2, _⟩ := convertFields_result fmt root.entries []
  refine ⟨h1, h2, ?_, ?_, ?_, ?_⟩
  · intro pre top post hsplit hpre hna
    obtain ⟨cols', hc⟩ := convertFields_shaped fmt (top :: post) pre [] hpre
    unfold toBSONCollections
    rw [hsplit, hc, convertFields_not_array fmt top post cols' hna]
  · intro pre top post arr epre el epost hsplit hpre harr hel hdocs hbad
    obtain ⟨cols', hc⟩ := convertFields_shaped fmt (top :: post) pre [] hpre
    unfold toBSONCollections
    rw [hsplit, hc, convertFields_array fmt top post cols' arr harr, hel,
      convertElements_first_bad fmt top.Key el epost hbad epre 0 hdocs, Nat.zero_add]
  · intro db visit hbad
    rcases hc : toBSONCollections fmt root with ⟨cols, err⟩
    cases err with
    | none => exact absurd (h1.1 (by unfold toBSONCollections at hc; rw [hc])) hbad
    | some e => exact ⟨e, rfl, seed_convert_error db fmt visit root cols e hc⟩
  · intro db visit hok
    exact h1.1 (seed_ok_converted db fmt visit root hok)

/-- C19: when the store reports distinct collection names, in whatever order, and every
collection can be read, `Snapshot` returns without error a document with one entry per
collection, keys in strictly ascending order, each holding the array of the converted
records of its collection in the order the store returned them; when a collection cannot
be read, `Snapshot` returns the `nil` document and the error of the first such collection
in the reported order. -/
theorem snapshot_sorted_by_name (db : MongoDB) (fmt : Fmt) (colNames : List String)
    (hnames : db.ListCollectionNames = .ok colNames) (hnodup : colNames.Nodup) :
    ((∀ c ∈ colNames, Readable db c) →
        ∃ es, Driver.Snapshot db fmt = (some es, none) ∧
          (es.map Entry.Key).Perm colNames ∧ es.length = colNames.length ∧
          (es.map Entry.Key).Pairwise (fun a b => a.data < b.data) ∧
          ∀ x ∈ es, ∃ cur docs, db.Find x.Key = .ok cur ∧ cur.All = .ok docs ∧
            x.Value = .jarr (some ((elems docs).map toValue))) ∧
      (∀ pre c post e, colNames = pre ++ c :: post → (∀ p ∈ pre, Readable db p) →
        db.Find c = .error e →
        Driver.Snapshot db fmt =
          (none, some ("find in collection " ++ fmt.q c ++ ": " ++ e))) ∧
      (∀ pre c post cur e, colNames = pre ++ c :: post → (∀ p ∈ pre, Readable db p) →
        db.Find c = .ok cur → cur.All = .error e →
        Driver.Snapshot db fmt =
          (none, some ("decode documents in collection " ++ fmt.q c ++ ": " ++ e))) := by
  refine ⟨?_, ?_, ?_⟩
  · intro hread
    obtain ⟨es, hes, hkeys, hvals⟩ := snapshotLoop_readable db fmt colNames [] hread
    rw [List.nil_append] at hes
    have hperm := sortByKey_perm es
    refine ⟨sortByKey es, by simp only [Driver.Snapshot, hnames, hes], ?_, ?_, ?_, ?_⟩
    · rw [← hkeys]; exact hperm.map Entry.Key
    · rw [hperm.length_eq, ← hkeys, List.length_map]
    · exact sortByKey_strict es (by rw [hkeys]; exact hnodup)
    · intro x hx
      exact hvals x (hperm.mem_iff.1 hx)
  · intro pre c post e hsplit hpre hf
    have := (snapshotLoop_fail db fmt c post pre [] hpre).1 e hf
    simp only [Driver.Snapshot, hnames, hsplit, this]
  · intro pre c post cur e hsplit hpre hf ha
    have := (snapshotLoop_fail db fmt c post pre [] hpre).2 cur e hf ha
    simp only [Driver.Snapshot, hnames, hsplit, this]

/-- C19 on the demo store: `users` and `posts` are read and returned in ascending order,
and with `logs` unreadable the snapshot fails on it. -/
theorem snapshot_sorted_by_name_witness :
    (∃ es, Driver.Snapshot demoDBReadable demoFmt = (some es, none) ∧
        (es.map Entry.Key).Perm ["users", "posts"] ∧ es.length = ["users", "posts"].length ∧
        (es.map Entry.Key).Pairwise (fun a b => a.data < b.data) ∧
        ∀ x ∈ es, ∃ cur docs, demoDBReadable.Find x.Key = .ok cur ∧ cur.All = .ok docs ∧
          x.Value = .jarr (some ((elems docs).map toValue))) ∧
      Driver.Snapshot demoDB demoFmt =
        (none, some ("decode documents in collection " ++ demoFmt.q "logs" ++ ": " ++
          "cursor closed")) := by
  have hread : ∀ p ∈ ["users", "posts"], Readable demoDB p := by
    intro p hp
    simp only [List.mem_cons, List.mem_singleton, List.not_mem_nil, or_false] at hp
    rcases hp with rfl | rfl
    · exact ⟨_, _, rfl, rfl⟩
    · exact ⟨_, _, rfl, rfl⟩
  exact ⟨(snapshot_sorted_by_name demoDBReadable demoFmt ["users", "posts"] rfl
      (by decide)).1 hread,
    (snapshot_sorted_by_name demoDB demoFmt ["users", "posts", "logs"] rfl (by decide)).2.2
      ["users", "posts"] "logs" [] ⟨.error "cursor closed"⟩ "cursor closed" rfl hread rfl rfl⟩

/-- C20, which the code breaks: with the test double of the repository, whose `Fatalf`
returns, and a store whose `Snapshot` fails, `Assert` reports the failure and then goes on
to call the comparator with the `nil` snapshot, where the claim and the comment of the
test `assert snapshot error returns fatal` say that the comparator is not invoked. -/
theorem assert_continues_when_fatalf_returns :
    (demoHarness.Assert mockTestingT () (some [⟨"a", 1⟩])).1 =
      (some (), [.snapshot, .fatal "snapshot: store down", .test (some [⟨"a", 1⟩]) none]) :=
  rfl

/-- Where the claim does hold: with a `TestingT` whose `Fatalf` ends the calling goroutine
for the message at hand, as `testing.T`, an error of the store's `Snapshot` makes `Assert`
report it and stop without calling the comparator; likewise an error of `Seed` makes
`T.Seed` report it and stop without handing out a handle, and an error of the loader makes
`LoadJSON` report it and stop without returning a document. -/
theorem harness_stops_at_fatal {S Reg V : Type} (pt : T S Reg V) (t : TestingT) (s s' : S)
    (expected actual : Document V) (err : String)
    (hsnap : pt.poutine.Snapshot s = ((actual, some err), s'))
    (hstop : t.Fatalf ("snapshot: " ++ err) = .stops) :
    pt.Assert t s expected = ((none, [.snapshot, .fatal ("snapshot: " ++ err)]), s') ∧
      (∀ e a, Event.test e a ∉ (pt.Assert t s expected).1.2) ∧
      (∀ (s1 s2 : S) (root got : Document V) (e : String),
        pt.poutine.Seed s1 root = ((got, some e), s2) →
        t.Fatalf ("seed: " ++ e) = .stops →
        pt.Seed t s1 root = ((none, [.seed root, .fatal ("seed: " ++ e)]), s2)) ∧
      (∀ (env : Env Reg V) (path : String) (doc : Document V) (e : String)
        (l' : documentLoader Reg V),
        pt.loader.load env path = ((doc, some e), l') →
        t.Fatalf ("load json " ++ path ++ ": " ++ e) = .stops →
        pt.LoadJSON env t path =
          ((none, [.load path, .fatal ("load json " ++ path ++ ": " ++ e)]), l')) := by
  have h : pt.Assert t s expected =
      ((none, [.snapshot, .fatal ("snapshot: " ++ err)]), s') := by
    simp only [T.Assert, hsnap, hstop]
  refine ⟨h, ?_, ?_, ?_⟩
  · intro e a hmem
    rw [h] at hmem
    simp at hmem
  · intro s1 s2 root got e hseed hst
    simp only [T.Seed, hseed, hst]
  · intro env path doc e l' hload hst
    simp only [T.LoadJSON, hload, hst]

/-- The demo harness with a `TestingT` that stops: the comparator is not called. -/
theorem harness_stops_at_fatal_witness :
    demoHarness.Assert stoppingT () (some [⟨"a", 1⟩]) =
      ((none, [.snapshot, .fatal ("snapshot: " ++ "store down")]), ()) :=
  (harness_stops_at_fatal demoHarness stoppingT () () (some [⟨"a", 1⟩]) none "store down"
    rfl rfl).1

/-- C13: in a loader that caches, after a successful load of a path the document handed out
is a slice `r1` over an array of its own, and (1) loading the path again succeeds with a
slice `r2` over another array that shows the same entries, and a top-level write through
`r1` afterwards (an entry replaced or appended) changes neither what `r2` shows nor any
cached document; (2) after a top-level write through `r1` made between the two loads, the
cached documents are as before and the second load still hands out the entries the first
load returned, in an array other than the one of `r1`. -/
theorem loads_equal_and_independent {Reg V : Type} (env : Env Reg V) (l l1 : refLoader Reg V)
    (path : String) (d1 : DocRef) (hc : l.cache = true) (hwf : l.WF)
    (h1 : l.load env path = ((d1, none), l1)) :
    ∃ r1, d1 = some r1 ∧
      (∃ r2 l2, l1.load env path = ((some r2, none), l2) ∧
        l2.heap.read (some r2) = l1.heap.read (some r1) ∧ r2.arr ≠ r1.arr ∧
        ∀ h', l2.heap.Mutated r1 h' →
          h'.read (some r2) = l2.heap.read (some r2) ∧
            refLoader.view { l2 with heap := h' } = l2.view) ∧
      ∀ h', l1.heap.Mutated r1 h' →
        refLoader.view { l1 with heap := h' } = l1.view ∧
          ∃ r2 l2, refLoader.load env { l1 with heap := h' } path = ((some r2, none), l2) ∧
            l2.heap.read (some r2) = l1.heap.read (some r1) ∧ r2.arr ≠ r1.arr := by
  have hsim := load_sim env l path hwf
  rw [h1] at hsim
  obtain ⟨hv1, hwf1, hext1, hfresh1, _, _⟩ := hsim
  have hwf1' : l1.WF := hwf1
  obtain ⟨es, hes1, hes2⟩ := load_again env l.view path hc (by rw [hv1])
  rw [hv1] at hes1 hes2
  have hes1' : l1.heap.read d1 = some es := hes1
  have hes2' : (l1.view.load env path).1 = (some es, none) := hes2
  cases d1 with
  | none => cases hes1'
  | some r1 =>
    obtain ⟨hr1a, hr1b, hr1c⟩ := hfresh1 r1 rfl
    have hr1b' : r1.arr < l1.heap.length := hr1b
    have hr1c' : ∀ c, l1.Cached c → c.arr ≠ r1.arr := hr1c
    refine ⟨r1, rfl, ?_, ?_⟩
    · obtain ⟨r2, l2, hl2, hread2, hwf2, hext2, hfresh2⟩ :=
        load_of_view env l1 path es hwf1' hes2'
      obtain ⟨hr2a, hr2b, _⟩ := hfresh2 r2 rfl
      have hne : r2.arr ≠ r1.arr := by omega
      refine ⟨r2, l2, hl2, hread2.trans hes1'.symm, hne, ?_⟩
      intro h' hm
      refine ⟨mutated_read l2.heap h' r1 r2 hm hne hr2b, ?_⟩
      refine (wf_mutated l2 r1 h' hwf2 ?_ hm).1
      intro c hcc
      rcases hext2.2 c hcc with h | h
      · exact hr1c' c h
      · omega
    · intro h' hm
      obtain ⟨hview, hwfm⟩ := wf_mutated l1 r1 h' hwf1' hr1c' hm
      refine ⟨hview, ?_⟩
      obtain ⟨r2, l2, hl2, hread2, _, _, hfresh2⟩ :=
        load_of_view env { l1 with heap := h' } path es hwfm (by rw [hview]; exact hes2')
      obtain ⟨hr2a, _, _⟩ := hfresh2 r2 rfl
      have hr2a' : h'.length ≤ r2.arr := hr2a
      have hlen := mutated_length l1.heap h' r1 hm
      exact ⟨r2, l2, hl2, hread2.trans hes1'.symm, by omega⟩

/-- C13 at a loader just made: the directory `/d` of `demoEnv` is loaded into the slice over
array 5; with its entry 0 replaced through that slice, the slice shows the new entry and
the second load hands out the three entries as they were first returned. -/
theorem loads_equal_and_independent_witness :
    ((newRefLoader () true).load demoEnv "/d").1 = (some { arr := 5, len := 3 }, none) ∧
      (((newRefLoader () true).load demoEnv "/d").2.heap.store { arr := 5, len := 3 } 0
          ⟨"x", 100⟩).read (some { arr := 5, len := 3 }) =
        some [⟨"x", 100⟩, ⟨"y", 9⟩, ⟨"z", 3⟩] ∧
      (let l1 := ((newRefLoader () true).load demoEnv "/d").2
       let r := refLoader.load demoEnv
         { l1 with heap := l1.heap.store { arr := 5, len := 3 } 0 ⟨"x", 100⟩ } "/d"
       r.2.heap.read r.1.1 = some [⟨"x", 1⟩, ⟨"y", 9⟩, ⟨"z", 3⟩]) ∧
      ∃ r1, (some { arr := 5, len := 3 } : DocRef) = some r1 ∧
        (∃ r2 l2, ((newRefLoader () true).load demoEnv "/d").2.load demoEnv "/d" =
            ((some r2, none), l2) ∧
          l2.heap.read (some r2) =
            ((newRefLoader () true).load demoEnv "/d").2.heap.read (some r1) ∧
          r2.arr ≠ r1.arr ∧
          ∀ h', l2.heap.Mutated r1 h' →
            h'.read (some r2) = l2.heap.read (some r2) ∧
              refLoader.view { l2 with heap := h' } = l2.view) ∧
        ∀ h', ((newRefLoader () true).load demoEnv "/d").2.heap.Mutated r1 h' →
          refLoader.view { ((newRefLoader () true).load demoEnv "/d").2 with heap := h' } =
              ((newRefLoader () true).load demoEnv "/d").2.view ∧
            ∃ r2 l2,
              refLoader.load demoEnv
                  { ((newRefLoader () true).load demoEnv "/d").2 with heap := h' } "/d" =
                ((some r2, none), l2) ∧
              l2.heap.read (some r2) =
                ((newRefLoader () true).load demoEnv "/d").2.heap.read (some r1) ∧
              r2.arr ≠ r1.arr :=
  ⟨by decide, by decide, by decide,
    loads_equal_and_independent demoEnv (newRefLoader () true)
      ((newRefLoader () true).load demoEnv "/d").2 "/d" (some { arr := 5, len := 3 }) rfl
      (wf_newRefLoader () true) rfl⟩

/-- C24 as stated fails: `load` hands on the decoder's error as it is and adds no path
to it. In `/e` of `demoEnv` the file `bad.json` is at fault, in `/e` of `demoEnvOtherBad`
the file `ok.json` is, and both loads return the same error, in which neither path
occurs. -/
theorem load_error_without_path :
    (decodeFile demoEnv () "/e/bad.json" : Except String (Document Nat)) =
        .error "jsontext: invalid character" ∧
      (decodeFile demoEnvOtherBad () "/e/bad.json" : Except String (Document Nat)) =
        .ok (some [⟨"y", 9⟩, ⟨"z", 3⟩]) ∧
      (decodeFile demoEnvOtherBad () "/e/ok.json" : Except String (Document Nat)) =
        .error "jsontext: invalid character" ∧
      ((newDocumentLoader () false : documentLoader Unit Nat).load demoEnv "/e").1 =
        (none, some "jsontext: invalid character") ∧
      ((newDocumentLoader () false : documentLoader Unit Nat).load demoEnvOtherBad "/e").1 =
        (none, some "jsontext: invalid character") ∧
      ((newDocumentLoader () true : documentLoader Unit Nat).load demoEnv "/e").1 =
        (none, some "jsontext: invalid character") ∧
      ((newDocumentLoader () true : documentLoader Unit Nat).load demoEnvOtherBad "/e").1 =
        (none, some "jsontext: invalid character") ∧
      ¬ ("/e/bad.json".data <:+: "jsontext: invalid character".data) ∧
      ¬ ("/e/ok.json".data <:+: "jsontext: invalid character".data) :=
  ⟨rfl, rfl, rfl, by decide, by decide, by decide, by decide, by decide, by decide⟩

/-- C24 (amended): when decoding a resolved fixture file `f` fails with the error `e` of
`os.Open` or of the decoder, while the files before it in merge order yield a document (in
cached mode neither `f` nor the path is served from a cache), `load` returns the `nil`
document and exactly `e`: the error is handed on unchanged, with no tag added by the
loader, whether the path resolves to one file or to several. -/
theorem load_decode_error_verbatim {Reg V : Type} (env : Env Reg V)
    (l : documentLoader Reg V) (path : String) (files pre post : List String) (f e : String)
    (hres : resolve env path = (files, none))
    (hsort : sortStrings files = pre ++ f :: post)
    (hpre : ∀ g ∈ pre, l.Yields env g)
    (hf : decodeFile env l.reg f = .error e)
    (hfc : l.cache = true → l.getFileCache f = none)
    (hmiss : l.cache = true → l.getPathCache path = none) :
    (l.load env path).1 = (none, some e) := by
  match files, hres, hsort with
  | [], _, hsort =>
    have h1 : (sortStrings ([] : List String)).length = (pre ++ f :: post).length := by
      rw [hsort]
    simp [sortStrings] at h1
    omega
  | [g], hres, hsort =>
    have hg : sortStrings [g] = [g] := rfl
    rw [hg] at hsort
    have hpre0 : pre = [] := by
      cases pre with
      | nil => rfl
      | cons a as =>
        have := congrArg List.length hsort
        simp at this
    subst hpre0
    have hgf : g = f := by
      have := List.head_eq_of_cons_eq hsort
      exact this
    subst hgf
    have hny : ¬ l.Yields env g := by
      rintro (⟨hc, hne⟩ | ⟨d, hd⟩)
      · exact hne (hfc hc)
      · rw [hf] at hd
        cases hd
    obtain ⟨e', he', hget⟩ := getFile_fails env l g hny
    rw [hf] at he'
    have hee : e = e' := Except.error.inj he'
    subst hee
    have hlp : l.loadPath env path =
        ((none, some e), { l with opened := l.opened ++ [g] }) := by
      simp only [documentLoader.loadPath, hres]
      exact hget
    rw [load_of_loadPath_err env l _ path e hmiss hlp]
  | a :: b :: rest, hres, hsort =>
    obtain ⟨docs, l', hrf, _⟩ := readFiles_fail env f post e pre l hpre hf hfc
    have hlp : l.loadPath env path = ((none, some e), l') := by
      rw [loadPath_multi env l path (a :: b :: rest) hres (by simp), hsort, hrf]
    rw [load_of_loadPath_err env l l' path e hmiss hlp]

/-- C24 (amended) on the file `/e/bad.json` of `demoEnv`, loaded by itself. -/
theorem load_decode_error_verbatim_witness :
    ((newDocumentLoader () true : documentLoader Unit Nat).load demoEnv "/e/bad.json").1 =
      (none, some "jsontext: invalid character") :=
  load_decode_error_verbatim demoEnv (newDocumentLoader () true) "/e/bad.json"
    ["/e/bad.json"] [] [] "/e/bad.json" "jsontext: invalid character" rfl rfl
    (fun _ h => absurd h (List.not_mem_nil _)) rfl (fun _ => rfl) (fun _ => rfl)

/-- C25: `UnwrapValue` returns the payload of `Any(v)` and of `Value(v)`, each as `any`,
and the zero value of `T` for `Absent[T]()`; on every pattern built by one of the three
constructors it returns what the typed accessor `Value` returns. -/
theorem unwrapValue_constructed {Ty Val T : Type} (ta : TypeArg Ty Val T) (v : T) :
    (Any v).UnwrapValue ta = ta.toAny v ∧ (Value v).UnwrapValue ta = ta.toAny v ∧
      (Absent ta).UnwrapValue ta = ta.toAny ta.zero ∧
      ∀ p : Pattern T, Constructed ta p → p.UnwrapValue ta = ta.toAny p.Value := by
  refine ⟨rfl, rfl, rfl, ?_⟩
  intro p hp
  cases hp with
  | absent => rfl
  | any w => rfl
  | value w => rfl

/-- C26: in uncached mode, for a path specification that resolves to exactly one file which
decodes, `load` returns exactly the decoded document (the `nil` document if the decoder
left it `nil`), with every entry where the decoder put it, and opens that one file. -/
theorem load_single_file_as_decoded {Reg V : Type} (env : Env Reg V)
    (l : documentLoader Reg V) (path f : String) (d : Document V)
    (hc : l.cache = false) (hres : resolve env path = ([f], none))
    (hd : decodeFile env l.reg f = .ok d) :
    l.load env path = ((d, none), { l with opened := l.opened ++ [f] }) := by
  rw [load_uncached env l path hc]
  have hlp : l.loadPath env path = l.getFile env f := by
    simp only [documentLoader.loadPath, hres]
  rw [hlp, getFile_uncached env l f hc, readFile_ok env l f d hd]

/-- C26 on the file `/r/dup.json`, named directly and through its directory: the key `k`
stands twice in the result, where a merge would have kept it once. -/
theorem load_single_file_as_decoded_witness :
    ((newDocumentLoader () false : documentLoader Unit Nat).load demoEnvDup "/r/dup.json").1 =
        (some [⟨"k", 1⟩, ⟨"a", 2⟩, ⟨"k", 3⟩], none) ∧
      ((newDocumentLoader () false : documentLoader Unit Nat).load demoEnvDup "/r").1 =
        (some [⟨"k", 1⟩, ⟨"a", 2⟩, ⟨"k", 3⟩], none) ∧
      mergeDocs [(some [⟨"k", 1⟩, ⟨"a", 2⟩, ⟨"k", 3⟩] : Document Nat)] =
        some [⟨"k", 3⟩, ⟨"a", 2⟩] :=
  ⟨congrArg Prod.fst
      (load_single_file_as_decoded demoEnvDup (newDocumentLoader () false) "/r/dup.json"
        "/r/dup.json" (some [⟨"k", 1⟩, ⟨"a", 2⟩, ⟨"k", 3⟩]) rfl rfl rfl),
    by decide, by decide⟩

/-- C21: `New` calls `RegisterTypes` exactly once, with the registry `reg` the harness then
uses for decoding fixtures (the one the options supply or, with none supplied, the fresh
one `jwalk.NewRegistry()` returns), if the store implements the registrar capability, and
not at all otherwise; when that call returns an error, `New` returns the error and no
harness; in every other case it returns a harness whose registry and whose loader's
registry are `reg`. -/
theorem new_registers_once {S Reg V : Type} (deps : Deps Reg V) (p : Store S Reg V)
    (opts : List (Options Reg V → Options Reg V)) (reg : Reg)
    (hreg : (applyOptions deps opts).Registry = some reg ∨
      ((applyOptions deps opts).Registry = none ∧ deps.NewRegistry = .ok reg)) :
    registered (New deps p opts).2.2 = (if p.RegisterTypes.isSome then [reg] else []) ∧
      (∀ f err, p.RegisterTypes = some f → f reg = some err →
        (New deps p opts).1 = none ∧ (New deps p opts).2.1 = some err) ∧
      ((∀ f, p.RegisterTypes = some f → f reg = none) →
        (New deps p opts).1 = some (buildT p (applyOptions deps opts) reg) ∧
          (New deps p opts).2.1 = none) ∧
      (∀ h, (New deps p opts).1 = some h → h.registry = reg ∧ h.loader.reg = reg) := by
  have hnew : ∃ calls, registered calls = [] ∧
      New deps p opts = registerAndBuild p (applyOptions deps opts) reg calls := by
    rcases hreg with h | ⟨h1, h2⟩
    · exact ⟨[], rfl, by simp only [New, h]⟩
    · exact ⟨[.newRegistry], rfl, by simp only [New, h1, h2]⟩
  obtain ⟨calls, hcalls, hnew⟩ := hnew
  have happ : ∀ r : Reg, registered (calls ++ [NewCall.registerTypes r]) = [r] := by
    intro r
    have hgen : ∀ cs : List (NewCall Reg),
        registered (cs ++ [NewCall.registerTypes r]) = registered cs ++ [r] := by
      intro cs
      induction cs with
      | nil => rfl
      | cons c cs ih =>
        cases c with
        | newRegistry => exact ih
        | registerTypes r0 =>
          show r0 :: registered (cs ++ [NewCall.registerTypes r]) = r0 :: registered cs ++ [r]
          rw [ih]
          rfl
    rw [hgen, hcalls]
    rfl
  rw [hnew]
  refine ⟨?_, ?_, ?_, ?_⟩
  · cases hp : p.RegisterTypes with
    | none => simp only [registerAndBuild, hp, hcalls, Option.isSome_none]; rfl
    | some f =>
      cases hf : f reg with
      | none => simp only [registerAndBuild, hp, hf, happ, Option.isSome_some, if_true]
      | some err => simp only [registerAndBuild, hp, hf, happ, Option.isSome_some, if_true]
  · intro f err hp hf
    simp only [registerAndBuild, hp, hf, and_self]
  · intro hok
    cases hp : p.RegisterTypes with
    | none => simp only [registerAndBuild, hp, and_self]
    | some f => simp only [registerAndBuild, hp, hok f hp, and_self]
  · intro h hh
    cases hp : p.RegisterTypes with
    | none =>
      simp only [registerAndBuild, hp] at hh
      rw [← Option.some.inj hh]
      exact ⟨rfl, rfl⟩
    | some f =>
      cases hf : f reg with
      | none =>
        simp only [registerAndBuild, hp, hf] at hh
        rw [← Option.some.inj hh]
        exact ⟨rfl, rfl⟩
      | some err =>
        simp only [registerAndBuild, hp, hf] at hh
        cases hh

/-- C21 with the registry 3 supplied to a store that implements the registrar capability,
once registering and once refusing, and with no registry supplied, where the fresh
registry 7 is used. -/
theorem new_registers_once_witness :
    registered (New demoDeps (registrarStore false) [WithRegistry (some 3)]).2.2 = [3] ∧
      (New demoDeps (registrarStore false) [WithRegistry (some 3)]).2.1 = none ∧
      (New demoDeps (registrarStore true) [WithRegistry (some 3)]).1.isNone = true ∧
      (New demoDeps (registrarStore true) [WithRegistry (some 3)]).2 =
        (some "directive already registered", [NewCall.registerTypes 3]) ∧
      registered (New demoDeps (registrarStore false) []).2.2 = [7] :=
  ⟨(new_registers_once demoDeps (registrarStore false) [WithRegistry (some 3)] 3
      (Or.inl rfl)).1, rfl, rfl, rfl, rfl⟩

/-- C22: `T.Cleanup` hands exactly one function to the hook `t.Cleanup` and does nothing
else: whether it returns, the calls made and the store afterwards are those of the runs the
hook makes of that function. With a hook that keeps the function for later, as
`testing.T`, no call is made and the store is as before; a hook that runs it `n` times
makes at most `n` calls of `Teardown`, exactly `n` when `Cleanup` returns. Each run of the
function calls `Teardown` exactly once, with `context.Background()`, leaves the store as
`Teardown` leaves it, and calls `Fatalf` exactly when `Teardown` returns an error, once,
with the message "teardown: " followed by the error. -/
theorem cleanup_registers_teardown {S Reg V : Type} (pt : T S Reg V) (t : TestingT) (s : S) :
    ((pt.Cleanup t s).1.1 = [pt.cleanupFunc t] ∧
        (pt.Cleanup t s).1.2 = (runCleanupHook (pt.cleanupFunc t) t.Cleanup s).1 ∧
        (pt.Cleanup t s).2 = (runCleanupHook (pt.cleanupFunc t) t.Cleanup s).2 ∧
        (t.Cleanup = 0 → (pt.Cleanup t s).1.2 = (some (), []) ∧ (pt.Cleanup t s).2 = s) ∧
        ∃ k, k ≤ t.Cleanup ∧
          teardowns (pt.Cleanup t s).1.2.2 = List.replicate k Context.background ∧
          ((pt.Cleanup t s).1.2.1 ≠ none → k = t.Cleanup)) ∧
      ∀ f ∈ (pt.Cleanup t s).1.1, ∀ s1 : S,
        teardowns (f s1).1.2 = [Context.background] ∧ (f s1).2 = (pt.poutine.Teardown s1).2 ∧
          (fatals (f s1).1.2 ≠ [] ↔ (pt.poutine.Teardown s1).1 ≠ none) ∧
          (∀ err, (pt.poutine.Teardown s1).1 = some err →
            fatals (f s1).1.2 = ["teardown: " ++ err] ∧
              (f s1).1.1 = (match t.Fatalf ("teardown: " ++ err) with
                | .stops => none
                | .returns => some ())) ∧
          ((pt.poutine.Teardown s1).1 = none → (f s1).1 = (some (), [.teardown .background])) := by
  have hdef : pt.Cleanup t s =
      (([pt.cleanupFunc t], (runCleanupHook (pt.cleanupFunc t) t.Cleanup s).1.1,
        (runCleanupHook (pt.cleanupFunc t) t.Cleanup s).1.2),
        (runCleanupHook (pt.cleanupFunc t) t.Cleanup s).2) := by
    unfold T.Cleanup
    rcases runCleanupHook (pt.cleanupFunc t) t.Cleanup s with ⟨⟨r, calls⟩, s'⟩
    rfl
  refine ⟨⟨by rw [hdef], by rw [hdef], by rw [hdef], ?_, ?_⟩, ?_⟩
  · intro h0
    rw [hdef, h0]
    exact ⟨rfl, rfl⟩
  · obtain ⟨k, hk, hk1, hk2⟩ :=
      runCleanupHook_teardowns (pt.cleanupFunc t) (fun s1 => (cleanupFunc_run pt t s1).1)
        t.Cleanup s
    refine ⟨k, hk, ?_, ?_⟩
    · rw [hdef]
      exact hk1
    · rw [hdef]
      exact hk2
  · intro f hf s1
    rw [hdef] at hf
    have hf' : f = pt.cleanupFunc t := List.mem_singleton.1 hf
    rw [hf']
    exact cleanupFunc_run pt t s1

/-- C22 on a store that counts its teardowns and refuses them. With the test double, whose
hook runs the function at once, `Cleanup` returns after one teardown and one report; with
a hook that keeps the function, `Cleanup` leaves the count at 0 and a later run of the
function tears down once. -/
theorem cleanup_registers_teardown_witness :
    ((countingHarness true).Cleanup mockTestingT 0).1.1.length = 1 ∧
      ((countingHarness true).Cleanup mockTestingT 0).1.2 =
        (some (), [.teardown .background, .fatal "teardown: drop database: refused"]) ∧
      ((countingHarness true).Cleanup mockTestingT 0).2 = 1 ∧
      ((countingHarness true).Cleanup stoppingT 0).1.2 = (some (), []) ∧
      ((countingHarness true).Cleanup stoppingT 0).2 = 0 ∧
      (countingHarness true).cleanupFunc stoppingT 0 =
        ((none, [.teardown .background, .fatal "teardown: drop database: refused"]), 1) ∧
      (countingHarness false).cleanupFunc stoppingT 0 =
        ((some (), [.teardown .background]), 1) :=
  ⟨congrArg List.length (cleanup_registers_teardown (countingHarness true) mockTestingT 0).1.1,
    rfl, rfl, rfl, rfl, rfl, rfl⟩

/-- C23 as stated fails for a string that is no object id: the decoder hands on the error
of `bson.ObjectIDFromHex` as it is, and that message does not name the directive. -/
theorem oid_unparsable_string_error_unnamed :
    unmarshalOIDPattern demoBSON (.ok (.string "not-an-object-id")) =
        (Absent demoOID, some "the provided hex string is not a valid ObjectID") ∧
      ¬ Mentions "the provided hex string is not a valid ObjectID" "$oid" :=
  ⟨rfl, by decide⟩

/-- C23 (amended): for every decoded payload the decoder of `$oid` returns a pattern built
by one of the three constructors, the `Absent` one whenever it returns an error. Boolean
`true` gives the wildcard `Any` over a new object id; a string that `ObjectIDFromHex`
parses gives `Value` of the parsed id; a string it rejects gives its error unchanged;
boolean `false` gives the error "$oid bool must be true to indicate wildcard"; every other
payload (a number, null, an object, an array) gives the error "invalid $oid payload type "
followed by the type of the payload; these last two messages name the directive and the
type. -/
theorem oid_decoder_cases {Ty Val OID : Type} (b : BSON OID) (ta : TypeArg Ty Val OID)
    (raw : Payload) (hz : ta.zero = b.zero) :
    Constructed ta (unmarshalOIDPattern b (.ok raw)).1 ∧
      ((unmarshalOIDPattern b (.ok raw)).2 ≠ none →
        (unmarshalOIDPattern b (.ok raw)).1 = Absent ta) ∧
      (raw = .bool true → unmarshalOIDPattern b (.ok raw) = (Any b.NewObjectID, none)) ∧
      (∀ s oid, raw = .string s → b.ObjectIDFromHex s = .ok oid →
        unmarshalOIDPattern b (.ok raw) = (Value oid, none)) ∧
      (∀ s err, raw = .string s → b.ObjectIDFromHex s = .error err →
        unmarshalOIDPattern b (.ok raw) = (Absent ta, some err)) ∧
      (raw = .bool false →
        unmarshalOIDPattern b (.ok raw) =
          (Absent ta, some "$oid bool must be true to indicate wildcard")) ∧
      ((∀ v, raw ≠ .bool v) → (∀ s, raw ≠ .string s) →
        unmarshalOIDPattern b (.ok raw) =
          (Absent ta, some ("invalid $oid payload type " ++ raw.typeName))) ∧
      Mentions "$oid bool must be true to indicate wildcard" "$oid" ∧
      Mentions "$oid bool must be true to indicate wildcard" (Payload.bool false).typeName ∧
      Mentions ("invalid $oid payload type " ++ raw.typeName) "$oid" ∧
      Mentions ("invalid $oid payload type " ++ raw.typeName) raw.typeName := by
  have habs : ({ value := b.zero, present := false, explicit := false } : Pattern OID) =
      Absent ta := by
    unfold Absent
    rw [hz]
  have hm1 : Mentions ("invalid $oid payload type " ++ raw.typeName) "$oid" :=
    ⟨"invalid ".data, " payload type ".data ++ raw.typeName.data, rfl⟩
  have hm2 : Mentions ("invalid $oid payload type " ++ raw.typeName) raw.typeName :=
    ⟨"invalid $oid payload type ".data, [], by simp [String.data_append]⟩
  refine ⟨?_, ?_, ?_, ?_, ?_, ?_, ?_, by decide, by decide, hm1, hm2⟩
  · cases raw with
    | bool v =>
      cases v with
      | true => exact Constructed.any _
      | false =>
        show Constructed ta { value := b.zero, present := false, explicit := false }
        rw [habs]
        exact Constructed.absent
    | string s =>
      cases hs : b.ObjectIDFromHex s with
      | error err =>
        simp only [unmarshalOIDPattern, hs]
        rw [habs]
        exact Constructed.absent
      | ok oid =>
        simp only [unmarshalOIDPattern, hs]
        exact Constructed.value _
    | number n =>
      show Constructed ta { value := b.zero, present := false, explicit := false }
      rw [habs]
      exact Constructed.absent
    | null =>
      show Constructed ta { value := b.zero, present := false, explicit := false }
      rw [habs]
      exact Constructed.absent
    | object o =>
      show Constructed ta { value := b.zero, present := false, explicit := false }
      rw [habs]
      exact Constructed.absent
    | array a =>
      show Constructed ta { value := b.zero, present := false, explicit := false }
      rw [habs]
      exact Constructed.absent
  · intro herr
    cases raw with
    | bool v =>
      cases v with
      | true => exact absurd rfl herr
      | false => exact habs
    | string s =>
      cases hs : b.ObjectIDFromHex s with
      | error err =>
        simp only [unmarshalOIDPattern, hs]
        exact habs
      | ok oid =>
        simp only [unmarshalOIDPattern, hs] at herr
        exact absurd rfl herr
    | number n => exact habs
    | null => exact habs
    | object o => exact habs
    | array a => exact habs
  · intro h
    rw [h]
    rfl
  · intro s oid h hs
    rw [h]
    simp only [unmarshalOIDPattern, hs]
  · intro s err h hs
    rw [h]
    simp only [unmarshalOIDPattern, hs, habs]
  · intro h
    rw [h, ← habs]
    rfl
  · intro hb hs
    rw [← habs]
    cases raw with
    | bool v => exact absurd rfl (hb v)
    | string s => exact absurd rfl (hs s)
    | number n => rfl
    | null => rfl
    | object o => rfl
    | array a => rfl

/-- C23 (amended) on the payloads `true`, an object id in hexadecimal, and a number. -/
theorem oid_decoder_cases_witness :
    unmarshalOIDPattern demoBSON (.ok (.bool true)) =
        (Any "65f1a2b3c4d5e6f708192a3b", none) ∧
      unmarshalOIDPattern demoBSON (.ok (.string "0123456789abcdef01234567")) =
        (Value "0123456789abcdef01234567", none) ∧
      unmarshalOIDPattern demoBSON (.ok (.number "42")) =
        (Absent demoOID, some "invalid $oid payload type float64") ∧
      unmarshalOIDPattern demoBSON (.ok .null) =
        (Absent demoOID, some "invalid $oid payload type <nil>") :=
  ⟨(oid_decoder_cases demoBSON demoOID (.bool true) rfl).2.2.1 rfl,
    (oid_decoder_cases demoBSON demoOID (.string "0123456789abcdef01234567") rfl).2.2.2.1
      "0123456789abcdef01234567" "0123456789abcdef01234567" rfl rfl,
    rfl, rfl⟩

/-- C27: `toBSONDocument` returns the keys of its input in the same order, hence as many
entries, and `toBSONArray` as many elements as its input has; entry `i` of the result
holds the converted value of entry `i`, element `i` the converted element `i`. Converting a
value turns a `jwalk.Document` into the `bson.D` of its converted entries, a `jwalk.Array`
into the `bson.A` of its converted elements, a value with a method `UnwrapValue` into what
that method returns, and returns every other value as it is. At every depth below the
document or the array, the value at a path through the converted containers is the
converted value at that path. -/
theorem toBSON_keeps_shape (doc : Option (List (Entry GoVal))) (arr : Option (List GoVal)) :
    ((elems (toBSONDocument doc)).map Entry.Key = (elems doc).map Entry.Key ∧
        (elems (toBSONDocument doc)).length = (elems doc).length ∧
        (elems (toBSONArray arr)).length = (elems arr).length) ∧
      (∀ (i : Nat) (e : Entry GoVal), (elems doc)[i]? = some e →
        (elems (toBSONDocument doc))[i]? =
          some ({ Key := e.Key, Value := toBSONValue e.Value } : Entry GoVal)) ∧
      (∀ (i : Nat) (u : GoVal), (elems arr)[i]? = some u →
        (elems (toBSONArray arr))[i]? = some (toBSONValue u)) ∧
      ((∀ d, toBSONValue (.jdoc d) = .bdoc (toBSONDocument d)) ∧
        (∀ a, toBSONValue (.jarr a) = .barr (toBSONArray a)) ∧
        (∀ ty inner, toBSONValue (.unwrappable ty inner) = inner) ∧
        (∀ v, (∀ d, v ≠ .jdoc d) → (∀ a, v ≠ .jarr a) →
          (∀ ty inner, v ≠ .unwrappable ty inner) → toBSONValue v = v)) ∧
      (∀ path w, descend jchild (.jdoc doc) path = some w →
        descend bchild (.bdoc (toBSONDocument doc)) path = some (toBSONValue w)) ∧
      (∀ path w, descend jchild (.jarr arr) path = some w →
        descend bchild (.barr (toBSONArray arr)) path = some (toBSONValue w)) := by
  refine ⟨⟨?_, ?_, ?_⟩, ?_, ?_, ⟨fun _ => rfl, fun _ => rfl, fun _ _ => rfl, ?_⟩, ?_, ?_⟩
  · rw [elems_toBSONDocument, List.map_map]
    rfl
  · rw [elems_toBSONDocument, List.length_map]
  · rw [elems_toBSONArray, List.length_map]
  · intro i e h
    rw [elems_toBSONDocument, List.getElem?_map, h]
    rfl
  · intro i u h
    rw [elems_toBSONArray, List.getElem?_map, h]
    rfl
  · intro v hd ha hu
    cases v with
    | jdoc d => exact absurd rfl (hd d)
    | jarr a => exact absurd rfl (ha a)
    | unwrappable ty inner => exact absurd rfl (hu ty inner)
    | bdoc _ => rfl
    | barr _ => rfl
    | leaf _ _ => rfl
    | null => rfl
  · intro path w h
    exact descend_toBSONValue path (.jdoc doc) w h
  · intro path w h
    exact descend_toBSONValue path (.jarr arr) w h

/-- C27 on a document with wrapped values, a raw `bson.D` and `nil` containers: the three
keys stay in place, the wrapped values are replaced by their payloads as they are, and the
`nil` array at depth two becomes an empty `bson.A`. -/
theorem toBSON_keeps_shape_witness :
    toBSONDocument demoWrappedTree =
        some [⟨"_id", .leaf "bson.ObjectID" "65f1"⟩,
          ⟨"meta", .bdoc (some [⟨"owner", .jdoc none⟩, ⟨"raw", .bdoc none⟩])⟩,
          ⟨"tags", .barr (some [.leaf "string" "go", .barr (some [])])⟩] ∧
      descend bchild (.bdoc (toBSONDocument demoWrappedTree)) [2, 1] =
        some (toBSONValue (.jarr none)) :=
  ⟨rfl, (toBSON_keeps_shape demoWrappedTree none).2.2.2.2.1 [2, 1] (.jarr none) rfl⟩

/-- C28 as stated fails on a tree that holds a `nil` container: the `nil` document under
`spare` comes back as an empty document that is not `nil`. -/
theorem roundtrip_changes_nil_container :
    demoNilTree.plain = true ∧
      toValue (toBSONValue demoNilTree) =
        .jdoc (some [⟨"id", .leaf "int" "1"⟩, ⟨"spare", .jdoc (some [])⟩]) ∧
      toValue (toBSONValue demoNilTree) ≠ demoNilTree :=
  ⟨rfl, rfl, fun h => Bool.noConfusion (congrArg GoVal.nilFree h)⟩

/-- C28 (amended): for every tree built from `jwalk.Document`s, `jwalk.Array`s and plain
leaves, converting to `bson` and back gives the tree with each `nil` container replaced by
an empty one, keys, order and nesting being kept; when no container of the tree is `nil`
the result is the tree itself. -/
theorem roundtrip_plain_tree (v : GoVal) (hplain : v.plain = true) :
    toValue (toBSONValue v) = fillNil v ∧
      (v.nilFree = true → toValue (toBSONValue v) = v) := by
  refine ⟨roundtrip_value v hplain, ?_⟩
  intro hnil
  rw [roundtrip_value v hplain, fillNil_nilFree v hnil]

/-- C28 (amended) on a tree three levels deep without `nil` containers. -/
theorem roundtrip_plain_tree_witness :
    demoTree.plain = true ∧ demoTree.nilFree = true ∧
      toValue (toBSONValue demoTree) = demoTree :=
  ⟨rfl, rfl, (roundtrip_plain_tree demoTree rfl).2 rfl⟩

/-- C30: for a well-shaped seed tree `toBSONCollections` returns a map whose keys are the
distinct top-level keys of the tree, each holding the converted records of the last
top-level entry with that key; every bulk write `Driver.Seed` issues carries, under the
name of its collection, the records of that last entry, so the records of an earlier
entry with the same key are not written. -/
theorem toBSONCollections_last_entry_wins (fmt : Fmt) (root : Document GoVal)
    (hshape : WellShaped root) :
    ∃ cols, toBSONCollections fmt root = (some cols, none) ∧
      (cols.map Prod.fst).Nodup ∧
      (∀ k, k ∈ cols.map Prod.fst ↔ k ∈ root.entries.map Entry.Key) ∧
      (∀ k v, lastValue root.entries k = some v →
        mapGet cols k = some (some (recordsOf v))) ∧
      ∀ (db : MongoDB) (visit : Collections → Collections), (∀ cs, (visit cs).Perm cs) →
        ∀ w ∈ (Driver.Seed db fmt visit root).2,
          (lastValue root.entries w.1).map recordsOf = some w.2 := by
  have hfold := convertFields_fold fmt root.entries [] hshape
  obtain ⟨hnd, hkeys, hget⟩ := foldl_mapSet_spec root.entries [] List.nodup_nil
  have hconv : toBSONCollections fmt root =
      (some (root.entries.foldl (fun c e => mapSet c e.Key (some (recordsOf e.Value))) []),
        none) := hfold
  refine ⟨_, hconv, hnd, ?_, ?_, ?_⟩
  · intro k
    rw [hkeys k]
    simp
  · intro k v hv
    rw [hget k, hv]
  · intro db visit hvisit w hw
    have hsub : ∀ w ∈ (Driver.Seed db fmt visit root).2,
        ∃ d, (w.1, d) ∈ root.entries.foldl
          (fun c e => mapSet c e.Key (some (recordsOf e.Value))) [] ∧ w.2 = elems d := by
      intro w hw
      unfold Driver.Seed at hw
      rw [hconv] at hw
      cases hs : db.sessionErr with
      | some err =>
        simp only [hs] at hw
        cases hw
      | none =>
        simp only [hs] at hw
        have hmem : w ∈ (seedLoop db fmt (visit (root.entries.foldl
            (fun c e => mapSet c e.Key (some (recordsOf e.Value))) [])) []).2 := by
          rcases hl : seedLoop db fmt (visit (elems (some (root.entries.foldl
              (fun c e => mapSet c e.Key (some (recordsOf e.Value))) [])))) [] with ⟨err, issued⟩
          rw [hl] at hw
          have hl' : seedLoop db fmt (visit (root.entries.foldl
              (fun c e => mapSet c e.Key (some (recordsOf e.Value))) [])) [] = (err, issued) := hl
          rw [hl']
          cases err with
          | some e => exact hw
          | none => exact hw
        rcases seedLoop_issued db fmt _ [] w hmem with h1 | ⟨d, hd, he⟩
        · cases h1
        · exact ⟨d, (hvisit _).subset hd, he⟩
    obtain ⟨d, hd, he⟩ := hsub w hw
    have hg := mapGet_of_mem _ w.1 d hnd hd
    rw [hget w.1] at hg
    cases hl : lastValue root.entries w.1 with
    | none =>
      rw [hl] at hg
      cases hg
    | some v =>
      rw [hl] at hg
      have hd' : d = some (recordsOf v) := (Option.some.inj hg).symm
      rw [he, hd']
      rfl

/-- C30 on a tree in which `users` stands twice: the map holds `users` once, with the one
record of the second entry, and `Seed` writes that record and the one of `posts`; the two
records of the first `users` entry are not written. -/
theorem toBSONCollections_last_entry_wins_witness :
    toBSONCollections demoFmt demoDupRoot =
        (some [("users", some [.bdoc (some [⟨"name", .leaf "string" "Carol"⟩])]),
          ("posts", some [.bdoc (some [⟨"title", .leaf "string" "Hello"⟩])])], none) ∧
      (Driver.Seed demoDBWritable demoFmt id demoDupRoot).2 =
        [("users", [.bdoc (some [⟨"name", .leaf "string" "Carol"⟩])]),
          ("posts", [.bdoc (some [⟨"title", .leaf "string" "Hello"⟩])])] ∧
      ∃ cols, toBSONCollections demoFmt demoDupRoot = (some cols, none) ∧
        (cols.map Prod.fst).Nodup := by
  have hshape : WellShaped demoDupRoot := by
    intro e he
    simp only [demoDupRoot, Document.entries, List.mem_cons, List.mem_singleton,
      List.not_mem_nil, or_false] at he
    rcases he with rfl | rfl | rfl
    · refine ⟨_, rfl, ?_⟩
      intro el hel
      simp only [elems, List.mem_cons, List.mem_singleton, List.not_mem_nil, or_false] at hel
      rcases hel with rfl | rfl
      · exact ⟨_, rfl⟩
      · exact ⟨_, rfl⟩
    · refine ⟨_, rfl, ?_⟩
      intro el hel
      simp only [elems, List.mem_cons, List.mem_singleton, List.not_mem_nil, or_false] at hel
      rcases hel with rfl
      exact ⟨_, rfl⟩
    · refine ⟨_, rfl, ?_⟩
      intro el hel
      simp only [elems, List.mem_cons, List.mem_singleton, List.not_mem_nil, or_false] at hel
      rcases hel with rfl
      exact ⟨_, rfl⟩
  obtain ⟨cols, h1, h2, _⟩ := toBSONCollections_last_entry_wins demoFmt demoDupRoot hshape
  exact ⟨rfl, rfl, cols, h1, h2⟩

/-- C29: for a fixed file system, a loader that caches and started with empty caches, after
any sequence of earlier loads (none for the first load of the path, or loads of this and of
other paths for a later one), returns for every path specification the outcome of a loader
without caches: the same error, so both fail or both succeed, and on success documents
equal entry for entry. Hence every later load of the path returns the document of the
first. -/
theorem cached_load_refines_uncached {Reg V : Type} (env : Env Reg V) (reg : Reg)
    (ps : List String) (path : String) (l0 : documentLoader Reg V)
    (h0 : l0.cache = false) (hr0 : l0.reg = reg) :
    (((newDocumentLoader reg true).loads env ps).load env path).1.2 =
        (l0.load env path).1.2 ∧
      (((newDocumentLoader reg true).loads env ps).load env path).1.1.entries =
        (l0.load env path).1.1.entries ∧
      (((newDocumentLoader reg true).loads env (path :: ps)).load env path).1.2 =
        ((newDocumentLoader reg true : documentLoader Reg V).load env path).1.2 ∧
      (((newDocumentLoader reg true).loads env (path :: ps)).load env path).1.1.entries =
        ((newDocumentLoader reg true : documentLoader Reg V).load env path).1.1.entries := by
  have hplain : ∀ l : documentLoader Reg V, l.Coherent env → l.reg = reg →
      (l.load env path).1.2 = (l0.load env path).1.2 ∧
        (l.load env path).1.1.entries = (l0.load env path).1.1.entries := by
    intro l hco hr
    obtain ⟨a, b, _, _⟩ := load_coherent env l path hco
    have hfresh : (newDocumentLoader reg true : documentLoader Reg V).FileCoherent env :=
      (coherent_new env reg).1
    obtain ⟨c1, c2, _⟩ :=
      loadPath_coherent env (newDocumentLoader reg true) (newDocumentLoader reg false) path
        hfresh rfl rfl
    obtain ⟨d1, d2, _⟩ :=
      loadPath_coherent env (newDocumentLoader reg true) l0 path hfresh h0 hr0
    have hp : plainLoad env reg path = ((newDocumentLoader reg false).loadPath env path).1 := by
      unfold plainLoad
      rw [load_uncached env _ path rfl]
    rw [hr, hp] at a b
    rw [load_uncached env l0 path h0]
    exact ⟨a.trans (c1.symm.trans d1), b.trans (c2.symm.trans d2)⟩
  have hany : ∀ qs : List String,
      (((newDocumentLoader reg true).loads env qs).load env path).1.2 =
          (l0.load env path).1.2 ∧
        (((newDocumentLoader reg true).loads env qs).load env path).1.1.entries =
          (l0.load env path).1.1.entries := by
    intro qs
    obtain ⟨hco, hr⟩ := loads_coherent env qs (newDocumentLoader reg true) (coherent_new env reg)
    exact hplain _ hco hr
  obtain ⟨e1, e2⟩ := hany ps
  obtain ⟨f1, f2⟩ := hany (path :: ps)
  obtain ⟨g1, g2⟩ := hany []
  exact ⟨e1, e2, f1.trans g1.symm, f2.trans g2.symm⟩

/-- C29 on the directory `/d` of `demoEnv`, loaded a first time and again after loads of
`/d`, of the failing `/e` and of `/d/b.json`; and on `/e`, which fails in both modes. -/
theorem cached_load_refines_uncached_witness :
    ((newDocumentLoader () false : documentLoader Unit Nat).load demoEnv "/d").1 =
        (some [⟨"x", 1⟩, ⟨"y", 9⟩, ⟨"z", 3⟩], none) ∧
      ((newDocumentLoader () true : documentLoader Unit Nat).load demoEnv "/d").1 =
        (some [⟨"x", 1⟩, ⟨"y", 9⟩, ⟨"z", 3⟩], none) ∧
      ((((newDocumentLoader () true : documentLoader Unit Nat).loads demoEnv
          ["/d", "/e", "/d/b.json"]).load demoEnv "/d").1.1.entries =
        ((newDocumentLoader () false : documentLoader Unit Nat).load demoEnv "/d").1.1.entries) ∧
      ((newDocumentLoader () true : documentLoader Unit Nat).load demoEnv "/e").1.2 =
        ((newDocumentLoader () false : documentLoader Unit Nat).load demoEnv "/e").1.2 :=
  ⟨by decide, by decide,
    (cached_load_refines_uncached demoEnv () ["/d", "/e", "/d/b.json"] "/d"
      (newDocumentLoader () false) rfl rfl).2.1,
    (cached_load_refines_uncached demoEnv () [] "/e" (newDocumentLoader () false) rfl rfl).1⟩


end Poutine
